import Mathlib

/-! The AODV routing table with DBSCAN neighbour selection.

A shallow embedding of `src/aodvDbscan/model/aodvDbscan-rtable.cc`.

* `Simulator::Now ()` is an explicit argument `now` of every function that reads the clock.
* `ns3::Time` is a signed tick count, modelled by `Int` (sums are assumed to stay in range).
* `std::map<Ipv4Address, RoutingTableEntry>` is the list of its (key, value) pairs in iteration
  order; `mapFind`, `mapInsert`, `mapErase` follow the contract of `find`, `insert`, `erase`.
* A reference parameter that a function may assign (`RoutingTableEntry & rt`) is returned next
  to the result, and the table after the call is returned as well.
* Entries are values: the route object an entry points to is copied with the entry, so a change
  made through a pointer shared with a copy held by the caller is not part of the model.
* The operations on `double` are a parameter (`DoubleOps`) of the neighbour selection: what is
  proved about its control flow holds for every interpretation of them; what is proved about
  values (normalization, scores) is proved for binary64 arithmetic (`f64Ops`): `double` is
  the IEEE 754 binary64 format and each operation gives its exact result rounded to the
  nearest value, ties to even, one operation at a time (no fused multiply-add and no wider
  intermediate format).
* The `while` loop that expands a cluster is bounded by the number of points, which is enough
  because a point is processed at most once in an expansion (`expandCluster_labels`).
-/

namespace AodvDbscan

/-! ## Data model -/

/-- An IPv4 address, the 32 bit value of `ns3::Ipv4Address`; the table is ordered by it. -/
abbrev Ipv4Address := Nat

/-- A time or a duration in ticks (`ns3::Time`). -/
abbrev Time := Int

/-- The route flag `RouteFlags` of an entry. -/
inductive RouteFlags where
  | VALID
  | INVALID
  | IN_SEARCH
  deriving DecidableEq, Repr

open RouteFlags

/-- The interface address `Ipv4InterfaceAddress`; its `operator==` compares these three parts. -/
structure Ipv4InterfaceAddress where
  m_local : Ipv4Address
  m_mask : Nat
  m_broadcast : Ipv4Address
  deriving DecidableEq, Repr

/-- The route object `Ipv4Route` filled by the entry constructor. -/
structure Ipv4Route where
  m_dest : Ipv4Address
  m_gateway : Ipv4Address
  m_source : Ipv4Address
  m_outputDevice : Nat
  deriving DecidableEq, Repr

/-- The fields of `RoutingTableEntry`, as initialised by its constructor (the acknowledgement
timer, which carries no table state, is left out). -/
structure RoutingTableEntry where
  m_validSeqNo : Bool
  m_seqNo : Nat
  m_hops : Nat
  m_lifeTime : Time
  m_iface : Ipv4InterfaceAddress
  m_flag : RouteFlags
  m_reqCount : Nat
  m_blackListState : Bool
  m_blackListTimeout : Time
  m_txerrorCount : Nat
  m_positionX : Nat
  m_positionY : Nat
  m_freeSpace : Nat
  m_ipv4Route : Ipv4Route
  m_precursorList : List Ipv4Address
  deriving DecidableEq, Repr

namespace RoutingTableEntry

/-- Modelled from the spec: the accessor `GetDestination` is declared in the header
`aodvDbscan-rtable.h`, which is not among the sources; the destination address of an entry is
the destination of the route the constructor fills. -/
def GetDestination (e : RoutingTableEntry) : Ipv4Address := e.m_ipv4Route.m_dest

/-- Modelled from the spec: the accessor `GetNextHop` of the missing header; the next hop is the
gateway of the route the constructor fills. -/
def GetNextHop (e : RoutingTableEntry) : Ipv4Address := e.m_ipv4Route.m_gateway

/-- Modelled from the spec: the accessor `GetFlag` of the missing header (status flag). -/
def GetFlag (e : RoutingTableEntry) : RouteFlags := e.m_flag

/-- Modelled from the spec: the setter `SetFlag` of the missing header (status flag). -/
def SetFlag (e : RoutingTableEntry) (flag : RouteFlags) : RoutingTableEntry :=
  { e with m_flag := flag }

/-- Modelled from the spec: the setter `SetRreqCnt` of the missing header (request counter). -/
def SetRreqCnt (e : RoutingTableEntry) (n : Nat) : RoutingTableEntry :=
  { e with m_reqCount := n }

/-- Modelled from the spec: the accessor `GetRreqCnt` of the missing header (request counter). -/
def GetRreqCnt (e : RoutingTableEntry) : Nat := e.m_reqCount

/-- Modelled from the spec: the accessor `GetLifeTime` of the missing header. The stored deadline
is an absolute instant (the constructor and `Invalidate` store a duration plus the current time)
and times are compared by subtraction, so the remaining lifetime is the deadline minus now; it is
negative exactly when the deadline is strictly before now. -/
def GetLifeTime (e : RoutingTableEntry) (now : Time) : Time := e.m_lifeTime - now

/-- Modelled from the spec: the accessor `GetSeqNo` of the missing header (sequence number). -/
def GetSeqNo (e : RoutingTableEntry) : Nat := e.m_seqNo

/-- Modelled from the spec: the accessor `GetInterface` of the missing header (interface). -/
def GetInterface (e : RoutingTableEntry) : Ipv4InterfaceAddress := e.m_iface

/-- Modelled from the spec: the accessor `GetHop` of the missing header (hop count). -/
def GetHop (e : RoutingTableEntry) : Nat := e.m_hops

/-- Modelled from the spec: the setter `SetUnidirectional` of the missing header
(unidirectional-link flag). -/
def SetUnidirectional (e : RoutingTableEntry) (u : Bool) : RoutingTableEntry :=
  { e with m_blackListState := u }

/-- Modelled from the spec: the setter `SetBlacklistTimeout` of the missing header; the spec
describes the argument as the blacklist deadline, which is stored as given. -/
def SetBlacklistTimeout (e : RoutingTableEntry) (t : Time) : RoutingTableEntry :=
  { e with m_blackListTimeout := t }

/-- `RoutingTableEntry::Invalidate`: nothing happens on an entry that is already `INVALID`;
otherwise the flag, the request counter and the deadline are assigned. -/
def Invalidate (e : RoutingTableEntry) (badLinkLifetime : Time) (now : Time) :
    RoutingTableEntry :=
  if e.m_flag = INVALID then e
  else { e with m_flag := INVALID, m_reqCount := 0, m_lifeTime := badLinkLifetime + now }

end RoutingTableEntry

/-! ## The associative container -/

/-- The pairs of a `std::map<Ipv4Address, RoutingTableEntry>`, in iteration order. -/
abbrev EntryMap := List (Ipv4Address × RoutingTableEntry)

/-- The keys of a map, in iteration order. -/
def mapKeys {β : Type} (m : List (Ipv4Address × β)) : List Ipv4Address := m.map Prod.fst

/-- `std::map::find`: the value of the first pair with the given key, if any. -/
def mapFind {β : Type} (k : Ipv4Address) : List (Ipv4Address × β) → Option β
  | [] => none
  | (k', v) :: rest => if k' = k then some v else mapFind k rest

/-- The position at which `std::map::insert` puts a new pair: before the first greater key. -/
def mapPlace {β : Type} (k : Ipv4Address) (v : β) :
    List (Ipv4Address × β) → List (Ipv4Address × β)
  | [] => [(k, v)]
  | (k', v') :: rest =>
    if k < k' then (k, v) :: (k', v') :: rest else (k', v') :: mapPlace k v rest

/-- `std::map::insert`: when the key is present the map is left as it is and the flag is
`false`; otherwise the pair is put at its place in key order and the flag is `true`. -/
def mapInsert {β : Type} (k : Ipv4Address) (v : β) (m : List (Ipv4Address × β)) :
    List (Ipv4Address × β) × Bool :=
  match mapFind k m with
  | some _ => (m, false)
  | none => (mapPlace k v m, true)

/-- `std::map::erase (key)`: the pairs with the key are removed; the count of removed pairs
is returned. -/
def mapErase {β : Type} (k : Ipv4Address) (m : List (Ipv4Address × β)) :
    List (Ipv4Address × β) × Nat :=
  (m.filter (fun p => p.1 ≠ k), (m.filter (fun p => p.1 = k)).length)

/-- An assignment through the iterator returned by `find`: the value of the first pair with
the given key is replaced by `f` of it, its key stays. -/
def mapModify {β : Type} (k : Ipv4Address) (f : β → β) :
    List (Ipv4Address × β) → List (Ipv4Address × β)
  | [] => []
  | (k', v) :: rest => if k' = k then (k', f v) :: rest else (k', v) :: mapModify k f rest

/-! ## The routing table -/

/-- The state of `RoutingTable`: the map of entries and the bad-link lifetime. -/
structure RoutingTable where
  m_ipv4AddressEntry : EntryMap
  m_badLinkLifetime : Time
  deriving DecidableEq, Repr

/-- The constructor `RoutingTable::RoutingTable (Time t)`: an empty map. -/
def RoutingTable.new (t : Time) : RoutingTable := ⟨[], t⟩

/-- The sweep of `RoutingTable::Purge` over the pairs of the map, one iteration per pair. -/
def purgeLoop (badLinkLifetime : Time) (now : Time) : EntryMap → EntryMap
  | [] => []
  | (k, e) :: rest =>
    if e.GetLifeTime now < 0 then
      if e.GetFlag = INVALID then
        purgeLoop badLinkLifetime now rest
      else if e.GetFlag = VALID then
        (k, e.Invalidate badLinkLifetime now) :: purgeLoop badLinkLifetime now rest
      else
        (k, e) :: purgeLoop badLinkLifetime now rest
    else
      (k, e) :: purgeLoop badLinkLifetime now rest

namespace RoutingTable

/-- `RoutingTable::Purge ()`. -/
def Purge (T : RoutingTable) (now : Time) : RoutingTable :=
  if T.m_ipv4AddressEntry.isEmpty then T
  else { T with m_ipv4AddressEntry := purgeLoop T.m_badLinkLifetime now T.m_ipv4AddressEntry }

/-- `RoutingTable::LookupRoute`: the result, the caller's entry `rt` after the call and the
table after the call. -/
def LookupRoute (T : RoutingTable) (now : Time) (id : Ipv4Address) (rt : RoutingTableEntry) :
    Bool × RoutingTableEntry × RoutingTable :=
  let T1 := T.Purge now
  if T1.m_ipv4AddressEntry.isEmpty then (false, rt, T1)
  else
    match mapFind id T1.m_ipv4AddressEntry with
    | none => (false, rt, T1)
    | some e => (true, e, T1)

/-- `RoutingTable::LookupValidRoute`: the result, the caller's entry `rt` after the call and
the table after the call. -/
def LookupValidRoute (T : RoutingTable) (now : Time) (id : Ipv4Address)
    (rt : RoutingTableEntry) : Bool × RoutingTableEntry × RoutingTable :=
  let r := T.LookupRoute now id rt
  if !r.1 then (false, r.2.1, r.2.2)
  else (decide (r.2.1.GetFlag = VALID), r.2.1, r.2.2)

/-- `RoutingTable::DeleteRoute`: the result and the table after the call. -/
def DeleteRoute (T : RoutingTable) (now : Time) (dst : Ipv4Address) : Bool × RoutingTable :=
  let T1 := T.Purge now
  let r := mapErase dst T1.m_ipv4AddressEntry
  if r.2 ≠ 0 then (true, { T1 with m_ipv4AddressEntry := r.1 })
  else (false, { T1 with m_ipv4AddressEntry := r.1 })

/-- `RoutingTable::AddRoute`: the result, the caller's entry `rt` after the call (its request
counter is reset in place before the copy is inserted) and the table after the call. -/
def AddRoute (T : RoutingTable) (now : Time) (rt : RoutingTableEntry) :
    Bool × RoutingTableEntry × RoutingTable :=
  let T1 := T.Purge now
  let rt1 := if rt.GetFlag ≠ IN_SEARCH then rt.SetRreqCnt 0 else rt
  let result := mapInsert rt1.GetDestination rt1 T1.m_ipv4AddressEntry
  (result.2, rt1, { T1 with m_ipv4AddressEntry := result.1 })

/-- `RoutingTable::Update`: the result and the table after the call; the caller's entry is
only read. -/
def Update (T : RoutingTable) (rt : RoutingTableEntry) : Bool × RoutingTable :=
  match mapFind rt.GetDestination T.m_ipv4AddressEntry with
  | none => (false, T)
  | some _ =>
    (true, { T with m_ipv4AddressEntry :=
      (mapModify rt.GetDestination
        (fun _ => if rt.GetFlag ≠ IN_SEARCH then rt.SetRreqCnt 0 else rt)
        T.m_ipv4AddressEntry) })

/-- `RoutingTable::SetEntryState`: the result and the table after the call. -/
def SetEntryState (T : RoutingTable) (id : Ipv4Address) (state : RouteFlags) :
    Bool × RoutingTable :=
  match mapFind id T.m_ipv4AddressEntry with
  | none => (false, T)
  | some _ =>
    (true, { T with m_ipv4AddressEntry :=
      (mapModify id (fun e => (e.SetFlag state).SetRreqCnt 0) T.m_ipv4AddressEntry) })

end RoutingTable

/-- The loop of `RoutingTable::GetListOfDestinationWithNextHop` over the pairs of the table,
inserting into the output map. -/
def collectNextHop (nextHop : Ipv4Address) :
    EntryMap → List (Ipv4Address × Nat) → List (Ipv4Address × Nat)
  | [], unreachable => unreachable
  | (k, e) :: rest, unreachable =>
    if e.GetNextHop = nextHop then
      collectNextHop nextHop rest (mapInsert k e.GetSeqNo unreachable).1
    else collectNextHop nextHop rest unreachable

namespace RoutingTable

/-- `RoutingTable::GetListOfDestinationWithNextHop`: the output map `unreachable` after the
call (it is cleared first, so its value before the call is not an input) and the table after
the call. -/
def GetListOfDestinationWithNextHop (T : RoutingTable) (now : Time) (nextHop : Ipv4Address) :
    List (Ipv4Address × Nat) × RoutingTable :=
  let T1 := T.Purge now
  (collectNextHop nextHop T1.m_ipv4AddressEntry [], T1)

end RoutingTable

/-- The inner loop of `RoutingTable::InvalidateRoutesWithDst`: one table pair against every
pair of the set. -/
def invalidateInner (badLinkLifetime : Time) (now : Time) (k : Ipv4Address) :
    RoutingTableEntry → List (Ipv4Address × Nat) → RoutingTableEntry
  | e, [] => e
  | e, (j, _) :: rest =>
    if k = j ∧ e.GetFlag = VALID then
      invalidateInner badLinkLifetime now k (e.Invalidate badLinkLifetime now) rest
    else invalidateInner badLinkLifetime now k e rest

/-- The outer loop of `RoutingTable::InvalidateRoutesWithDst` over the pairs of the table. -/
def invalidateLoop (badLinkLifetime : Time) (now : Time)
    (unreachable : List (Ipv4Address × Nat)) : EntryMap → EntryMap
  | [] => []
  | (k, e) :: rest =>
    (k, invalidateInner badLinkLifetime now k e unreachable) ::
      invalidateLoop badLinkLifetime now unreachable rest

namespace RoutingTable

/-- `RoutingTable::InvalidateRoutesWithDst`: the table after the call. -/
def InvalidateRoutesWithDst (T : RoutingTable) (now : Time)
    (unreachable : List (Ipv4Address × Nat)) : RoutingTable :=
  let T1 := T.Purge now
  { T1 with m_ipv4AddressEntry :=
      (invalidateLoop T1.m_badLinkLifetime now unreachable T1.m_ipv4AddressEntry) }

end RoutingTable

/-- The loop of `RoutingTable::DeleteAllRoutesFromInterface`, one iteration per pair. -/
def deleteIfaceLoop (iface : Ipv4InterfaceAddress) : EntryMap → EntryMap
  | [] => []
  | (k, e) :: rest =>
    if e.GetInterface = iface then deleteIfaceLoop iface rest
    else (k, e) :: deleteIfaceLoop iface rest

namespace RoutingTable

/-- `RoutingTable::DeleteAllRoutesFromInterface`: the table after the call. -/
def DeleteAllRoutesFromInterface (T : RoutingTable) (iface : Ipv4InterfaceAddress) :
    RoutingTable :=
  if T.m_ipv4AddressEntry.isEmpty then T
  else { T with m_ipv4AddressEntry := deleteIfaceLoop iface T.m_ipv4AddressEntry }

/-- `RoutingTable::MarkLinkAsUnidirectional`: the result and the table after the call. -/
def MarkLinkAsUnidirectional (T : RoutingTable) (neighbor : Ipv4Address)
    (blacklistTimeout : Time) : Bool × RoutingTable :=
  match mapFind neighbor T.m_ipv4AddressEntry with
  | none => (false, T)
  | some _ =>
    (true, { T with m_ipv4AddressEntry :=
      (mapModify neighbor
        (fun e => ((e.SetUnidirectional true).SetBlacklistTimeout blacklistTimeout).SetRreqCnt 0)
        T.m_ipv4AddressEntry) })

end RoutingTable

/-! ## Sequences of operations -/

/-- A call of one of the operations that change the table, with its arguments. -/
inductive TableOp where
  | addRoute (rt : RoutingTableEntry)
  | update (rt : RoutingTableEntry)
  | deleteRoute (dst : Ipv4Address)
  | setEntryState (id : Ipv4Address) (state : RouteFlags)
  | invalidateRoutesWithDst (unreachable : List (Ipv4Address × Nat))
  | deleteAllRoutesFromInterface (iface : Ipv4InterfaceAddress)
  | markLinkAsUnidirectional (neighbor : Ipv4Address) (blacklistTimeout : Time)
  | purge

/-- The table after one call made at time `now`. -/
def applyOp (T : RoutingTable) (now : Time) : TableOp → RoutingTable
  | .addRoute rt => (T.AddRoute now rt).2.2
  | .update rt => (T.Update rt).2
  | .deleteRoute dst => (T.DeleteRoute now dst).2
  | .setEntryState id state => (T.SetEntryState id state).2
  | .invalidateRoutesWithDst unreachable => T.InvalidateRoutesWithDst now unreachable
  | .deleteAllRoutesFromInterface iface => T.DeleteAllRoutesFromInterface iface
  | .markLinkAsUnidirectional neighbor blacklistTimeout =>
    (T.MarkLinkAsUnidirectional neighbor blacklistTimeout).2
  | .purge => T.Purge now

/-- The table after a sequence of calls, each made at its own time. -/
def runOps (T : RoutingTable) : List (Time × TableOp) → RoutingTable
  | [] => T
  | (now, op) :: rest => runOps (applyOp T now op) rest

/-! ## The behaviour the specification describes -/

/-- What the specification says `Purge` does to one pair: an expired `INVALID` entry is
removed, an expired `VALID` entry is kept under its key with flag `INVALID`, request counter 0
and deadline now plus the bad-link lifetime, every other entry is kept as it is. -/
def specPurgeEntry (badLinkLifetime : Time) (now : Time)
    (p : Ipv4Address × RoutingTableEntry) : Option (Ipv4Address × RoutingTableEntry) :=
  if p.2.m_lifeTime < now ∧ p.2.m_flag = INVALID then none
  else if p.2.m_lifeTime < now ∧ p.2.m_flag = VALID then
    some (p.1, { p.2 with m_flag := INVALID, m_reqCount := 0,
                          m_lifeTime := now + badLinkLifetime })
  else some p

/-- What the specification says `InvalidateRoutesWithDst` does to one pair of the purged
table: a `VALID` entry whose destination is a key of the set gets flag `INVALID`, request
counter 0 and deadline now plus the bad-link lifetime, every other entry is kept as it is. -/
def specInvalidateEntry (badLinkLifetime : Time) (now : Time) (dsts : List Ipv4Address)
    (p : Ipv4Address × RoutingTableEntry) : Ipv4Address × RoutingTableEntry :=
  if p.2.GetDestination ∈ dsts ∧ p.2.m_flag = VALID then
    (p.1, { p.2 with m_flag := INVALID, m_reqCount := 0,
                     m_lifeTime := now + badLinkLifetime })
  else p

/-- The same change decided by the key under which the entry is stored instead of the
destination recorded in the entry. -/
def invalidateByKey (badLinkLifetime : Time) (now : Time) (dsts : List Ipv4Address)
    (p : Ipv4Address × RoutingTableEntry) : Ipv4Address × RoutingTableEntry :=
  if p.1 ∈ dsts ∧ p.2.m_flag = VALID then
    (p.1, { p.2 with m_flag := INVALID, m_reqCount := 0,
                     m_lifeTime := now + badLinkLifetime })
  else p

/-! ## Well-formedness of a table -/

/-- The keys of the map are strictly ascending, as `std::map` keeps them; in particular no key
occurs twice. -/
def keysAscending (m : EntryMap) : Prop := (mapKeys m).Pairwise (· < ·)

/-- Every stored entry is stored under the key equal to its own destination address. -/
def keyedByDestination (m : EntryMap) : Prop := ∀ p ∈ m, p.1 = p.2.GetDestination

/-- The two well-formedness conditions of a routing table. -/
def tableInvariant (T : RoutingTable) : Prop :=
  keysAscending T.m_ipv4AddressEntry ∧ keyedByDestination T.m_ipv4AddressEntry

instance (m : EntryMap) : Decidable (keysAscending m) :=
  inferInstanceAs (Decidable ((mapKeys m).Pairwise (· < ·)))

instance (m : EntryMap) : Decidable (keyedByDestination m) :=
  inferInstanceAs (Decidable (∀ p ∈ m, p.1 = p.2.GetDestination))

instance (T : RoutingTable) : Decidable (tableInvariant T) :=
  inferInstanceAs
    (Decidable (keysAscending T.m_ipv4AddressEntry ∧ keyedByDestination T.m_ipv4AddressEntry))

/-! ## Concrete inputs -/

/-- An entry for destination `dst` with the given flag, deadline and request counter: one
hop through gateway 2 on interface 10, sequence number 1, no precursors. -/
def exampleEntry (dst : Ipv4Address) (flag : RouteFlags) (deadline : Time) (reqCount : Nat) :
    RoutingTableEntry :=
  { m_validSeqNo := true, m_seqNo := 1, m_hops := 1, m_lifeTime := deadline,
    m_iface := ⟨10, 24, 255⟩, m_flag := flag, m_reqCount := reqCount,
    m_blackListState := false, m_blackListTimeout := 0, m_txerrorCount := 0,
    m_positionX := 0, m_positionY := 0, m_freeSpace := 0,
    m_ipv4Route := ⟨dst, 2, 10, 0⟩, m_precursorList := [] }

/-- A table with bad-link lifetime 7 and four entries: three with deadline 5 (one per flag)
and a `VALID` one with deadline 50. -/
def exampleTable : RoutingTable :=
  ⟨[(1, exampleEntry 1 VALID 5 3), (2, exampleEntry 2 INVALID 5 3),
    (3, exampleEntry 3 IN_SEARCH 5 3), (4, exampleEntry 4 VALID 50 2)], 7⟩

/-! ## Precursors -/

/-- The loop of `RoutingTableEntry::LookupPrecursor` over the precursor list. -/
def lookupPrecursorLoop (id : Ipv4Address) : List Ipv4Address → Bool
  | [] => false
  | x :: rest => if x = id then true else lookupPrecursorLoop id rest

/-- `std::remove (first, last, value)`: the elements other than `value`, in their order, which
the call moves to the front of the range; the returned iterator is the end of that part. -/
def stdRemove (id : Ipv4Address) (l : List Ipv4Address) : List Ipv4Address :=
  l.filter (fun x => x ≠ id)

namespace RoutingTableEntry

/-- `RoutingTableEntry::LookupPrecursor`. -/
def LookupPrecursor (e : RoutingTableEntry) (id : Ipv4Address) : Bool :=
  lookupPrecursorLoop id e.m_precursorList

/-- `RoutingTableEntry::InsertPrecursor`: the result and the entry after the call. -/
def InsertPrecursor (e : RoutingTableEntry) (id : Ipv4Address) : Bool × RoutingTableEntry :=
  if !e.LookupPrecursor id then
    (true, { e with m_precursorList := e.m_precursorList ++ [id] })
  else (false, e)

/-- `RoutingTableEntry::DeletePrecursor`: the result and the entry after the call. The iterator
returned by `std::remove` is the end of the list exactly when nothing was removed. -/
def DeletePrecursor (e : RoutingTableEntry) (id : Ipv4Address) : Bool × RoutingTableEntry :=
  let kept := stdRemove id e.m_precursorList
  if kept.length = e.m_precursorList.length then (false, e)
  else (true, { e with m_precursorList := kept })

/-- `RoutingTableEntry::DeleteAllPrecursors`. -/
def DeleteAllPrecursors (e : RoutingTableEntry) : RoutingTableEntry :=
  { e with m_precursorList := [] }

end RoutingTableEntry

/-- A call of one of the operations that change the precursor list, with its argument. -/
inductive PrecursorOp where
  | insertPrecursor (id : Ipv4Address)
  | deletePrecursor (id : Ipv4Address)
  | deleteAllPrecursors

/-- The entry after one call. -/
def applyPrecursorOp (e : RoutingTableEntry) : PrecursorOp → RoutingTableEntry
  | .insertPrecursor id => (e.InsertPrecursor id).2
  | .deletePrecursor id => (e.DeletePrecursor id).2
  | .deleteAllPrecursors => e.DeleteAllPrecursors

/-- The entry after a sequence of calls. -/
def runPrecursorOps (e : RoutingTableEntry) : List PrecursorOp → RoutingTableEntry
  | [] => e
  | op :: rest => runPrecursorOps (applyPrecursorOp e op) rest

/-! ## The non-mutating purge and the table dump -/

/-- The sweep of `RoutingTable::Purge (table) const` over the pairs of the map passed by the
caller, one iteration per pair. -/
def purgeTableLoop (badLinkLifetime : Time) (now : Time) : EntryMap → EntryMap
  | [] => []
  | (k, e) :: rest =>
    if e.GetLifeTime now < 0 then
      if e.GetFlag = INVALID then
        purgeTableLoop badLinkLifetime now rest
      else if e.GetFlag = VALID then
        (k, e.Invalidate badLinkLifetime now) :: purgeTableLoop badLinkLifetime now rest
      else
        (k, e) :: purgeTableLoop badLinkLifetime now rest
    else
      (k, e) :: purgeTableLoop badLinkLifetime now rest

/-- One line of the dump written by `RoutingTableEntry::Print`: destination, gateway, local
interface address, flag label, remaining lifetime and hop count (column widths and number
formats are left out). -/
structure PrintedRow where
  dest : Ipv4Address
  gw : Ipv4Address
  iface : Ipv4Address
  flag : String
  expire : Time
  hops : Nat
  deriving DecidableEq, Repr

namespace RoutingTableEntry

/-- `RoutingTableEntry::Print`: the line written for the entry. -/
def Print (e : RoutingTableEntry) (now : Time) : PrintedRow :=
  { dest := e.m_ipv4Route.m_dest
    gw := e.m_ipv4Route.m_gateway
    iface := e.m_iface.m_local
    flag :=
      match e.m_flag with
      | VALID => "UP"
      | INVALID => "DOWN"
      | IN_SEARCH => "IN_SEARCH"
    expire := e.m_lifeTime - now
    hops := e.m_hops }

end RoutingTableEntry

namespace RoutingTable

/-- `RoutingTable::Purge (table) const`: the map passed by the caller after the call; the
method is `const`, the table `T` itself is only read (its bad-link lifetime). -/
def PurgeTable (T : RoutingTable) (now : Time) (table : EntryMap) : EntryMap :=
  if table.isEmpty then table
  else purgeTableLoop T.m_badLinkLifetime now table

/-- `RoutingTable::Print`: the lines written, one per entry of the purged copy, and the table
after the call (the method is `const`: the table is left as it is). -/
def Print (T : RoutingTable) (now : Time) : List PrintedRow × RoutingTable :=
  let table := T.m_ipv4AddressEntry
  let table1 := T.PurgeTable now table
  (table1.map (fun p => p.2.Print now), T)

end RoutingTable

/-! ## Address classes -/

/-- The test `Ipv4Address::IsBroadcast` of ns-3: the address 255.255.255.255. -/
def IsBroadcast (a : Ipv4Address) : Bool := a == 0xffffffff

/-- The test `Ipv4Address::IsLocalhost` of ns-3: the address 127.0.0.1. -/
def IsLocalhost (a : Ipv4Address) : Bool := a == 0x7f000001

/-- The test `Ipv4Address::IsMulticast` of ns-3: the range 224.0.0.0 to 239.255.255.255. -/
def IsMulticast (a : Ipv4Address) : Bool := decide (0xe0000000 ≤ a) && decide (a ≤ 0xefffffff)

/-- The test `Ipv4Address::IsSubnetDirectedBroadcast (mask)` of ns-3: false for the mask of
all ones, otherwise every host bit of the address is set. -/
def IsSubnetDirectedBroadcast (a : Ipv4Address) (mask : Nat) : Bool :=
  if mask = 0xffffffff then false else (a ||| (0xffffffff - mask)) == a

/-! ## The neighbour selection -/

/-- Modelled from the spec: the accessor `GetPositionX` of the missing header (position x). -/
def RoutingTableEntry.GetPositionX (e : RoutingTableEntry) : Nat := e.m_positionX

/-- Modelled from the spec: the accessor `GetPositionY` of the missing header (position y). -/
def RoutingTableEntry.GetPositionY (e : RoutingTableEntry) : Nat := e.m_positionY

/-- Modelled from the spec: the accessor `GetTxErrorCount` of the missing header (cumulative
transmission-error count). -/
def RoutingTableEntry.GetTxErrorCount (e : RoutingTableEntry) : Nat := e.m_txerrorCount

/-- Modelled from the spec: the accessor `GetFreeSpace` of the missing header (free capacity). -/
def RoutingTableEntry.GetFreeSpace (e : RoutingTableEntry) : Nat := e.m_freeSpace

/-- The operations on `double` that `RoutingTable::DBSCAN` uses: conversion from an unsigned
integer (also used for the literals), the four operations, `std::sqrt` and the comparisons
`<`, `<=`, `!=`. The routine is modelled for any interpretation of them. -/
structure DoubleOps (K : Type) where
  ofNat : Nat → K
  add : K → K → K
  sub : K → K → K
  mul : K → K → K
  div : K → K → K
  sqrt : K → K
  lt : K → K → Bool
  le : K → K → Bool
  ne : K → K → Bool

/-! ## The type `double`

The values of `double` are those of the IEEE 754 binary64 format and every operation gives the
exact result rounded to the nearest value, a tie going to the value with an even last digit
(the default rounding mode). A finite value is kept as its sign and its magnitude, a rational
number, so the two zeros are distinct values that compare equal. -/

/-- Rounding of a rational to the nearest integer, a tie going to the even one. -/
def roundHalfEven (q : ℚ) : Int :=
  if q - ⌊q⌋ < 1 / 2 then ⌊q⌋
  else if 1 / 2 < q - ⌊q⌋ then ⌊q⌋ + 1
  else if ⌊q⌋ % 2 = 0 then ⌊q⌋
  else ⌊q⌋ + 1

/-- The number of binary digits of `n`, counted with at most `fuel` halvings. -/
def bitLength : Nat → Nat → Nat
  | 0, _ => 0
  | fuel + 1, n => if n = 0 then 0 else bitLength fuel (n / 2) + 1

/-- The greatest `e` with `2 ^ e ≤ n`, for a positive natural number `n`. -/
def natLog2 (n : Nat) : Nat := bitLength n n - 1

/-- The greatest `e` with `2 ^ e ≤ q`, for a positive rational `q`: the difference of the
logarithms of numerator and denominator, or one less. -/
def floorLog2 (q : ℚ) : Int :=
  if (2 : ℚ) ^ ((natLog2 q.num.toNat : Int) - (natLog2 q.den : Int)) ≤ q then
    (natLog2 q.num.toNat : Int) - (natLog2 q.den : Int)
  else (natLog2 q.num.toNat : Int) - (natLog2 q.den : Int) - 1

/-- The exponent of the spacing of the binary64 values around a magnitude `q`: 52 binary
digits below the leading one, and never below the spacing 2 ^ (-1074) of the subnormal
values. -/
def ulpExp (q : ℚ) : Int := max (floorLog2 q) (-1022) - 52

/-- Rounding of a magnitude to the nearest multiple of the spacing around it, before the test
for overflow. -/
def roundMag (q : ℚ) : ℚ := (roundHalfEven (q / 2 ^ ulpExp q) : ℚ) * 2 ^ ulpExp q

/-- A value of type `double`: a finite value by its sign bit and its magnitude, an infinity by
its sign bit, or a NaN. -/
inductive F64 where
  | fin (neg : Bool) (mag : ℚ)
  | inf (neg : Bool)
  | nan
  deriving DecidableEq

namespace F64

/-- The rational with sign bit `neg` and magnitude `mag`. -/
def signed (neg : Bool) (mag : ℚ) : ℚ := if neg then -mag else mag

/-- The rational value of a finite value (0 for the infinities and NaN). -/
def toRat : F64 → ℚ
  | fin s m => signed s m
  | _ => 0

/-- The value with sign bit `neg` nearest to the magnitude `q`: an infinity when the rounded
magnitude reaches 2 ^ 1024. -/
def ofMag (neg : Bool) (q : ℚ) : F64 :=
  if (2 : ℚ) ^ (1024 : Int) ≤ roundMag q then inf neg else fin neg (roundMag q)

/-- The value nearest to the rational `q`, with the sign of `q`; `zeroNeg` is the sign bit of
the result when `q` is 0. -/
def round (q : ℚ) (zeroNeg : Bool) : F64 :=
  if q = 0 then fin zeroNeg 0 else ofMag (decide (q < 0)) |q|

/-- The value of a literal that denotes the rational `q`. -/
def ofRat (q : ℚ) : F64 := round q false

/-- The conversion of an unsigned integer to `double`. -/
def ofNat (n : Nat) : F64 := round n false

/-- The negation, which flips the sign bit. -/
def neg : F64 → F64
  | fin s m => fin (!s) m
  | inf s => inf (!s)
  | nan => nan

/-- The sum: an exact sum of 0 is -0 only when both operands are negative. -/
def add : F64 → F64 → F64
  | nan, _ => nan
  | _, nan => nan
  | inf a, inf b => if a = b then inf a else nan
  | inf a, fin _ _ => inf a
  | fin _ _, inf b => inf b
  | fin a x, fin b y => round (signed a x + signed b y) (a && b)

/-- The difference `a - b`, which is `a + (-b)`. -/
def sub (a b : F64) : F64 := add a (neg b)

/-- The product; the sign bit is the exclusive or of the sign bits. -/
def mul : F64 → F64 → F64
  | nan, _ => nan
  | _, nan => nan
  | inf a, inf b => inf (xor a b)
  | inf a, fin b y => if y = 0 then nan else inf (xor a b)
  | fin a x, inf b => if x = 0 then nan else inf (xor a b)
  | fin a x, fin b y => ofMag (xor a b) (x * y)

/-- The quotient; the sign bit is the exclusive or of the sign bits. -/
def div : F64 → F64 → F64
  | nan, _ => nan
  | _, nan => nan
  | inf _, inf _ => nan
  | inf a, fin b _ => inf (xor a b)
  | fin a _, inf b => fin (xor a b) 0
  | fin a x, fin b y =>
    if y = 0 then (if x = 0 then nan else inf (xor a b)) else ofMag (xor a b) (x / y)

/-- The binary digits of the integer square root of `n`, from digit `b - 1` down, added to
`r`. -/
def sqrtBits (n : Nat) : Nat → Nat → Nat
  | 0, r => r
  | b + 1, r =>
    if (r + 2 ^ b) * (r + 2 ^ b) ≤ n then sqrtBits n b (r + 2 ^ b) else sqrtBits n b r

/-- The integer square root of `n`. -/
def natSqrt (n : Nat) : Nat := sqrtBits n (natLog2 n / 2 + 1) 0

/-- The number of binary digits by which the square root of a positive magnitude `q` is
scaled: enough for 56 digits before the point. -/
def sqrtShift (q : ℚ) : Nat := (56 - floorLog2 q / 2).toNat

/-- The integer part of the square root of `q`, scaled by `sqrtShift q` binary digits. -/
def sqrtFloor (q : ℚ) : Nat := natSqrt ⌊q * (4 ^ sqrtShift q : Nat)⌋.toNat

/-- A rational that rounds as the square root of the positive magnitude `q` does: the scaled
root itself when it is an integer, and otherwise its integer part plus one half, which has the
same binary64 values and the same midpoints of neighbouring values below and above it. -/
def sqrtMag (q : ℚ) : ℚ :=
  if ((sqrtFloor q * sqrtFloor q : Nat) : ℚ) = q * (4 ^ sqrtShift q : Nat) then
    (sqrtFloor q : ℚ) / (2 ^ sqrtShift q : Nat)
  else ((sqrtFloor q : ℚ) + 1 / 2) / (2 ^ sqrtShift q : Nat)

/-- The function `std::sqrt`: NaN below 0, and the square root of a zero is that zero. -/
def sqrt : F64 → F64
  | nan => nan
  | inf s => if s then nan else inf false
  | fin s x => if x = 0 then fin s 0 else if s then nan else ofMag false (sqrtMag x)

/-- The comparison `a < b`, false when an operand is NaN. -/
def lt : F64 → F64 → Bool
  | nan, _ => false
  | _, nan => false
  | inf a, inf b => a && !b
  | inf a, fin _ _ => a
  | fin _ _, inf b => !b
  | fin a x, fin b y => decide (signed a x < signed b y)

/-- The comparison `a <= b`, false when an operand is NaN. -/
def le : F64 → F64 → Bool
  | nan, _ => false
  | _, nan => false
  | inf a, inf b => a || !b
  | inf a, fin _ _ => a
  | fin _ _, inf b => !b
  | fin a x, fin b y => decide (signed a x ≤ signed b y)

/-- The comparison `a != b`, true when an operand is NaN. -/
def ne : F64 → F64 → Bool
  | nan, _ => true
  | _, nan => true
  | inf a, inf b => a != b
  | inf _, fin _ _ => true
  | fin _ _, inf _ => true
  | fin a x, fin b y => decide (signed a x ≠ signed b y)

end F64

/-- The operations of the routine on `double`, in binary64 arithmetic. -/
def f64Ops : DoubleOps F64 :=
  { ofNat := F64.ofNat
    add := F64.add
    sub := F64.sub
    mul := F64.mul
    div := F64.div
    sqrt := F64.sqrt
    lt := F64.lt
    le := F64.le
    ne := F64.ne }

/-- The local type `FeaturePoint`: an address and the three features `f[0]`, `f[1]`, `f[2]`. -/
structure FeaturePoint (K : Type) where
  ip : Ipv4Address
  f0 : K
  f1 : K
  f2 : K

/-- The test of step 1 that lets an entry through: none of the conditions that make the loop
`continue` holds. -/
def isCandidate (p : Ipv4Address × RoutingTableEntry) : Bool :=
  !(IsBroadcast p.1 || IsLocalhost p.1 || IsMulticast p.1 ||
    IsSubnetDirectedBroadcast p.1 0xffffff00 ||
    decide (p.2.GetFlag = INVALID) || decide (p.2.GetHop > 2))

/-- The feature point step 1 builds for an entry. -/
def featurePoint {K : Type} (ops : DoubleOps K) (positionX positionY : Nat)
    (p : Ipv4Address × RoutingTableEntry) : FeaturePoint K :=
  let dx := ops.sub (ops.ofNat positionX) (ops.ofNat p.2.GetPositionX)
  let dy := ops.sub (ops.ofNat positionY) (ops.ofNat p.2.GetPositionY)
  { ip := p.1
    f0 := ops.sqrt (ops.add (ops.mul dx dx) (ops.mul dy dy))
    f1 := ops.ofNat p.2.GetTxErrorCount
    f2 := ops.ofNat p.2.GetFreeSpace }

/-- Step 1, the loop over the entries of the table that fills `points`. -/
def extractPoints {K : Type} (ops : DoubleOps K) (positionX positionY : Nat) :
    EntryMap → List (FeaturePoint K)
  | [] => []
  | p :: rest =>
    if IsBroadcast p.1 || IsLocalhost p.1 || IsMulticast p.1 ||
        IsSubnetDirectedBroadcast p.1 0xffffff00 ||
        decide (p.2.GetFlag = INVALID) || decide (p.2.GetHop > 2) then
      extractPoints ops positionX positionY rest
    else featurePoint ops positionX positionY p :: extractPoints ops positionX positionY rest

/-- `std::min (a, b)`: `b` when `b < a`, otherwise `a`. -/
def stdMin {K : Type} (ops : DoubleOps K) (a b : K) : K := if ops.lt b a then b else a

/-- `std::max (a, b)`: `b` when `a < b`, otherwise `a`. -/
def stdMax {K : Type} (ops : DoubleOps K) (a b : K) : K := if ops.lt a b then b else a

/-- The value step 2 assigns in one dimension, given the minimum and maximum found. -/
def normalizeValue {K : Type} (ops : DoubleOps K) (minv maxv v : K) : K :=
  let range := ops.sub maxv minv
  if ops.ne range (ops.ofNat 0) then ops.div (ops.sub v minv) range else ops.ofNat 0

/-- Step 2: in each dimension the minimum and maximum are folded from the first point over
the others, then every point gets its normalized value. -/
def normalize {K : Type} (ops : DoubleOps K) : List (FeaturePoint K) → List (FeaturePoint K)
  | [] => []
  | p0 :: rest =>
    let min0 := (rest.map FeaturePoint.f0).foldl (stdMin ops) p0.f0
    let max0 := (rest.map FeaturePoint.f0).foldl (stdMax ops) p0.f0
    let min1 := (rest.map FeaturePoint.f1).foldl (stdMin ops) p0.f1
    let max1 := (rest.map FeaturePoint.f1).foldl (stdMax ops) p0.f1
    let min2 := (rest.map FeaturePoint.f2).foldl (stdMin ops) p0.f2
    let max2 := (rest.map FeaturePoint.f2).foldl (stdMax ops) p0.f2
    (p0 :: rest).map (fun p =>
      { ip := p.ip
        f0 := normalizeValue ops min0 max0 p.f0
        f1 := normalizeValue ops min1 max1 p.f1
        f2 := normalizeValue ops min2 max2 p.f2 })

/-- The label of a point that the clustering loop has not reached. -/
def UNVISITED : Int := -1

/-- The label of a point found to have too few neighbours. -/
def NOISE : Int := -2

/-- The point `points[i]` (the indices the routine uses are below the number of points). -/
def pointAt {K : Type} (ops : DoubleOps K) (points : List (FeaturePoint K)) (i : Nat) :
    FeaturePoint K :=
  points.getD i ⟨0, ops.ofNat 0, ops.ofNat 0, ops.ofNat 0⟩

/-- The lambda `dist`: the root of the sum of the squared differences of the three features. -/
def dist {K : Type} (ops : DoubleOps K) (points : List (FeaturePoint K)) (a b : Nat) : K :=
  let d0 := ops.sub (pointAt ops points a).f0 (pointAt ops points b).f0
  let d1 := ops.sub (pointAt ops points a).f1 (pointAt ops points b).f1
  let d2 := ops.sub (pointAt ops points a).f2 (pointAt ops points b).f2
  ops.sqrt (ops.add (ops.add (ops.add (ops.ofNat 0) (ops.mul d0 d0)) (ops.mul d1 d1))
    (ops.mul d2 d2))

/-- The lambda `regionQuery`: the indices other than `idx` at distance at most `epsilon`. -/
def regionQuery {K : Type} (ops : DoubleOps K) (points : List (FeaturePoint K)) (epsilon : K)
    (idx : Nat) : List Nat :=
  (List.range points.length).filter
    (fun i => decide (i ≠ idx) && ops.le (dist ops points idx i) epsilon)

/-- One iteration of the `while` loop that expands a cluster, on a non-empty queue; `next`
continues the loop after a point has been processed. -/
def expandQueue {K : Type} (ops : DoubleOps K) (points : List (FeaturePoint K)) (epsilon : K)
    (minPts : Int) (clusterId : Int) (next : List Nat → List Nat → List Int → List Int) :
    List Nat → List Nat → List Int → List Int
  | [], _, label => label
  | p :: q, visited, label =>
    if p ∈ visited then expandQueue ops points epsilon minPts clusterId next q visited label
    else
      let label1 :=
        if label.getD p UNVISITED = UNVISITED ∨ label.getD p UNVISITED = NOISE then
          label.set p clusterId
        else label
      let nb2 := regionQuery ops points epsilon p
      if (nb2.length : Int) ≥ minPts then
        next (q ++ nb2.filter (fun x => x ∉ p :: visited)) (p :: visited) label1
      else next q (p :: visited) label1

/-- The `while` loop that expands a cluster, from a queue, a visited set and the labels. The
first argument bounds the number of points still to be processed (each point is processed at
most once in an expansion, so the number of points is enough). -/
def expandCluster {K : Type} (ops : DoubleOps K) (points : List (FeaturePoint K)) (epsilon : K)
    (minPts : Int) (clusterId : Int) : Nat → List Nat → List Nat → List Int → List Int
  | 0 => fun _ _ label => label
  | budget + 1 =>
    expandQueue ops points epsilon minPts clusterId
      (expandCluster ops points epsilon minPts clusterId budget)

/-- One iteration of the clustering loop of step 3 on the labels and the cluster counter. -/
def clusterStep {K : Type} (ops : DoubleOps K) (points : List (FeaturePoint K)) (epsilon : K)
    (minPts : Int) (st : List Int × Int) (i : Nat) : List Int × Int :=
  if st.1.getD i UNVISITED ≠ UNVISITED then st
  else
    let neighbors := regionQuery ops points epsilon i
    if (neighbors.length : Int) < minPts then (st.1.set i NOISE, st.2)
    else
      (expandCluster ops points epsilon minPts st.2 points.length (neighbors ++ [i]) [] st.1,
        st.2 + 1)

/-- Step 3: the labels and the number of clusters after the clustering loop. -/
def clusterLoop {K : Type} (ops : DoubleOps K) (points : List (FeaturePoint K)) (epsilon : K)
    (minPts : Int) : List Int × Int :=
  (List.range points.length).foldl (clusterStep ops points epsilon minPts)
    (List.replicate points.length UNVISITED, 0)

/-- The statement `clusterMembers[c].push_back (i)` on a `std::map<int, std::vector<int>>`
kept as the list of its pairs in key order. -/
def pushMember (c : Int) (i : Nat) : List (Int × List Nat) → List (Int × List Nat)
  | [] => [(c, [i])]
  | (c', ms) :: rest =>
    if c = c' then (c', ms ++ [i]) :: rest
    else if c < c' then (c, [i]) :: (c', ms) :: rest
    else (c', ms) :: pushMember c i rest

/-- The loop of step 4 that fills `clusterMembers` from the labels of the `n` points. -/
def clusterMembers (n : Nat) (label : List Int) : List (Int × List Nat) :=
  (List.range n).foldl
    (fun cm i => if label.getD i UNVISITED ≥ 0 then pushMember (label.getD i UNVISITED) i cm
      else cm) []

/-- The score of a cluster in step 4: the squared distance of the centroid of its members to
the ideal vector (0, 0, 1). -/
def clusterScore {K : Type} (ops : DoubleOps K) (points : List (FeaturePoint K))
    (members : List Nat) : K :=
  let sum0 := members.foldl (fun c idx => ops.add c (pointAt ops points idx).f0) (ops.ofNat 0)
  let sum1 := members.foldl (fun c idx => ops.add c (pointAt ops points idx).f1) (ops.ofNat 0)
  let sum2 := members.foldl (fun c idx => ops.add c (pointAt ops points idx).f2) (ops.ofNat 0)
  let c0 := ops.div sum0 (ops.ofNat members.length)
  let c1 := ops.div sum1 (ops.ofNat members.length)
  let c2 := ops.div sum2 (ops.ofNat members.length)
  let e0 := ops.sub c0 (ops.ofNat 0)
  let e1 := ops.sub c1 (ops.ofNat 0)
  let e2 := ops.sub c2 (ops.ofNat 1)
  ops.add (ops.add (ops.add (ops.ofNat 0) (ops.mul e0 e0)) (ops.mul e1 e1)) (ops.mul e2 e2)

/-- One iteration of the scoring loop on `bestCluster` and `bestScore`. -/
def bestStep {K : Type} (ops : DoubleOps K) (points : List (FeaturePoint K))
    (best : Int × K) (c : Int × List Nat) : Int × K :=
  let score := clusterScore ops points c.2
  if ops.lt score best.2 then (c.1, score) else best

/-- Step 4: `bestCluster` and `bestScore` after the scoring loop, from -1 and 1e18. -/
def bestCluster {K : Type} (ops : DoubleOps K) (points : List (FeaturePoint K))
    (cm : List (Int × List Nat)) : Int × K :=
  cm.foldl (bestStep ops points) (-1, ops.ofNat (10 ^ 18))

/-- The vector `clusterMembers[c]`: empty when the key is absent. -/
def membersOf (cm : List (Int × List Nat)) (c : Int) : List Nat :=
  match cm.find? (fun x => x.1 = c) with
  | some x => x.2
  | none => []

/-- Step 5: the addresses of the members of the best cluster, or of all points when that list
is empty. -/
def selectOutput {K : Type} (ops : DoubleOps K) (points : List (FeaturePoint K))
    (cm : List (Int × List Nat)) (best : Int) : List Ipv4Address :=
  let output :=
    if best ≥ 0 then (membersOf cm best).map (fun idx => (pointAt ops points idx).ip) else []
  if output.isEmpty then points.map FeaturePoint.ip else output

/-- Steps 2 to 5 on the points extracted in step 1. -/
def clusterAndSelect {K : Type} (ops : DoubleOps K) (points0 : List (FeaturePoint K))
    (epsilon : K) (minPts : Int) : List Ipv4Address :=
  if points0.length = 0 then []
  else
    let points := normalize ops points0
    let label := (clusterLoop ops points epsilon minPts).1
    let cm := clusterMembers points.length label
    selectOutput ops points cm (bestCluster ops points cm).1

/-- `RoutingTable::DBSCAN`: the addresses returned and the table after the call. The argument
`dst` is not used by the routine. -/
def RoutingTable.DBSCAN {K : Type} (T : RoutingTable) (now : Time) (ops : DoubleOps K)
    (_dst : Ipv4Address) (positionX positionY : Nat) (epsilon : K) (minPts : Int) :
    List Ipv4Address × RoutingTable :=
  let T1 := T.Purge now
  (clusterAndSelect ops (extractPoints ops positionX positionY T1.m_ipv4AddressEntry)
    epsilon minPts, T1)

/-- An entry for destination `dst` at position (`x`, `y`) with the given transmission-error
count and free capacity: `VALID`, deadline 100, one hop. -/
def exampleNeighbor (dst : Ipv4Address) (x y txError freeSpace : Nat) : RoutingTableEntry :=
  { exampleEntry dst VALID 100 0 with
    m_positionX := x, m_positionY := y, m_txerrorCount := txError, m_freeSpace := freeSpace }

/-- A table with two pairs of neighbours: 1 and 2 near (3, 4) with no transmission errors and
free capacity 100, 3 and 4 near (300, 400) with 10 transmission errors and free capacity 50. -/
def pairsTable : RoutingTable :=
  ⟨[(1, exampleNeighbor 1 3 4 0 100), (2, exampleNeighbor 2 4 3 0 100),
    (3, exampleNeighbor 3 300 400 10 50), (4, exampleNeighbor 4 400 300 10 50)], 7⟩

/-- What the specification calls an eligible candidate, for an entry and the address it is
stored under: the address is not broadcast, loopback, multicast or a subnet-directed broadcast
address of a /24 network, the flag is not `INVALID` and the hop count is at most 2. -/
def specEligible (a : Ipv4Address) (e : RoutingTableEntry) : Prop :=
  ¬ (IsBroadcast a = true ∨ IsLocalhost a = true ∨ IsMulticast a = true ∨
      IsSubnetDirectedBroadcast a 0xffffff00 = true) ∧
    e.m_flag ≠ INVALID ∧ e.m_hops ≤ 2

instance (a : Ipv4Address) (e : RoutingTableEntry) : Decidable (specEligible a e) :=
  inferInstanceAs (Decidable (¬ (IsBroadcast a = true ∨ IsLocalhost a = true ∨
    IsMulticast a = true ∨ IsSubnetDirectedBroadcast a 0xffffff00 = true) ∧
    e.m_flag ≠ INVALID ∧ e.m_hops ≤ 2))

/-- The feature `f[d]` of a point, for `d` from 0 to 2. -/
def FeaturePoint.f {K : Type} (p : FeaturePoint K) : Fin 3 → K
  | 0 => p.f0
  | 1 => p.f1
  | 2 => p.f2

/-- The relation between the labels before and after part of the clustering: the length is
kept, a label that is a cluster id is never changed, and when every label before is
`UNVISITED`, `NOISE` or a cluster id, so is every label after. -/
def labelsKept (label result : List Int) : Prop :=
  result.length = label.length ∧
    (∀ j, 0 ≤ label.getD j UNVISITED → result.getD j UNVISITED = label.getD j UNVISITED) ∧
    ((∀ j, label.getD j UNVISITED = UNVISITED ∨ label.getD j UNVISITED = NOISE ∨
        0 ≤ label.getD j UNVISITED) →
      ∀ j, result.getD j UNVISITED = UNVISITED ∨ result.getD j UNVISITED = NOISE ∨
        0 ≤ result.getD j UNVISITED)

/-- What an expansion guarantees when the budget covers the points not yet visited: every
queued or visited point ends with a cluster id. -/
def expansionLabels (n : Nat) (budget : Nat)
    (f : List Nat → List Nat → List Int → List Int) : Prop :=
  ∀ (q vis : List Nat) (label : List Int),
    (∀ p ∈ q, p < n) → vis.Nodup → (∀ v ∈ vis, v < n) → n ≤ budget + vis.length →
    (∀ v ∈ vis, 0 ≤ label.getD v UNVISITED) → label.length = n →
    (∀ j, label.getD j UNVISITED = UNVISITED ∨ label.getD j UNVISITED = NOISE ∨
      0 ≤ label.getD j UNVISITED) →
    ∀ p, p ∈ q ∨ p ∈ vis → 0 ≤ (f q vis label).getD p UNVISITED

/-- The invariant of the clustering loop: the labels are as many as the points, each is
`UNVISITED`, `NOISE` or a cluster id, the counter is not negative, and once it is positive
some point carries a cluster id. -/
def clusterInvariant (n : Nat) (st : List Int × Int) : Prop :=
  st.1.length = n ∧
    (∀ j, st.1.getD j UNVISITED = UNVISITED ∨ st.1.getD j UNVISITED = NOISE ∨
      0 ≤ st.1.getD j UNVISITED) ∧
    0 ≤ st.2 ∧ (0 < st.2 → ∃ j, j < n ∧ 0 ≤ st.1.getD j UNVISITED)

/-- The normalized points the routine clusters: steps 1 and 2 on the purged table. -/
def dbscanPoints {K : Type} (ops : DoubleOps K) (T : RoutingTable) (now : Time)
    (positionX positionY : Nat) : List (FeaturePoint K) :=
  normalize ops (extractPoints ops positionX positionY (T.Purge now).m_ipv4AddressEntry)

/-- The labels of the points after step 3. -/
def dbscanLabels {K : Type} (ops : DoubleOps K) (T : RoutingTable) (now : Time)
    (positionX positionY : Nat) (epsilon : K) (minPts : Int) : List Int :=
  (clusterLoop ops (dbscanPoints ops T now positionX positionY) epsilon minPts).1

/-- The clusters step 4 scores: each cluster id with the indices of its members. -/
def dbscanClusters {K : Type} (ops : DoubleOps K) (T : RoutingTable) (now : Time)
    (positionX positionY : Nat) (epsilon : K) (minPts : Int) : List (Int × List Nat) :=
  clusterMembers (dbscanPoints ops T now positionX positionY).length
    (dbscanLabels ops T now positionX positionY epsilon minPts)

/-- A table with two pairs of neighbours: 1 and 2 far from the origin, near (300, 400), with
fewer transmission errors (0 and 45) and more free capacity (100 and 85), 3 and 4 close to the
origin, near (3, 4), with more transmission errors (50 and 100) and less free capacity (80 and
0). -/
def farPairsTable : RoutingTable :=
  ⟨[(1, exampleNeighbor 1 300 400 0 100), (2, exampleNeighbor 2 400 300 45 85),
    (3, exampleNeighbor 3 3 4 50 80), (4, exampleNeighbor 4 4 3 100 0)], 7⟩

/-- A core point: the index of a point that has at least `minPts` other points within
`epsilon`. -/
def isCore {K : Type} (ops : DoubleOps K) (pts : List (FeaturePoint K)) (epsilon : K)
    (minPts : Int) (c : Nat) : Prop :=
  c < pts.length ∧ minPts ≤ ((regionQuery ops pts epsilon c).length : Int)

instance {K : Type} (ops : DoubleOps K) (pts : List (FeaturePoint K)) (epsilon : K)
    (minPts : Int) (c : Nat) : Decidable (isCore ops pts epsilon minPts c) :=
  inferInstanceAs
    (Decidable (c < pts.length ∧ minPts ≤ ((regionQuery ops pts epsilon c).length : Int)))

/-- A point that density reaches: a core point or a point in the neighbourhood of one. -/
def densityReached {K : Type} (ops : DoubleOps K) (pts : List (FeaturePoint K)) (epsilon : K)
    (minPts : Int) (j : Nat) : Prop :=
  isCore ops pts epsilon minPts j ∨
    ∃ c, isCore ops pts epsilon minPts c ∧ j ∈ regionQuery ops pts epsilon c

/-- What an expansion guarantees about density, when the budget covers the points not yet
visited, every queued point is reached and every labelled core point has its neighbours
labelled, queued or visited: a point labelled at the end was labelled before or is reached,
and every labelled core point has its neighbours labelled. -/
def expansionSound {K : Type} (ops : DoubleOps K) (pts : List (FeaturePoint K)) (epsilon : K)
    (minPts : Int) (budget : Nat) (f : List Nat → List Nat → List Int → List Int) : Prop :=
  ∀ (q vis : List Nat) (label : List Int),
    (∀ p ∈ q, p < pts.length) → vis.Nodup → (∀ v ∈ vis, v < pts.length) →
    pts.length ≤ budget + vis.length →
    (∀ v ∈ vis, 0 ≤ label.getD v UNVISITED) → label.length = pts.length →
    (∀ j, label.getD j UNVISITED = UNVISITED ∨ label.getD j UNVISITED = NOISE ∨
      0 ≤ label.getD j UNVISITED) →
    (∀ x ∈ q, densityReached ops pts epsilon minPts x) →
    (∀ c, isCore ops pts epsilon minPts c → 0 ≤ label.getD c UNVISITED →
      ∀ x ∈ regionQuery ops pts epsilon c,
        0 ≤ label.getD x UNVISITED ∨ x ∈ q ∨ x ∈ vis) →
    (∀ j, 0 ≤ (f q vis label).getD j UNVISITED →
      0 ≤ label.getD j UNVISITED ∨ densityReached ops pts epsilon minPts j) ∧
    (∀ c, isCore ops pts epsilon minPts c → 0 ≤ (f q vis label).getD c UNVISITED →
      ∀ x ∈ regionQuery ops pts epsilon c, 0 ≤ (f q vis label).getD x UNVISITED)

/-- The density part of the invariant of the clustering loop: a noise point is not a core
point, a labelled point is reached, and every labelled core point has its neighbours
labelled. -/
def densityInvariant {K : Type} (ops : DoubleOps K) (pts : List (FeaturePoint K))
    (epsilon : K) (minPts : Int) (label : List Int) : Prop :=
  (∀ j, label.getD j UNVISITED = NOISE → ¬ isCore ops pts epsilon minPts j) ∧
    (∀ j, 0 ≤ label.getD j UNVISITED → densityReached ops pts epsilon minPts j) ∧
    (∀ c, isCore ops pts epsilon minPts c → 0 ≤ label.getD c UNVISITED →
      ∀ x ∈ regionQuery ops pts epsilon c, 0 ≤ label.getD x UNVISITED)

/-- Six points on a line, at 0, 1, 2, 10, 11 and 20 in the first feature. -/
def linePoints : List (FeaturePoint F64) :=
  [0, 1, 2, 10, 11, 20].map (fun x => ⟨x, F64.ofNat x, F64.ofNat 0, F64.ofNat 0⟩)

/-- Rounding of a rational to the nearest binary64 value, before the test for overflow:
`roundMag` applied to the magnitude, with the sign kept. -/
def roundRat (q : ℚ) : ℚ := if q < 0 then -roundMag (-q) else roundMag q

/-- A finite value with a non-negative magnitude that is a multiple of 2 ^ (-1074), as every
finite result of an operation is. -/
def F64.Rep (x : F64) : Prop :=
  ∃ s m, x = F64.fin s m ∧ 0 ≤ m ∧ ∃ k : Int, m = k * 2 ^ (-1074 : Int)

/-- A finite result of an operation with a value from 0 to `B`. -/
def F64.InRange (B : ℚ) (x : F64) : Prop := x.Rep ∧ 0 ≤ x.toRat ∧ x.toRat ≤ B

/-- The fields of the entries that the routine converts to `double` hold 32 bit values, as
the constructor of an entry takes them (`uint32_t`). -/
def uint32Fields (m : EntryMap) : Prop :=
  ∀ p ∈ m, p.2.m_positionX < 2 ^ 32 ∧ p.2.m_positionY < 2 ^ 32 ∧
    p.2.m_txerrorCount < 2 ^ 32 ∧ p.2.m_freeSpace < 2 ^ 32

instance (m : EntryMap) : Decidable (uint32Fields m) :=
  inferInstanceAs (Decidable (∀ p ∈ m, p.2.m_positionX < 2 ^ 32 ∧ p.2.m_positionY < 2 ^ 32 ∧
    p.2.m_txerrorCount < 2 ^ 32 ∧ p.2.m_freeSpace < 2 ^ 32))

/-- Every feature of every point of the list is a finite value from 0 to `B`. -/
def featuresInRange (B : ℚ) (pts : List (FeaturePoint F64)) : Prop :=
  ∀ p ∈ pts, ∀ d : Fin 3, F64.InRange B (p.f d)

/-- A table with three neighbours at the same place, with transmission-error counts 0, 2, 3
and free capacities 1, 3, 0, so that normalized features are thirds, which no `double` holds
exactly. -/
def thirdsTable : RoutingTable :=
  ⟨[(1, exampleNeighbor 1 0 0 0 1), (2, exampleNeighbor 2 0 0 2 3),
    (3, exampleNeighbor 3 0 0 3 0)], 7⟩

/-! ## Facts about `Invalidate` and `Purge` -/

theorem invalidate_flag (e : RoutingTableEntry) (b now : Time) :
    (e.Invalidate b now).m_flag = INVALID := by
  unfold RoutingTableEntry.Invalidate
  split <;> simp_all

theorem invalidate_dst (e : RoutingTableEntry) (b now : Time) :
    (e.Invalidate b now).GetDestination = e.GetDestination := by
  unfold RoutingTableEntry.Invalidate RoutingTableEntry.GetDestination
  split <;> rfl

theorem invalidate_of_invalid (e : RoutingTableEntry) (b now : Time) (h : e.m_flag = INVALID) :
    e.Invalidate b now = e := by
  simp [RoutingTableEntry.Invalidate, h]

theorem invalidate_of_not_invalid (e : RoutingTableEntry) (b now : Time)
    (h : e.m_flag ≠ INVALID) :
    e.Invalidate b now =
      { e with m_flag := INVALID, m_reqCount := 0, m_lifeTime := now + b } := by
  simp [RoutingTableEntry.Invalidate, h, add_comm]

theorem purgeLoop_eq_filterMap (b now : Time) (m : EntryMap) :
    purgeLoop b now m = m.filterMap (specPurgeEntry b now) := by
  induction m with
  | nil => rfl
  | cons p rest ih =>
    obtain ⟨k, e⟩ := p
    simp only [purgeLoop, List.filterMap_cons, specPurgeEntry,
      RoutingTableEntry.GetLifeTime, RoutingTableEntry.GetFlag, sub_neg]
    by_cases hexp : e.m_lifeTime < now
    · by_cases hi : e.m_flag = INVALID
      · simp [hexp, hi, ih]
      · by_cases hv : e.m_flag = VALID
        · simp [hexp, hv, ih, invalidate_of_not_invalid e b now hi]
        · simp [hexp, hi, hv, ih]
    · simp [hexp, ih]

theorem purge_entries (T : RoutingTable) (now : Time) :
    (T.Purge now).m_ipv4AddressEntry =
      purgeLoop T.m_badLinkLifetime now T.m_ipv4AddressEntry := by
  unfold RoutingTable.Purge
  split
  · rename_i h
    rw [List.isEmpty_iff] at h
    simp [h, purgeLoop]
  · rfl

theorem purge_badLink (T : RoutingTable) (now : Time) :
    (T.Purge now).m_badLinkLifetime = T.m_badLinkLifetime := by
  unfold RoutingTable.Purge
  split <;> rfl

theorem purgeLoop_keeps_valid (b now : Time) (m : EntryMap) (k : Ipv4Address)
    (e : RoutingTableEntry) (hmem : (k, e) ∈ m) (hv : e.m_flag = VALID) :
    k ∈ mapKeys (purgeLoop b now m) := by
  induction m with
  | nil => simp at hmem
  | cons p rest ih =>
    obtain ⟨k', e'⟩ := p
    rcases List.mem_cons.mp hmem with h | h
    · injection h with h1 h2
      subst h1; subst h2
      simp only [purgeLoop, RoutingTableEntry.GetFlag, hv]
      split <;> simp [mapKeys]
    · have := ih h
      simp only [purgeLoop]
      split
      · split
        · exact this
        · split <;> simp [mapKeys] <;> right <;> simpa [mapKeys] using this
      · simp [mapKeys]; right; simpa [mapKeys] using this

/-! ## Facts about the container -/

theorem mapFind_eq_none {β : Type} (k : Ipv4Address) (m : List (Ipv4Address × β)) :
    mapFind k m = none ↔ k ∉ mapKeys m := by
  induction m with
  | nil => simp [mapFind, mapKeys]
  | cons p rest ih =>
    obtain ⟨k', v⟩ := p
    by_cases h : k' = k
    · simp [mapFind, mapKeys, h]
    · have h' : ¬ k = k' := fun e => h e.symm
      simp [mapFind, h, h', ih, mapKeys]

theorem mapFind_mem {β : Type} (k : Ipv4Address) (v : β) (m : List (Ipv4Address × β))
    (h : mapFind k m = some v) : (k, v) ∈ m := by
  induction m with
  | nil => simp [mapFind] at h
  | cons p rest ih =>
    obtain ⟨k', v'⟩ := p
    by_cases hk : k' = k
    · simp [mapFind, hk] at h
      simp [hk, h]
    · simp [mapFind, hk] at h
      exact List.mem_cons_of_mem _ (ih h)

theorem mapKeys_mapPlace_perm {β : Type} (k : Ipv4Address) (v : β)
    (m : List (Ipv4Address × β)) : (mapPlace k v m).Perm ((k, v) :: m) := by
  induction m with
  | nil => simp [mapPlace]
  | cons p rest ih =>
    obtain ⟨k', v'⟩ := p
    simp only [mapPlace]
    split
    · exact List.Perm.refl _
    · exact (List.Perm.cons _ ih).trans (List.Perm.swap _ _ _)

theorem mapPlace_ascending {β : Type} (k : Ipv4Address) (v : β) (m : List (Ipv4Address × β))
    (hs : (mapKeys m).Pairwise (· < ·)) (hk : k ∉ mapKeys m) :
    (mapKeys (mapPlace k v m)).Pairwise (· < ·) := by
  induction m with
  | nil => simp [mapPlace, mapKeys]
  | cons p rest ih =>
    obtain ⟨k', v'⟩ := p
    simp only [mapKeys, List.map_cons, List.pairwise_cons, List.mem_cons, not_or] at hs hk
    simp only [mapPlace]
    split
    · rename_i hlt
      simp only [mapKeys, List.map_cons, List.pairwise_cons, List.mem_cons]
      refine ⟨?_, hs⟩
      intro a ha
      rcases ha with ha | ha
      · exact ha ▸ hlt
      · exact lt_trans hlt (hs.1 a ha)
    · rename_i hlt
      have hgt : k' < k := lt_of_le_of_ne (not_lt.mp hlt) (fun e => hk.1 e.symm)
      simp only [mapKeys, List.map_cons, List.pairwise_cons]
      refine ⟨?_, ih hs.2 hk.2⟩
      intro a ha
      have : a ∈ mapKeys ((k, v) :: rest) :=
        ((mapKeys_mapPlace_perm k v rest).map Prod.fst).subset ha
      simp only [mapKeys, List.map_cons, List.mem_cons] at this
      rcases this with h | h
      · exact h ▸ hgt
      · exact hs.1 a h

theorem mapKeys_mapModify {β : Type} (k : Ipv4Address) (f : β → β)
    (m : List (Ipv4Address × β)) : mapKeys (mapModify k f m) = mapKeys m := by
  induction m with
  | nil => rfl
  | cons p rest ih =>
    obtain ⟨k', v⟩ := p
    simp only [mapModify]
    split
    · simp [mapKeys]
    · simpa [mapKeys] using ih

theorem mem_mapModify {β : Type} (k : Ipv4Address) (f : β → β)
    (m : List (Ipv4Address × β)) (p : Ipv4Address × β) (hp : p ∈ mapModify k f m) :
    p ∈ m ∨ ∃ v, (k, v) ∈ m ∧ p = (k, f v) := by
  induction m with
  | nil => simp [mapModify] at hp
  | cons q rest ih =>
    obtain ⟨k', v⟩ := q
    simp only [mapModify] at hp
    split at hp
    · rename_i hk
      rcases List.mem_cons.mp hp with h | h
      · right; exact ⟨v, by simp [hk], by simp [h, hk]⟩
      · left; exact List.mem_cons_of_mem _ h
    · rcases List.mem_cons.mp hp with h | h
      · left; simp [h]
      · rcases ih h with h1 | ⟨w, hw, hpw⟩
        · left; exact List.mem_cons_of_mem _ h1
        · right; exact ⟨w, List.mem_cons_of_mem _ hw, hpw⟩

theorem purgeLoop_keys_sublist (b now : Time) (m : EntryMap) :
    (mapKeys (purgeLoop b now m)).Sublist (mapKeys m) := by
  induction m with
  | nil => simp [purgeLoop, mapKeys]
  | cons p rest ih =>
    obtain ⟨k, e⟩ := p
    simp only [purgeLoop]
    split
    · split
      · exact ih.trans (by simp [mapKeys])
      · split <;> simpa [mapKeys] using ih
    · simpa [mapKeys] using ih

theorem purgeLoop_keyed (b now : Time) (m : EntryMap) (h : keyedByDestination m) :
    keyedByDestination (purgeLoop b now m) := by
  induction m with
  | nil => simp [purgeLoop, keyedByDestination]
  | cons p rest ih =>
    obtain ⟨k, e⟩ := p
    have hrest : keyedByDestination rest := fun q hq => h q (List.mem_cons_of_mem _ hq)
    have hke : k = e.GetDestination := h (k, e) (List.mem_cons_self _ _)
    have hcons : ∀ e', e'.GetDestination = e.GetDestination →
        keyedByDestination ((k, e') :: purgeLoop b now rest) := by
      intro e' he' q hq
      rcases List.mem_cons.mp hq with hq | hq
      · subst hq; simpa [he'] using hke
      · exact ih hrest q hq
    simp only [purgeLoop]
    split
    · split
      · exact ih hrest
      · split
        · exact hcons _ (invalidate_dst e b now)
        · exact hcons _ rfl
    · exact hcons _ rfl

/-! ## Facts about the loops of the table operations -/

theorem invalidateInner_eq (b now : Time) (k : Ipv4Address) (e : RoutingTableEntry)
    (u : List (Ipv4Address × Nat)) :
    invalidateInner b now k e u =
      if k ∈ mapKeys u ∧ e.m_flag = VALID then e.Invalidate b now else e := by
  induction u generalizing e with
  | nil => simp [invalidateInner, mapKeys]
  | cons j rest ih =>
    obtain ⟨j, s⟩ := j
    simp only [invalidateInner, RoutingTableEntry.GetFlag]
    by_cases hv : e.m_flag = VALID
    · by_cases hk : k = j
      · have hinv : (e.Invalidate b now).m_flag ≠ VALID := by
          rw [invalidate_flag]; decide
        subst hk
        simp [hv, ih, hinv, mapKeys]
      · have hmem : k ∈ mapKeys ((j, s) :: rest) ↔ k ∈ mapKeys rest := by
          simp [mapKeys, hk]
        simp only [hk, false_and, if_false, ih, hmem]
    · simp [hv, ih]

theorem invalidateLoop_eq_map (b now : Time) (u : List (Ipv4Address × Nat)) (m : EntryMap) :
    invalidateLoop b now u m = m.map (invalidateByKey b now (mapKeys u)) := by
  induction m with
  | nil => rfl
  | cons p rest ih =>
    obtain ⟨k, e⟩ := p
    simp only [invalidateLoop, List.map_cons, ih, invalidateInner_eq, invalidateByKey]
    congr 1
    by_cases h : k ∈ mapKeys u ∧ e.m_flag = VALID
    · have hne : e.m_flag ≠ INVALID := by rw [h.2]; decide
      simp only [h, and_self, if_true]
      rw [invalidate_of_not_invalid e b now hne]
    · simp only [h, if_false]

theorem invalidateInner_dst (b now : Time) (k : Ipv4Address) (e : RoutingTableEntry)
    (u : List (Ipv4Address × Nat)) :
    (invalidateInner b now k e u).GetDestination = e.GetDestination := by
  rw [invalidateInner_eq]
  split
  · exact invalidate_dst e b now
  · rfl

theorem invalidateLoop_keys (b now : Time) (u : List (Ipv4Address × Nat)) (m : EntryMap) :
    mapKeys (invalidateLoop b now u m) = mapKeys m := by
  induction m with
  | nil => rfl
  | cons p rest ih =>
    obtain ⟨k, e⟩ := p
    simpa [invalidateLoop, mapKeys] using ih

theorem invalidateLoop_keyed (b now : Time) (u : List (Ipv4Address × Nat)) (m : EntryMap)
    (h : keyedByDestination m) : keyedByDestination (invalidateLoop b now u m) := by
  induction m with
  | nil => simp [invalidateLoop, keyedByDestination]
  | cons p rest ih =>
    obtain ⟨k, e⟩ := p
    intro q hq
    simp only [invalidateLoop] at hq
    rcases List.mem_cons.mp hq with hq | hq
    · subst hq
      simpa [invalidateInner_dst] using h (k, e) (List.mem_cons_self _ _)
    · exact ih (fun q hq => h q (List.mem_cons_of_mem _ hq)) q hq

theorem deleteIfaceLoop_eq_filter (iface : Ipv4InterfaceAddress) (m : EntryMap) :
    deleteIfaceLoop iface m = m.filter (fun p => p.2.GetInterface ≠ iface) := by
  induction m with
  | nil => rfl
  | cons p rest ih =>
    obtain ⟨k, e⟩ := p
    by_cases h : e.GetInterface = iface <;> simp [deleteIfaceLoop, h, ih]

theorem keysAscending_of_sublist (m m' : EntryMap) (h : (mapKeys m').Sublist (mapKeys m))
    (hs : keysAscending m) : keysAscending m' :=
  List.Pairwise.sublist h hs

theorem keysAscending_filter (q : Ipv4Address × RoutingTableEntry → Bool) (m : EntryMap)
    (hs : keysAscending m) : keysAscending (m.filter q) :=
  keysAscending_of_sublist m _ ((List.filter_sublist m).map Prod.fst) hs

theorem keyed_filter (q : Ipv4Address × RoutingTableEntry → Bool) (m : EntryMap)
    (h : keyedByDestination m) : keyedByDestination (m.filter q) :=
  fun p hp => h p (List.mem_of_mem_filter hp)

theorem purge_invariant (T : RoutingTable) (now : Time) (h : tableInvariant T) :
    tableInvariant (T.Purge now) := by
  unfold tableInvariant
  rw [purge_entries]
  exact ⟨keysAscending_of_sublist _ _ (purgeLoop_keys_sublist _ now _) h.1,
    purgeLoop_keyed _ now _ h.2⟩

theorem mapModify_invariant (T : RoutingTable) (k : Ipv4Address)
    (f : RoutingTableEntry → RoutingTableEntry)
    (hf : ∀ v, (k, v) ∈ T.m_ipv4AddressEntry → (f v).GetDestination = k)
    (h : tableInvariant T) :
    tableInvariant { T with m_ipv4AddressEntry := mapModify k f T.m_ipv4AddressEntry } := by
  refine ⟨?_, ?_⟩
  · show (mapKeys (mapModify k f T.m_ipv4AddressEntry)).Pairwise (· < ·)
    rw [mapKeys_mapModify]
    exact h.1
  · intro p hp
    rcases mem_mapModify k f _ p hp with hp | ⟨v, hv, hpv⟩
    · exact h.2 p hp
    · subst hpv
      exact (hf v hv).symm

theorem addRoute_invariant (T : RoutingTable) (now : Time) (rt : RoutingTableEntry)
    (h : tableInvariant T) : tableInvariant (T.AddRoute now rt).2.2 := by
  have hp := purge_invariant T now h
  simp only [RoutingTable.AddRoute, mapInsert]
  split
  · exact hp
  · rename_i hnone
    refine ⟨mapPlace_ascending _ _ _ hp.1 ((mapFind_eq_none _ _).mp hnone), ?_⟩
    intro p hpm
    have := (mapKeys_mapPlace_perm _ _ _).subset hpm
    rcases List.mem_cons.mp this with hq | hq
    · subst hq; rfl
    · exact hp.2 p hq

theorem update_invariant (T : RoutingTable) (rt : RoutingTableEntry)
    (h : tableInvariant T) : tableInvariant (T.Update rt).2 := by
  unfold RoutingTable.Update
  split
  · exact h
  · refine mapModify_invariant T _ _ ?_ h
    intro v _
    split <;> rfl

theorem setEntryState_invariant (T : RoutingTable) (id : Ipv4Address) (state : RouteFlags)
    (h : tableInvariant T) : tableInvariant (T.SetEntryState id state).2 := by
  unfold RoutingTable.SetEntryState
  split
  · exact h
  · refine mapModify_invariant T _ _ ?_ h
    intro v hv
    exact (h.2 (id, v) hv).symm

theorem markLink_invariant (T : RoutingTable) (neighbor : Ipv4Address) (t : Time)
    (h : tableInvariant T) : tableInvariant (T.MarkLinkAsUnidirectional neighbor t).2 := by
  unfold RoutingTable.MarkLinkAsUnidirectional
  split
  · exact h
  · refine mapModify_invariant T _ _ ?_ h
    intro v hv
    exact (h.2 (neighbor, v) hv).symm

theorem deleteRoute_invariant (T : RoutingTable) (now : Time) (dst : Ipv4Address)
    (h : tableInvariant T) : tableInvariant (T.DeleteRoute now dst).2 := by
  have hp := purge_invariant T now h
  have hf : tableInvariant { T.Purge now with m_ipv4AddressEntry :=
      (mapErase dst (T.Purge now).m_ipv4AddressEntry).1 } :=
    ⟨keysAscending_filter _ _ hp.1, keyed_filter _ _ hp.2⟩
  simp only [RoutingTable.DeleteRoute]
  split <;> exact hf

theorem invalidateRoutes_invariant (T : RoutingTable) (now : Time)
    (u : List (Ipv4Address × Nat)) (h : tableInvariant T) :
    tableInvariant (T.InvalidateRoutesWithDst now u) := by
  have hp := purge_invariant T now h
  refine ⟨?_, invalidateLoop_keyed _ now u _ hp.2⟩
  show (mapKeys (invalidateLoop _ now u _)).Pairwise (· < ·)
  rw [invalidateLoop_keys]
  exact hp.1

theorem deleteAllRoutes_invariant (T : RoutingTable) (iface : Ipv4InterfaceAddress)
    (h : tableInvariant T) : tableInvariant (T.DeleteAllRoutesFromInterface iface) := by
  unfold RoutingTable.DeleteAllRoutesFromInterface
  split
  · exact h
  · show tableInvariant { T with m_ipv4AddressEntry := deleteIfaceLoop iface _ }
    rw [deleteIfaceLoop_eq_filter]
    exact ⟨keysAscending_filter _ _ h.1, keyed_filter _ _ h.2⟩

theorem applyOp_invariant (T : RoutingTable) (now : Time) (op : TableOp)
    (h : tableInvariant T) : tableInvariant (applyOp T now op) := by
  cases op with
  | addRoute rt => exact addRoute_invariant T now rt h
  | update rt => exact update_invariant T rt h
  | deleteRoute dst => exact deleteRoute_invariant T now dst h
  | setEntryState id state => exact setEntryState_invariant T id state h
  | invalidateRoutesWithDst u => exact invalidateRoutes_invariant T now u h
  | deleteAllRoutesFromInterface iface => exact deleteAllRoutes_invariant T iface h
  | markLinkAsUnidirectional n t => exact markLink_invariant T n t h
  | purge => exact purge_invariant T now h

theorem runOps_invariant (ops : List (Time × TableOp)) (T : RoutingTable)
    (h : tableInvariant T) : tableInvariant (runOps T ops) := by
  induction ops generalizing T with
  | nil => exact h
  | cons x rest ih =>
    obtain ⟨now, op⟩ := x
    exact ih _ (applyOp_invariant T now op h)

theorem countP_dst_le_one (m : EntryMap) (hs : keysAscending m) (hk : keyedByDestination m)
    (d : Ipv4Address) : m.countP (fun p => p.2.GetDestination = d) ≤ 1 := by
  have hnd : (mapKeys m).Nodup := by
    refine List.Pairwise.imp ?_ hs
    intro a b hab
    exact Nat.ne_of_lt hab
  have h1 : m.countP (fun p => p.2.GetDestination = d) = (mapKeys m).count d := by
    unfold mapKeys
    rw [List.count, List.countP_map]
    apply List.countP_congr
    intro p hp
    simp [hk p hp]
  rw [h1]
  exact List.nodup_iff_count_le_one.mp hnd d

theorem mapFind_mapPlace_same {β : Type} (k : Ipv4Address) (v : β)
    (m : List (Ipv4Address × β)) (h : mapFind k m = none) :
    mapFind k (mapPlace k v m) = some v := by
  induction m with
  | nil => simp [mapPlace, mapFind]
  | cons p rest ih =>
    obtain ⟨k', v'⟩ := p
    by_cases hk : k' = k
    · simp [mapFind, hk] at h
    · simp only [mapFind, hk, if_false] at h
      simp only [mapPlace]
      split
      · simp [mapFind]
      · simp [mapFind, hk, ih h]

theorem mapFind_mapPlace_other {β : Type} (k k' : Ipv4Address) (v : β)
    (m : List (Ipv4Address × β)) (hne : k' ≠ k) :
    mapFind k' (mapPlace k v m) = mapFind k' m := by
  induction m with
  | nil => simp [mapPlace, mapFind, hne.symm]
  | cons p rest ih =>
    obtain ⟨j, w⟩ := p
    simp only [mapPlace]
    split
    · simp [mapFind, hne.symm]
    · by_cases hj : j = k' <;> simp [mapFind, hj, ih]

theorem mapPlace_sublist {β : Type} (k : Ipv4Address) (v : β) (m : List (Ipv4Address × β)) :
    m.Sublist (mapPlace k v m) := by
  induction m with
  | nil => simp
  | cons p rest ih =>
    obtain ⟨j, w⟩ := p
    simp only [mapPlace]
    split
    · exact List.sublist_cons_self _ _
    · exact List.Sublist.cons₂ _ ih

theorem mapFind_mapModify_same {β : Type} (k : Ipv4Address) (f : β → β)
    (m : List (Ipv4Address × β)) :
    mapFind k (mapModify k f m) = (mapFind k m).map f := by
  induction m with
  | nil => rfl
  | cons p rest ih =>
    obtain ⟨j, w⟩ := p
    by_cases hj : j = k <;> simp [mapModify, mapFind, hj, ih]

theorem mapFind_mapModify_other {β : Type} (k k' : Ipv4Address) (f : β → β)
    (m : List (Ipv4Address × β)) (hne : k' ≠ k) :
    mapFind k' (mapModify k f m) = mapFind k' m := by
  induction m with
  | nil => rfl
  | cons p rest ih =>
    obtain ⟨j, w⟩ := p
    by_cases hj : j = k
    · have : ¬ j = k' := fun e => hne (e ▸ hj)
      simp [mapModify, mapFind, hj, this, hj ▸ this]
    · by_cases hj' : j = k'
      · subst hj'
        simp [mapModify, mapFind, hj]
      · simp [mapModify, mapFind, hj, hj', ih]

theorem mem_mapModify_of_ne {β : Type} (k : Ipv4Address) (f : β → β)
    (m : List (Ipv4Address × β)) (p : Ipv4Address × β) (hne : p.1 ≠ k) :
    p ∈ mapModify k f m ↔ p ∈ m := by
  induction m with
  | nil => simp [mapModify]
  | cons q rest ih =>
    obtain ⟨j, w⟩ := q
    by_cases hj : j = k
    · have hq : p ≠ (j, f w) := fun e => hne (by rw [e]; exact hj)
      have hq' : p ≠ (j, w) := fun e => hne (by rw [e]; exact hj)
      simp [mapModify, hj, List.mem_cons, hj ▸ hq, hj ▸ hq']
    · simp [mapModify, hj, List.mem_cons, ih]

/-- The value of the caller's entry after `AddRoute`: the request counter is reset unless the
flag is `IN_SEARCH`. -/
theorem addRoute_entry (T : RoutingTable) (now : Time) (rt : RoutingTableEntry) :
    (T.AddRoute now rt).2.1 =
      if rt.m_flag = IN_SEARCH then rt else { rt with m_reqCount := 0 } := by
  simp only [RoutingTable.AddRoute, RoutingTableEntry.GetFlag, RoutingTableEntry.SetRreqCnt]
  by_cases h : rt.m_flag = IN_SEARCH <;> simp [h]

theorem addRoute_entry_dst (T : RoutingTable) (now : Time) (rt : RoutingTableEntry) :
    (T.AddRoute now rt).2.1.GetDestination = rt.GetDestination := by
  rw [addRoute_entry]
  split <;> rfl

theorem addRoute_stored (T : RoutingTable) (now : Time) (rt : RoutingTableEntry)
    (hs : (T.AddRoute now rt).1 = true) :
    mapFind rt.GetDestination (T.AddRoute now rt).2.2.m_ipv4AddressEntry =
      some (T.AddRoute now rt).2.1 := by
  have hd := addRoute_entry_dst T now rt
  simp only [RoutingTable.AddRoute] at hd hs
  simp only [RoutingTable.AddRoute]
  simp only [mapInsert, hd] at hs ⊢
  split at hs
  · simp at hs
  · rename_i hnone
    simp only [hnone]
    exact mapFind_mapPlace_same _ _ _ hnone

theorem update_stored (T : RoutingTable) (rt : RoutingTableEntry)
    (hs : (T.Update rt).1 = true) :
    mapFind rt.GetDestination (T.Update rt).2.m_ipv4AddressEntry =
      some (if rt.m_flag = IN_SEARCH then rt else { rt with m_reqCount := 0 }) := by
  unfold RoutingTable.Update at hs ⊢
  split at hs
  · simp at hs
  · rename_i v hsome
    simp only [hsome, mapFind_mapModify_same, Option.map_some', RoutingTableEntry.GetFlag,
      RoutingTableEntry.SetRreqCnt]
    by_cases h : rt.m_flag = IN_SEARCH <;> simp [h]

theorem lookupRoute_eq (T : RoutingTable) (now : Time) (id : Ipv4Address)
    (rt : RoutingTableEntry) :
    T.LookupRoute now id rt =
      match mapFind id (T.Purge now).m_ipv4AddressEntry with
      | none => (false, rt, T.Purge now)
      | some e => (true, e, T.Purge now) := by
  simp only [RoutingTable.LookupRoute]
  split
  · rename_i h
    rw [List.isEmpty_iff] at h
    simp [h, mapFind]
  · rfl

theorem lookupValidRoute_eq (T : RoutingTable) (now : Time) (id : Ipv4Address)
    (rt : RoutingTableEntry) :
    T.LookupValidRoute now id rt =
      match mapFind id (T.Purge now).m_ipv4AddressEntry with
      | none => (false, rt, T.Purge now)
      | some e => (decide (e.GetFlag = VALID), e, T.Purge now) := by
  simp only [RoutingTable.LookupValidRoute, lookupRoute_eq]
  cases mapFind id (T.Purge now).m_ipv4AddressEntry <;> simp

theorem mem_purgeLoop_valid (b now : Time) (m : EntryMap) (k : Ipv4Address)
    (e : RoutingTableEntry) (hmem : (k, e) ∈ purgeLoop b now m) (hv : e.m_flag = VALID) :
    (k, e) ∈ m ∧ ¬ e.m_lifeTime < now := by
  rw [purgeLoop_eq_filterMap, List.mem_filterMap] at hmem
  obtain ⟨⟨k', e'⟩, hp, hspec⟩ := hmem
  simp only [specPurgeEntry] at hspec
  split at hspec
  · simp at hspec
  · split at hspec
    · simp only [Option.some.injEq, Prod.mk.injEq] at hspec
      rw [← hspec.2] at hv
      simp at hv
    · rename_i h1 h2
      simp only [Option.some.injEq, Prod.mk.injEq] at hspec
      obtain ⟨hk, he⟩ := hspec
      subst hk; subst he
      refine ⟨hp, fun hlt => ?_⟩
      exact h2 ⟨hlt, hv⟩

theorem mem_unique_of_nodup {β : Type} (m : List (Ipv4Address × β)) (k : Ipv4Address) (v w : β)
    (hnd : (mapKeys m).Nodup) (hv : (k, v) ∈ m) (hw : (k, w) ∈ m) : v = w := by
  induction m with
  | nil => simp at hv
  | cons p rest ih =>
    obtain ⟨j, x⟩ := p
    simp only [mapKeys, List.map_cons, List.nodup_cons] at hnd
    have hkeys : ∀ y, (k, y) ∈ rest → k ∈ List.map Prod.fst rest :=
      fun y hy => List.mem_map.mpr ⟨(k, y), hy, rfl⟩
    rcases List.mem_cons.mp hv with h1 | h1 <;> rcases List.mem_cons.mp hw with h2 | h2
    · injection h1 with _ a; injection h2 with _ c; rw [a, c]
    · injection h1 with a _; exact absurd (a ▸ hkeys w h2) hnd.1
    · injection h2 with a _; exact absurd (a ▸ hkeys v h1) hnd.1
    · exact ih hnd.2 h1 h2

theorem purgeLoop_idem (b now : Time) (hb : 0 ≤ b) (m : EntryMap) :
    purgeLoop b now (purgeLoop b now m) = purgeLoop b now m := by
  induction m with
  | nil => rfl
  | cons p rest ih =>
    obtain ⟨k, e⟩ := p
    by_cases hexp : e.GetLifeTime now < 0
    · by_cases hi : e.GetFlag = INVALID
      · simp [purgeLoop, hexp, hi, ih]
      · by_cases hv : e.GetFlag = VALID
        · have hne : e.m_flag ≠ INVALID := hi
          have hlife : ¬ (e.Invalidate b now).GetLifeTime now < 0 := by
            rw [invalidate_of_not_invalid e b now hne]
            simp only [RoutingTableEntry.GetLifeTime]
            rw [add_sub_cancel_left]
            exact not_lt.mpr hb
          simp [purgeLoop, hexp, hv, hlife, ih]
        · simp [purgeLoop, hexp, hi, hv, ih]
    · simp [purgeLoop, hexp, ih]

theorem purge_idem (T : RoutingTable) (now : Time) (hb : 0 ≤ T.m_badLinkLifetime) :
    (T.Purge now).Purge now = T.Purge now := by
  have h1 : ((T.Purge now).Purge now).m_ipv4AddressEntry = (T.Purge now).m_ipv4AddressEntry := by
    rw [purge_entries, purge_badLink, purge_entries, purgeLoop_idem _ now hb]
  have h2 : ((T.Purge now).Purge now).m_badLinkLifetime = (T.Purge now).m_badLinkLifetime :=
    purge_badLink _ now
  cases hP : (T.Purge now).Purge now
  cases hQ : T.Purge now
  rw [hP, hQ] at h1 h2
  simp only at h1 h2
  rw [h1, h2]

theorem deleteAllRoutes_entries (T : RoutingTable) (iface : Ipv4InterfaceAddress) :
    (T.DeleteAllRoutesFromInterface iface).m_ipv4AddressEntry =
      T.m_ipv4AddressEntry.filter (fun p => p.2.GetInterface ≠ iface) := by
  unfold RoutingTable.DeleteAllRoutesFromInterface
  split
  · rename_i h
    rw [List.isEmpty_iff] at h
    simp [h]
  · exact deleteIfaceLoop_eq_filter iface _

theorem invalidateRoutes_entries (T : RoutingTable) (now : Time)
    (u : List (Ipv4Address × Nat)) :
    (T.InvalidateRoutesWithDst now u).m_ipv4AddressEntry =
      (T.Purge now).m_ipv4AddressEntry.map
        (invalidateByKey T.m_badLinkLifetime now (mapKeys u)) := by
  simp only [RoutingTable.InvalidateRoutesWithDst, invalidateLoop_eq_map, purge_badLink]

theorem invalidateByKey_eq_spec (b now : Time) (dsts : List Ipv4Address)
    (p : Ipv4Address × RoutingTableEntry) (h : p.1 = p.2.GetDestination) :
    invalidateByKey b now dsts p = specInvalidateEntry b now dsts p := by
  unfold invalidateByKey specInvalidateEntry
  rw [h]

/-! ## Facts about the precursor list -/

theorem lookupPrecursorLoop_iff (id : Ipv4Address) (l : List Ipv4Address) :
    lookupPrecursorLoop id l = true ↔ id ∈ l := by
  induction l with
  | nil => simp [lookupPrecursorLoop]
  | cons x rest ih =>
    by_cases h : x = id
    · simp [lookupPrecursorLoop, h]
    · have h' : ¬ id = x := fun e => h e.symm
      simp [lookupPrecursorLoop, h, h', ih]

theorem stdRemove_length_eq_iff (id : Ipv4Address) (l : List Ipv4Address) :
    (stdRemove id l).length = l.length ↔ id ∉ l := by
  unfold stdRemove
  constructor
  · intro h hmem
    have hsub : (l.filter (fun x => x ≠ id)).Sublist l := List.filter_sublist l
    have heq := hsub.eq_of_length h
    have : id ∈ l.filter (fun x => x ≠ id) := by rw [heq]; exact hmem
    simp at this
  · intro h
    rw [List.filter_eq_self.mpr]
    intro a ha
    have : a ≠ id := fun e => h (e ▸ ha)
    simpa using this

theorem stdRemove_eq_self (id : Ipv4Address) (l : List Ipv4Address) (h : id ∉ l) :
    stdRemove id l = l := by
  unfold stdRemove
  rw [List.filter_eq_self]
  intro a ha
  have : a ≠ id := fun e => h (e ▸ ha)
  simpa using this

theorem insertPrecursor_list (e : RoutingTableEntry) (id : Ipv4Address) :
    (e.InsertPrecursor id).2.m_precursorList =
      if id ∈ e.m_precursorList then e.m_precursorList else e.m_precursorList ++ [id] := by
  unfold RoutingTableEntry.InsertPrecursor RoutingTableEntry.LookupPrecursor
  by_cases h : id ∈ e.m_precursorList
  · simp [h, (lookupPrecursorLoop_iff id _).mpr h]
  · have : lookupPrecursorLoop id e.m_precursorList = false := by
      rw [← Bool.not_eq_true, lookupPrecursorLoop_iff]; exact h
    simp [h, this]

theorem deletePrecursor_list (e : RoutingTableEntry) (id : Ipv4Address) :
    (e.DeletePrecursor id).2.m_precursorList = e.m_precursorList.filter (fun x => x ≠ id) := by
  simp only [RoutingTableEntry.DeletePrecursor]
  split
  · rename_i h
    exact (stdRemove_eq_self id _ ((stdRemove_length_eq_iff id _).mp h)).symm
  · rfl

theorem applyPrecursorOp_nodup (e : RoutingTableEntry) (op : PrecursorOp)
    (h : e.m_precursorList.Nodup) : (applyPrecursorOp e op).m_precursorList.Nodup := by
  cases op with
  | insertPrecursor id =>
    simp only [applyPrecursorOp, insertPrecursor_list]
    split
    · exact h
    · rename_i hid
      exact List.Nodup.append h (List.nodup_singleton id) (by simpa using hid)
  | deletePrecursor id =>
    simp only [applyPrecursorOp, deletePrecursor_list]
    exact h.filter _
  | deleteAllPrecursors => exact List.nodup_nil

theorem runPrecursorOps_nodup (ops : List PrecursorOp) (e : RoutingTableEntry)
    (h : e.m_precursorList.Nodup) : (runPrecursorOps e ops).m_precursorList.Nodup := by
  induction ops generalizing e with
  | nil => exact h
  | cons op rest ih => exact ih _ (applyPrecursorOp_nodup e op h)

/-! ## Facts about the non-mutating purge -/

theorem purgeTableLoop_eq_purgeLoop (b now : Time) (m : EntryMap) :
    purgeTableLoop b now m = purgeLoop b now m := by
  induction m with
  | nil => rfl
  | cons p rest ih =>
    obtain ⟨k, e⟩ := p
    simp only [purgeTableLoop, purgeLoop, ih]

theorem purgeTable_eq (T : RoutingTable) (now : Time) (table : EntryMap) :
    T.PurgeTable now table = purgeLoop T.m_badLinkLifetime now table := by
  unfold RoutingTable.PurgeTable
  split
  · rename_i h
    rw [List.isEmpty_iff] at h
    simp [h, purgeLoop]
  · exact purgeTableLoop_eq_purgeLoop _ now table

/-! ## Facts about the neighbour selection -/

theorem extractPoints_ip {K : Type} (ops : DoubleOps K) (x y : Nat) (m : EntryMap) :
    (extractPoints ops x y m).map FeaturePoint.ip = (m.filter isCandidate).map Prod.fst := by
  induction m with
  | nil => rfl
  | cons p rest ih =>
    by_cases h : isCandidate p = true
    · have h' := h
      simp only [isCandidate, Bool.not_eq_true'] at h'
      simp [extractPoints, h', List.filter_cons, h, ih, featurePoint]
    · have h' := h
      simp only [isCandidate, Bool.not_eq_true', Bool.not_eq_false] at h'
      simp [extractPoints, h', List.filter_cons, h, ih]

theorem extractPoints_length {K : Type} (ops : DoubleOps K) (x y : Nat) (m : EntryMap) :
    (extractPoints ops x y m).length = (m.filter isCandidate).length := by
  have := congrArg List.length (extractPoints_ip ops x y m)
  simpa using this

theorem normalize_ip {K : Type} (ops : DoubleOps K) (pts : List (FeaturePoint K)) :
    (normalize ops pts).map FeaturePoint.ip = pts.map FeaturePoint.ip := by
  cases pts with
  | nil => rfl
  | cons p rest => simp [normalize, Function.comp_def]

theorem normalize_length {K : Type} (ops : DoubleOps K) (pts : List (FeaturePoint K)) :
    (normalize ops pts).length = pts.length := by
  cases pts with
  | nil => rfl
  | cons p rest => simp [normalize]

theorem range_map_pointAt_ip {K : Type} (ops : DoubleOps K) (pts : List (FeaturePoint K)) :
    (List.range pts.length).map (fun idx => (pointAt ops pts idx).ip) =
      pts.map FeaturePoint.ip := by
  apply List.ext_getElem
  · simp
  · intro i h1 h2
    simp only [List.length_map, List.length_range] at h1
    simp [pointAt, List.getD_eq_getElem?_getD, List.getElem?_eq_getElem h1]

theorem membersOf_cons (x : Int × List Nat) (cm : List (Int × List Nat)) (c : Int) :
    membersOf (x :: cm) c = if x.1 = c then x.2 else membersOf cm c := by
  unfold membersOf
  by_cases h : x.1 = c <;> simp [List.find?_cons, h]

theorem membersOf_eq_nil_of_not_key (cm : List (Int × List Nat)) (c : Int)
    (h : ∀ y ∈ cm, y.1 ≠ c) : membersOf cm c = [] := by
  induction cm with
  | nil => rfl
  | cons x rest ih =>
    rw [membersOf_cons, if_neg (h x (List.mem_cons_self _ _))]
    exact ih (fun y hy => h y (List.mem_cons_of_mem _ hy))

theorem membersOf_of_mem (cm : List (Int × List Nat)) (x : Int × List Nat)
    (hs : (cm.map Prod.fst).Pairwise (· < ·)) (hx : x ∈ cm) : membersOf cm x.1 = x.2 := by
  induction cm with
  | nil => simp at hx
  | cons y rest ih =>
    simp only [List.map_cons, List.pairwise_cons] at hs
    rw [membersOf_cons]
    rcases List.mem_cons.mp hx with h | h
    · simp [h]
    · have hlt : y.1 < x.1 := hs.1 x.1 (List.mem_map.mpr ⟨x, h, rfl⟩)
      rw [if_neg (ne_of_lt hlt)]
      exact ih hs.2 h

theorem exists_key_of_membersOf_ne_nil (cm : List (Int × List Nat)) (c : Int)
    (h : membersOf cm c ≠ []) : ∃ x ∈ cm, x.1 = c := by
  by_contra hn
  push_neg at hn
  exact h (membersOf_eq_nil_of_not_key cm c hn)

theorem pushMember_keys (c : Int) (i : Nat) (cm : List (Int × List Nat)) (k : Int)
    (hk : k ∈ (pushMember c i cm).map Prod.fst) : k = c ∨ k ∈ cm.map Prod.fst := by
  induction cm with
  | nil => simp [pushMember] at hk; exact Or.inl hk
  | cons y rest ih =>
    obtain ⟨c', ms⟩ := y
    simp only [pushMember] at hk
    split at hk
    · right; simpa using hk
    · split at hk
      · simp only [List.map_cons, List.mem_cons] at hk ⊢
        tauto
      · simp only [List.map_cons, List.mem_cons] at hk ⊢
        rcases hk with h | h
        · tauto
        · rcases ih h with h' | h' <;> tauto

theorem pushMember_ascending (c : Int) (i : Nat) (cm : List (Int × List Nat))
    (hs : (cm.map Prod.fst).Pairwise (· < ·)) :
    ((pushMember c i cm).map Prod.fst).Pairwise (· < ·) := by
  induction cm with
  | nil => simp [pushMember]
  | cons y rest ih =>
    obtain ⟨c', ms⟩ := y
    simp only [List.map_cons, List.pairwise_cons] at hs
    simp only [pushMember]
    split
    · simpa using hs
    · rename_i hne
      split
      · rename_i hlt
        simp only [List.map_cons, List.pairwise_cons, List.mem_cons]
        refine ⟨?_, hs⟩
        intro a ha
        rcases ha with ha | ha
        · exact ha ▸ hlt
        · exact lt_trans hlt (hs.1 a ha)
      · rename_i hlt
        have hgt : c' < c := lt_of_le_of_ne (not_lt.mp hlt) (fun e => hne e.symm)
        simp only [List.map_cons, List.pairwise_cons]
        refine ⟨?_, ih hs.2⟩
        intro a ha
        rcases pushMember_keys c i rest a ha with h | h
        · exact h ▸ hgt
        · exact hs.1 a h

theorem membersOf_pushMember (c : Int) (i : Nat) (cm : List (Int × List Nat)) (k : Int)
    (hs : (cm.map Prod.fst).Pairwise (· < ·)) :
    membersOf (pushMember c i cm) k =
      if k = c then membersOf cm c ++ [i] else membersOf cm k := by
  induction cm with
  | nil =>
    by_cases h : k = c
    · simp [pushMember, membersOf_cons, h, membersOf]
    · have h' : ¬ c = k := fun e => h e.symm
      simp [pushMember, membersOf_cons, h, h', membersOf]
  | cons y rest ih =>
    obtain ⟨c', ms⟩ := y
    simp only [List.map_cons, List.pairwise_cons] at hs
    simp only [pushMember]
    split
    · rename_i hcc
      subst hcc
      by_cases h : k = c
      · simp [membersOf_cons, h]
      · have h' : ¬ c = k := fun e => h e.symm
        simp [membersOf_cons, h, h']
    · rename_i hne
      split
      · rename_i hlt
        have hnil : membersOf ((c', ms) :: rest) c = [] := by
          apply membersOf_eq_nil_of_not_key
          intro y hy
          rcases List.mem_cons.mp hy with h | h
          · rw [h]; exact fun e => hne e.symm
          · exact fun e => absurd (hs.1 y.1 (List.mem_map.mpr ⟨y, h, rfl⟩))
              (by rw [e]; exact not_lt.mpr (le_of_lt hlt))
        by_cases h : k = c
        · subst h
          rw [membersOf_cons, if_pos rfl, if_pos rfl, hnil]
          rfl
        · have h' : ¬ c = k := fun e => h e.symm
          rw [membersOf_cons, if_neg h', if_neg h]
      · rw [membersOf_cons, ih hs.2]
        by_cases h : k = c
        · subst h
          have h' : ¬ c' = k := fun e => hne e.symm
          simp [membersOf_cons, h']
        · simp only [h, if_false, membersOf_cons]

theorem pushMember_nonempty (c : Int) (i : Nat) (cm : List (Int × List Nat))
    (h : ∀ x ∈ cm, x.2 ≠ []) : ∀ x ∈ pushMember c i cm, x.2 ≠ [] := by
  induction cm with
  | nil => simp [pushMember]
  | cons y rest ih =>
    obtain ⟨c', ms⟩ := y
    intro x hx
    simp only [pushMember] at hx
    split at hx
    · rcases List.mem_cons.mp hx with h1 | h1
      · rw [h1]; simp
      · exact h x (List.mem_cons_of_mem _ h1)
    · split at hx
      · rcases List.mem_cons.mp hx with h1 | h1
        · rw [h1]; simp
        · exact h x h1
      · rcases List.mem_cons.mp hx with h1 | h1
        · rw [h1]; exact h _ (List.mem_cons_self _ _)
        · exact ih (fun z hz => h z (List.mem_cons_of_mem _ hz)) x h1

theorem clusterMembers_spec (n : Nat) (label : List Int) :
    ((clusterMembers n label).map Prod.fst).Pairwise (· < ·) ∧
    (∀ x ∈ clusterMembers n label, x.2 ≠ [] ∧ 0 ≤ x.1) ∧
    (∀ c, membersOf (clusterMembers n label) c =
      if 0 ≤ c then (List.range n).filter (fun i => label.getD i UNVISITED = c) else []) := by
  unfold clusterMembers
  induction n with
  | zero => simp [membersOf]
  | succ k ih =>
    obtain ⟨h1, h2, h3⟩ := ih
    rw [List.range_succ, List.foldl_append]
    simp only [List.foldl_cons, List.foldl_nil]
    by_cases hk : label.getD k UNVISITED ≥ 0
    · simp only [hk, if_true]
      refine ⟨pushMember_ascending _ _ _ h1, ?_, ?_⟩
      · intro x hx
        refine ⟨pushMember_nonempty _ _ _ (fun y hy => (h2 y hy).1) x hx, ?_⟩
        rcases pushMember_keys _ _ _ x.1 (List.mem_map.mpr ⟨x, hx, rfl⟩) with h | h
        · rw [h]; exact hk
        · obtain ⟨y, hy, hyx⟩ := List.mem_map.mp h
          rw [← hyx]; exact (h2 y hy).2
      · intro c
        rw [membersOf_pushMember _ _ _ _ h1, h3, h3, List.filter_append]
        by_cases hc : c = label.getD k UNVISITED
        · subst hc
          simp [-List.getD_eq_getElem?_getD, hk]
        · have hc' : ¬ label.getD k UNVISITED = c := fun e => hc e.symm
          simp [-List.getD_eq_getElem?_getD, hc, hc']
    · simp only [hk, if_false]
      refine ⟨h1, h2, ?_⟩
      intro c
      rw [h3, List.filter_append]
      by_cases hc : 0 ≤ c
      · have hc' : ¬ label.getD k UNVISITED = c := fun e => hk (e ▸ hc)
        simp [-List.getD_eq_getElem?_getD, hc, hc']
      · simp [hc]

theorem membersOf_clusterMembers_sublist (n : Nat) (label : List Int) (c : Int) :
    (membersOf (clusterMembers n label) c).Sublist (List.range n) := by
  rw [(clusterMembers_spec n label).2.2 c]
  split
  · exact List.filter_sublist _
  · exact List.nil_sublist _

theorem clusterMembers_eq_nil (n : Nat) (label : List Int)
    (h : ∀ i, i < n → label.getD i UNVISITED < 0) : clusterMembers n label = [] := by
  cases hcm : clusterMembers n label with
  | nil => rfl
  | cons x rest =>
    exfalso
    obtain ⟨h1, h2, h3⟩ := clusterMembers_spec n label
    have hx : x ∈ clusterMembers n label := by rw [hcm]; exact List.mem_cons_self _ _
    have hne := (h2 x hx).1
    have hm := membersOf_of_mem _ x h1 hx
    rw [h3, if_pos (h2 x hx).2] at hm
    have : x.2 = [] := by
      rw [← hm, List.filter_eq_nil_iff]
      intro i hi
      have hlt := h i (List.mem_range.mp hi)
      have := (h2 x hx).2
      simp only [decide_eq_true_eq]
      omega
    exact hne this

theorem clusterMembers_ne_nil (n : Nat) (label : List Int) (i : Nat) (hi : i < n)
    (h : 0 ≤ label.getD i UNVISITED) : clusterMembers n label ≠ [] := by
  intro hnil
  have h3 := (clusterMembers_spec n label).2.2 (label.getD i UNVISITED)
  rw [hnil, if_pos h] at h3
  have : i ∈ (List.range n).filter (fun j => label.getD j UNVISITED = label.getD i UNVISITED) :=
    List.mem_filter.mpr ⟨List.mem_range.mpr hi, by simp⟩
  rw [← h3] at this
  simp [membersOf] at this

theorem selectOutput_sublist {K : Type} (ops : DoubleOps K) (pts : List (FeaturePoint K))
    (label : List Int) (best : Int) :
    (selectOutput ops pts (clusterMembers pts.length label) best).Sublist
      (pts.map FeaturePoint.ip) := by
  unfold selectOutput
  by_cases hb : best ≥ 0
  · simp only [hb, if_true]
    split
    · exact List.Sublist.refl _
    · rw [← range_map_pointAt_ip ops pts]
      exact (membersOf_clusterMembers_sublist _ _ _).map _
  · simp [hb]

theorem selectOutput_ne_nil {K : Type} (ops : DoubleOps K) (pts : List (FeaturePoint K))
    (cm : List (Int × List Nat)) (best : Int) (h : pts ≠ []) :
    selectOutput ops pts cm best ≠ [] := by
  unfold selectOutput
  by_cases hb : best ≥ 0
  · simp only [hb, if_true]
    split
    · simpa using h
    · rename_i hne
      intro hnil
      rw [hnil] at hne
      simp at hne
  · simpa [hb] using h

theorem clusterAndSelect_sublist {K : Type} (ops : DoubleOps K)
    (points0 : List (FeaturePoint K)) (epsilon : K) (minPts : Int) :
    (clusterAndSelect ops points0 epsilon minPts).Sublist (points0.map FeaturePoint.ip) := by
  unfold clusterAndSelect
  split
  · exact List.nil_sublist _
  · simp only
    rw [← normalize_ip ops points0]
    exact selectOutput_sublist ops _ _ _

theorem clusterAndSelect_eq_nil_iff {K : Type} (ops : DoubleOps K)
    (points0 : List (FeaturePoint K)) (epsilon : K) (minPts : Int) :
    clusterAndSelect ops points0 epsilon minPts = [] ↔ points0 = [] := by
  unfold clusterAndSelect
  split
  · rename_i h
    simp [List.length_eq_zero.mp h]
  · rename_i h
    have hne : points0 ≠ [] := fun e => h (by simp [e])
    have hn : normalize ops points0 ≠ [] := by
      intro e
      have := congrArg List.length e
      rw [normalize_length] at this
      exact h (by simpa using this)
    simp only
    constructor
    · intro e
      exact absurd e (selectOutput_ne_nil ops _ _ _ hn)
    · intro e
      exact absurd e hne

theorem isCandidate_iff (p : Ipv4Address × RoutingTableEntry) :
    isCandidate p = true ↔ specEligible p.1 p.2 := by
  unfold isCandidate specEligible
  simp only [RoutingTableEntry.GetFlag, RoutingTableEntry.GetHop, Bool.not_eq_true',
    Bool.or_eq_false_iff, decide_eq_false_iff_not, not_or, Bool.not_eq_true, not_lt, gt_iff_lt]
  tauto

theorem getD_set_neg (label : List Int) (i j : Nat) (v : Int) (hv : v < 0)
    (h : label.getD j UNVISITED < 0) : (label.set i v).getD j UNVISITED < 0 := by
  simp only [List.getD_eq_getElem?_getD, List.getElem?_set] at h ⊢
  split
  · split
    · simpa using hv
    · simp [UNVISITED]
  · exact h

theorem clusterStep_all_noise {K : Type} (ops : DoubleOps K) (pts : List (FeaturePoint K))
    (epsilon : K) (minPts : Int) (st : List Int × Int) (i : Nat)
    (hq : ((regionQuery ops pts epsilon i).length : Int) < minPts)
    (h : ∀ j, st.1.getD j UNVISITED < 0) :
    (∀ j, (clusterStep ops pts epsilon minPts st i).1.getD j UNVISITED < 0) ∧
    (clusterStep ops pts epsilon minPts st i).2 = st.2 := by
  unfold clusterStep
  split
  · exact ⟨h, rfl⟩
  · simp only [hq, if_true]
    exact ⟨fun j => getD_set_neg _ _ _ _ (by decide) (h j), trivial⟩

theorem clusterLoop_all_noise_aux {K : Type} (ops : DoubleOps K) (pts : List (FeaturePoint K))
    (epsilon : K) (minPts : Int) (l : List Nat) (st : List Int × Int)
    (hq : ∀ i ∈ l, ((regionQuery ops pts epsilon i).length : Int) < minPts)
    (h : ∀ j, st.1.getD j UNVISITED < 0) :
    (∀ j, (l.foldl (clusterStep ops pts epsilon minPts) st).1.getD j UNVISITED < 0) ∧
    (l.foldl (clusterStep ops pts epsilon minPts) st).2 = st.2 := by
  induction l generalizing st with
  | nil => exact ⟨h, rfl⟩
  | cons i rest ih =>
    have hstep := clusterStep_all_noise ops pts epsilon minPts st i
      (hq i (List.mem_cons_self _ _)) h
    have := ih (clusterStep ops pts epsilon minPts st i)
      (fun j hj => hq j (List.mem_cons_of_mem _ hj)) hstep.1
    exact ⟨this.1, this.2.trans hstep.2⟩

theorem clusterLoop_all_noise {K : Type} (ops : DoubleOps K) (pts : List (FeaturePoint K))
    (epsilon : K) (minPts : Int)
    (hq : ∀ i, i < pts.length → ((regionQuery ops pts epsilon i).length : Int) < minPts) :
    (∀ j, (clusterLoop ops pts epsilon minPts).1.getD j UNVISITED < 0) ∧
    (clusterLoop ops pts epsilon minPts).2 = 0 := by
  unfold clusterLoop
  apply clusterLoop_all_noise_aux
  · intro i hi
    exact hq i (List.mem_range.mp hi)
  · intro j
    simp only [List.getD_eq_getElem?_getD, List.getElem?_replicate]
    split <;> simp [UNVISITED]

theorem clusterAndSelect_all_noise {K : Type} (ops : DoubleOps K)
    (points0 : List (FeaturePoint K)) (epsilon : K) (minPts : Int)
    (hq : ∀ i, i < points0.length →
      ((regionQuery ops (normalize ops points0) epsilon i).length : Int) < minPts) :
    clusterAndSelect ops points0 epsilon minPts = points0.map FeaturePoint.ip := by
  unfold clusterAndSelect
  split
  · rename_i h
    simp [List.length_eq_zero.mp h]
  · simp only
    have hq' : ∀ i, i < (normalize ops points0).length →
        ((regionQuery ops (normalize ops points0) epsilon i).length : Int) < minPts := by
      intro i hi
      rw [normalize_length] at hi
      exact hq i hi
    have hneg := (clusterLoop_all_noise ops (normalize ops points0) epsilon minPts hq').1
    rw [clusterMembers_eq_nil _ _ (fun i _ => hneg i)]
    simp [selectOutput, bestCluster, membersOf, normalize_ip]

theorem regionQuery_length_lt {K : Type} (ops : DoubleOps K) (pts : List (FeaturePoint K))
    (epsilon : K) (i : Nat) (hi : i < pts.length) :
    (regionQuery ops pts epsilon i).length < pts.length := by
  unfold regionQuery
  have hsub : ((List.range pts.length).filter
      (fun j => decide (j ≠ i) && ops.le (dist ops pts i j) epsilon)).Sublist
      ((List.range pts.length).filter (fun j => decide (j ≠ i))) := by
    apply List.monotone_filter_right
    intro j
    simp only [Bool.and_eq_true]
    exact fun h => h.1
  have hlen : ((List.range pts.length).filter (fun j => decide (j ≠ i))).length
      < pts.length := by
    have := (List.length_filter_lt_length_iff_exists (p := fun j => decide (j ≠ i))
      (l := List.range pts.length)).mpr ⟨i, List.mem_range.mpr hi, by simp⟩
    simpa using this
  exact lt_of_le_of_lt hsub.length_le hlen

theorem extractPoints_purgeLoop {K : Type} (ops : DoubleOps K) (x y : Nat) (b now : Time)
    (m : EntryMap) (h : ∀ p ∈ m, p.2.m_flag = VALID → ¬ p.2.m_lifeTime < now) :
    extractPoints ops x y (purgeLoop b now m) = extractPoints ops x y m := by
  induction m with
  | nil => rfl
  | cons p rest ih =>
    obtain ⟨k, e⟩ := p
    have ih' := ih (fun q hq => h q (List.mem_cons_of_mem _ hq))
    have hhead := h (k, e) (List.mem_cons_self _ _)
    simp only [purgeLoop, RoutingTableEntry.GetLifeTime, RoutingTableEntry.GetFlag, sub_neg]
    by_cases hexp : e.m_lifeTime < now
    · by_cases hi : e.m_flag = INVALID
      · simp [hexp, hi, ih', extractPoints, RoutingTableEntry.GetFlag]
      · by_cases hv : e.m_flag = VALID
        · exact absurd hexp (hhead hv)
        · simp [hexp, hi, hv, ih', extractPoints]
    · simp [hexp, ih', extractPoints]

theorem extractPoints_purge_purge {K : Type} (ops : DoubleOps K) (x y : Nat)
    (T : RoutingTable) (now : Time) :
    extractPoints ops x y ((T.Purge now).Purge now).m_ipv4AddressEntry =
      extractPoints ops x y (T.Purge now).m_ipv4AddressEntry := by
  rw [purge_entries (T.Purge now) now, purge_badLink]
  apply extractPoints_purgeLoop
  intro p hp hv
  rw [purge_entries] at hp
  exact (mem_purgeLoop_valid _ now _ p.1 p.2 hp hv).2

theorem purge_single_valid (b now : Time) (k : Ipv4Address) (e : RoutingTableEntry)
    (h : ¬ e.m_lifeTime < now) :
    (RoutingTable.Purge ⟨[(k, e)], b⟩ now).m_ipv4AddressEntry = [(k, e)] := by
  rw [purge_entries]
  simp [purgeLoop, RoutingTableEntry.GetLifeTime, h]

/-! ## Facts about the expansion of a cluster -/

theorem regionQuery_lt {K : Type} (ops : DoubleOps K) (pts : List (FeaturePoint K))
    (epsilon : K) (idx p : Nat) (hp : p ∈ regionQuery ops pts epsilon idx) : p < pts.length := by
  unfold regionQuery at hp
  exact List.mem_range.mp (List.mem_of_mem_filter hp)

theorem mem_of_nodup_of_length_ge (vis : List Nat) (n : Nat) (hnd : vis.Nodup)
    (hlt : ∀ v ∈ vis, v < n) (hlen : n ≤ vis.length) (p : Nat) (hp : p < n) : p ∈ vis := by
  have hsub : vis.toFinset ⊆ Finset.range n := by
    intro v hv
    exact Finset.mem_range.mpr (hlt v (List.mem_toFinset.mp hv))
  have hcard : vis.toFinset.card = vis.length := List.toFinset_card_of_nodup hnd
  have heq : vis.toFinset = Finset.range n := by
    apply Finset.eq_of_subset_of_card_le hsub
    rw [Finset.card_range, hcard]
    exact hlen
  have : p ∈ vis.toFinset := by rw [heq]; exact Finset.mem_range.mpr hp
  exact List.mem_toFinset.mp this

theorem labelsKept_refl (label : List Int) : labelsKept label label :=
  ⟨rfl, fun _ _ => rfl, fun h => h⟩

theorem labelsKept_trans (a b c : List Int) (h1 : labelsKept a b) (h2 : labelsKept b c) :
    labelsKept a c :=
  ⟨h2.1.trans h1.1,
    fun j hj => by rw [h2.2.1 j (by rw [h1.2.1 j hj]; exact hj), h1.2.1 j hj],
    fun h => h2.2.2 (h1.2.2 h)⟩

theorem getD_set_self (label : List Int) (p : Nat) (v : Int) (hp : p < label.length) :
    (label.set p v).getD p UNVISITED = v := by
  simp [List.getD_eq_getElem?_getD, List.getElem?_set, hp]

theorem getD_set_other (label : List Int) (p j : Nat) (v : Int) (h : p ≠ j) :
    (label.set p v).getD j UNVISITED = label.getD j UNVISITED := by
  simp [List.getD_eq_getElem?_getD, List.getElem?_set, h]

theorem getD_set_cases (label : List Int) (p j : Nat) (v : Int) :
    (label.set p v).getD j UNVISITED = v ∨
      (label.set p v).getD j UNVISITED = label.getD j UNVISITED := by
  by_cases h : p = j
  · subst h
    by_cases hp : p < label.length
    · left; exact getD_set_self label p v hp
    · right
      rw [List.set_eq_of_length_le (not_lt.mp hp)]
  · right; exact getD_set_other label p j v h

theorem labelsKept_set (label : List Int) (p : Nat) (v : Int)
    (hp : label.getD p UNVISITED < 0) (hv : v = UNVISITED ∨ v = NOISE ∨ 0 ≤ v) :
    labelsKept label (label.set p v) := by
  refine ⟨by simp, fun j hj => ?_, fun h j => ?_⟩
  · by_cases hpj : p = j
    · subst hpj; omega
    · exact getD_set_other label p j v hpj
  · rcases getD_set_cases label p j v with h' | h'
    · rw [h']; exact hv
    · rw [h']; exact h j

theorem labelsKept_assign (label : List Int) (p : Nat) (cid : Int) (hc : 0 ≤ cid) :
    labelsKept label
      (if label.getD p UNVISITED = UNVISITED ∨ label.getD p UNVISITED = NOISE then
        label.set p cid else label) := by
  split
  · rename_i h
    apply labelsKept_set _ _ _ _ (Or.inr (Or.inr hc))
    rcases h with h | h <;> rw [h] <;> decide
  · exact labelsKept_refl label

theorem assign_nonneg (label : List Int) (p : Nat) (cid : Int) (hc : 0 ≤ cid)
    (hp : p < label.length)
    (hvalid : label.getD p UNVISITED = UNVISITED ∨ label.getD p UNVISITED = NOISE ∨
      0 ≤ label.getD p UNVISITED) :
    0 ≤ (if label.getD p UNVISITED = UNVISITED ∨ label.getD p UNVISITED = NOISE then
        label.set p cid else label).getD p UNVISITED := by
  split
  · rw [getD_set_self label p cid hp]; exact hc
  · rename_i h
    push_neg at h
    rcases hvalid with h1 | h1 | h1
    · exact absurd h1 h.1
    · exact absurd h1 h.2
    · exact h1

theorem expandQueue_kept {K : Type} (ops : DoubleOps K) (pts : List (FeaturePoint K))
    (epsilon : K) (minPts : Int) (cid : Int) (hc : 0 ≤ cid)
    (next : List Nat → List Nat → List Int → List Int)
    (hnext : ∀ q vis label, labelsKept label (next q vis label))
    (q vis : List Nat) (label : List Int) :
    labelsKept label (expandQueue ops pts epsilon minPts cid next q vis label) := by
  induction q generalizing vis label with
  | nil => exact labelsKept_refl label
  | cons p rest ih =>
    simp only [expandQueue]
    split
    · exact ih vis label
    · split
      · exact labelsKept_trans _ _ _ (labelsKept_assign label p cid hc) (hnext _ _ _)
      · exact labelsKept_trans _ _ _ (labelsKept_assign label p cid hc) (hnext _ _ _)

theorem expandCluster_kept {K : Type} (ops : DoubleOps K) (pts : List (FeaturePoint K))
    (epsilon : K) (minPts : Int) (cid : Int) (hc : 0 ≤ cid) (budget : Nat)
    (q vis : List Nat) (label : List Int) :
    labelsKept label (expandCluster ops pts epsilon minPts cid budget q vis label) := by
  induction budget generalizing q vis label with
  | zero => exact labelsKept_refl label
  | succ b ih =>
    simp only [expandCluster]
    exact expandQueue_kept ops pts epsilon minPts cid hc _ (fun q vis label => ih q vis label)
      q vis label

theorem expandQueue_labels {K : Type} (ops : DoubleOps K) (pts : List (FeaturePoint K))
    (epsilon : K) (minPts : Int) (cid : Int) (hc : 0 ≤ cid) (budget : Nat)
    (next : List Nat → List Nat → List Int → List Int)
    (hnext : expansionLabels pts.length budget next) :
    expansionLabels pts.length (budget + 1)
      (expandQueue ops pts epsilon minPts cid next) := by
  intro q
  induction q with
  | nil =>
    intro vis label _ _ _ _ hlab _ _ p hp
    rcases hp with hp | hp
    · simp at hp
    · simpa [expandQueue] using hlab p hp
  | cons p0 rest ih =>
    intro vis label hq hnd hvis hbud hlab hlen hvalid p hp
    have hrest : ∀ p ∈ rest, p < pts.length := fun p hp => hq p (List.mem_cons_of_mem _ hp)
    simp only [expandQueue]
    split
    · rename_i hin
      apply ih vis label hrest hnd hvis hbud hlab hlen hvalid
      rcases hp with hp | hp
      · rcases List.mem_cons.mp hp with h | h
        · right; rw [h]; exact hin
        · left; exact h
      · right; exact hp
    · rename_i hin
      have hp0 : p0 < pts.length := hq p0 (List.mem_cons_self _ _)
      have hk := labelsKept_assign label p0 cid hc
      have hnd' : (p0 :: vis).Nodup := List.nodup_cons.mpr ⟨hin, hnd⟩
      have hvis' : ∀ v ∈ p0 :: vis, v < pts.length := by
        intro v hv
        rcases List.mem_cons.mp hv with h | h
        · rw [h]; exact hp0
        · exact hvis v h
      have hbud' : pts.length ≤ budget + (p0 :: vis).length := by
        simp only [List.length_cons]; omega
      have hlab' : ∀ v ∈ p0 :: vis, 0 ≤ (if label.getD p0 UNVISITED = UNVISITED ∨
          label.getD p0 UNVISITED = NOISE then label.set p0 cid else label).getD v
          UNVISITED := by
        intro v hv
        rcases List.mem_cons.mp hv with h | h
        · rw [h]; exact assign_nonneg label p0 cid hc (hlen ▸ hp0) (hvalid p0)
        · rw [hk.2.1 v (hlab v h)]; exact hlab v h
      have hlen' := hk.1.trans hlen
      have hvalid' := hk.2.2 hvalid
      have hpin : ∀ (q' : List Nat), (∀ x ∈ rest, x ∈ q') → p ∈ q' ∨ p ∈ p0 :: vis := by
        intro q' hsub
        rcases hp with hp | hp
        · rcases List.mem_cons.mp hp with h | h
          · right; rw [h]; exact List.mem_cons_self _ _
          · left; exact hsub p h
        · right; exact List.mem_cons_of_mem _ hp
      split
      · apply hnext _ _ _ ?_ hnd' hvis' hbud' hlab' hlen' hvalid' p
          (hpin _ (fun x hx => List.mem_append_left _ hx))
        intro x hx
        rcases List.mem_append.mp hx with h | h
        · exact hrest x h
        · exact regionQuery_lt ops pts epsilon p0 x (List.mem_of_mem_filter h)
      · exact hnext _ _ _ hrest hnd' hvis' hbud' hlab' hlen' hvalid' p
          (hpin _ (fun x hx => hx))

theorem expandCluster_labels {K : Type} (ops : DoubleOps K) (pts : List (FeaturePoint K))
    (epsilon : K) (minPts : Int) (cid : Int) (hc : 0 ≤ cid) (budget : Nat) :
    expansionLabels pts.length budget (expandCluster ops pts epsilon minPts cid budget) := by
  induction budget with
  | zero =>
    intro q vis label hq hnd hvis hbud hlab _ _ p hp
    simp only [expandCluster]
    rcases hp with hp | hp
    · exact hlab p (mem_of_nodup_of_length_ge vis pts.length hnd hvis (by simpa using hbud) p
        (hq p hp))
    · exact hlab p hp
  | succ b ih =>
    simp only [expandCluster]
    exact expandQueue_labels ops pts epsilon minPts cid hc b _ ih

theorem clusterStep_invariant {K : Type} (ops : DoubleOps K) (pts : List (FeaturePoint K))
    (epsilon : K) (minPts : Int) (st : List Int × Int) (i : Nat) (hi : i < pts.length)
    (h : clusterInvariant pts.length st) :
    clusterInvariant pts.length (clusterStep ops pts epsilon minPts st i) := by
  obtain ⟨hlen, hvalid, hc, hex⟩ := h
  unfold clusterStep
  split
  · exact ⟨hlen, hvalid, hc, hex⟩
  · rename_i hun
    have hun' : st.1.getD i UNVISITED = UNVISITED := by simpa using hun
    simp only
    split
    · have hk := labelsKept_set st.1 i NOISE (by rw [hun']; decide) (Or.inr (Or.inl rfl))
      refine ⟨hk.1.trans hlen, hk.2.2 hvalid, hc, fun hpos => ?_⟩
      obtain ⟨j, hj, hlab⟩ := hex hpos
      exact ⟨j, hj, by rw [hk.2.1 j hlab]; exact hlab⟩
    · have hk := expandCluster_kept ops pts epsilon minPts st.2 hc pts.length
        (regionQuery ops pts epsilon i ++ [i]) [] st.1
      refine ⟨hk.1.trans hlen, hk.2.2 hvalid, by omega, fun _ => ⟨i, hi, ?_⟩⟩
      apply expandCluster_labels ops pts epsilon minPts st.2 hc pts.length _ _ _ ?_
        List.nodup_nil (by simp) (by simp) (by simp) hlen hvalid i
        (Or.inl (by simp))
      intro p hp
      rcases List.mem_append.mp hp with h | h
      · exact regionQuery_lt ops pts epsilon i p h
      · simp only [List.mem_singleton] at h; rw [h]; exact hi

theorem clusterLoop_invariant {K : Type} (ops : DoubleOps K) (pts : List (FeaturePoint K))
    (epsilon : K) (minPts : Int) :
    clusterInvariant pts.length (clusterLoop ops pts epsilon minPts) := by
  unfold clusterLoop
  have hgen : ∀ (l : List Nat) (st : List Int × Int), (∀ i ∈ l, i < pts.length) →
      clusterInvariant pts.length st →
      clusterInvariant pts.length (l.foldl (clusterStep ops pts epsilon minPts) st) := by
    intro l
    induction l with
    | nil => intro st _ h; exact h
    | cons i rest ih =>
      intro st hl h
      exact ih _ (fun j hj => hl j (List.mem_cons_of_mem _ hj))
        (clusterStep_invariant ops pts epsilon minPts st i (hl i (List.mem_cons_self _ _)) h)
  apply hgen _ _ (fun i hi => List.mem_range.mp hi)
  refine ⟨by simp, fun j => ?_, le_refl 0, fun h => absurd h (lt_irrefl 0)⟩
  left
  simp only [List.getD_eq_getElem?_getD, List.getElem?_replicate]
  split <;> rfl

theorem clusterMembers_ne_nil_of_clusters {K : Type} (ops : DoubleOps K)
    (pts : List (FeaturePoint K)) (epsilon : K) (minPts : Int)
    (h : 0 < (clusterLoop ops pts epsilon minPts).2) :
    clusterMembers pts.length (clusterLoop ops pts epsilon minPts).1 ≠ [] := by
  obtain ⟨j, hj, hlab⟩ := (clusterLoop_invariant ops pts epsilon minPts).2.2.2 h
  exact clusterMembers_ne_nil _ _ j hj hlab

/-! ## Facts about the clusters of a table -/

theorem dbscan_eq_selectOutput {K : Type} (ops : DoubleOps K) (T : RoutingTable) (now : Time)
    (dst : Ipv4Address) (positionX positionY : Nat) (epsilon : K) (minPts : Int)
    (h : dbscanClusters ops T now positionX positionY epsilon minPts ≠ []) :
    (T.DBSCAN now ops dst positionX positionY epsilon minPts).1 =
      selectOutput ops (dbscanPoints ops T now positionX positionY)
        (dbscanClusters ops T now positionX positionY epsilon minPts)
        (bestCluster ops (dbscanPoints ops T now positionX positionY)
          (dbscanClusters ops T now positionX positionY epsilon minPts)).1 := by
  simp only [RoutingTable.DBSCAN, clusterAndSelect]
  split
  · rename_i hz
    exfalso
    apply h
    have : (dbscanPoints ops T now positionX positionY).length = 0 := by
      simp only [dbscanPoints, normalize_length]; exact hz
    simp [dbscanClusters, this, clusterMembers]
  · rfl

theorem two_pairs_noise {K : Type} (ops : DoubleOps K) (pts : List (FeaturePoint K))
    (epsilon : K) (hlen : pts.length = 4)
    (h0 : regionQuery ops pts epsilon 0 = [1]) (h1 : regionQuery ops pts epsilon 1 = [0])
    (h2 : regionQuery ops pts epsilon 2 = [3]) (h3 : regionQuery ops pts epsilon 3 = [2]) :
    clusterLoop ops pts epsilon 2 = ([NOISE, NOISE, NOISE, NOISE], 0) := by
  simp [clusterLoop, hlen, List.range_succ, clusterStep, h0, h1, h2, h3, UNVISITED, NOISE,
    List.replicate]

theorem two_pairs_clusters {K : Type} (ops : DoubleOps K) (pts : List (FeaturePoint K))
    (epsilon : K) (hlen : pts.length = 4)
    (h0 : regionQuery ops pts epsilon 0 = [1]) (h1 : regionQuery ops pts epsilon 1 = [0])
    (h2 : regionQuery ops pts epsilon 2 = [3]) (h3 : regionQuery ops pts epsilon 3 = [2]) :
    clusterLoop ops pts epsilon 1 = ([0, 0, 1, 1], 2) := by
  simp [clusterLoop, hlen, List.range_succ, clusterStep, h0, h1, h2, h3, UNVISITED, NOISE,
    List.replicate, expandCluster, expandQueue]

theorem dbscanPoints_ip {K : Type} (ops : DoubleOps K) (T : RoutingTable) (now : Time)
    (x y : Nat) :
    (dbscanPoints ops T now x y).map FeaturePoint.ip =
      ((T.Purge now).m_ipv4AddressEntry.filter isCandidate).map Prod.fst := by
  rw [dbscanPoints, normalize_ip, extractPoints_ip]

theorem dbscanPoints_length {K : Type} (ops : DoubleOps K) (T : RoutingTable) (now : Time)
    (x y : Nat) :
    (dbscanPoints ops T now x y).length =
      ((T.Purge now).m_ipv4AddressEntry.filter isCandidate).length := by
  rw [dbscanPoints, normalize_length, extractPoints_length]

/-! ## Facts about density in the clustering loop -/

theorem assign_other (label : List Int) (p j : Nat) (cid : Int) (h : p ≠ j) :
    (if label.getD p UNVISITED = UNVISITED ∨ label.getD p UNVISITED = NOISE then
        label.set p cid else label).getD j UNVISITED = label.getD j UNVISITED := by
  split
  · exact getD_set_other label p j cid h
  · rfl

theorem assign_changes (label : List Int) (p j : Nat) (cid : Int) :
    (if label.getD p UNVISITED = UNVISITED ∨ label.getD p UNVISITED = NOISE then
        label.set p cid else label).getD j UNVISITED = label.getD j UNVISITED ∨
    (if label.getD p UNVISITED = UNVISITED ∨ label.getD p UNVISITED = NOISE then
        label.set p cid else label).getD j UNVISITED = cid := by
  split
  · rcases getD_set_cases label p j cid with h | h
    · right; exact h
    · left; exact h
  · left; rfl

theorem expandQueue_changes {K : Type} (ops : DoubleOps K) (pts : List (FeaturePoint K))
    (epsilon : K) (minPts : Int) (cid : Int)
    (next : List Nat → List Nat → List Int → List Int)
    (hnext : ∀ q vis label j, (next q vis label).getD j UNVISITED = label.getD j UNVISITED ∨
      (next q vis label).getD j UNVISITED = cid)
    (q vis : List Nat) (label : List Int) (j : Nat) :
    (expandQueue ops pts epsilon minPts cid next q vis label).getD j UNVISITED =
        label.getD j UNVISITED ∨
      (expandQueue ops pts epsilon minPts cid next q vis label).getD j UNVISITED = cid := by
  induction q generalizing vis label with
  | nil => left; rfl
  | cons p rest ih =>
    simp only [expandQueue]
    split
    · exact ih vis label
    · split
      · rcases hnext (rest ++ (regionQuery ops pts epsilon p).filter
            (fun x => x ∉ p :: vis)) (p :: vis) _ j with h | h
        · rw [h]; exact assign_changes label p j cid
        · right; exact h
      · rcases hnext rest (p :: vis) _ j with h | h
        · rw [h]; exact assign_changes label p j cid
        · right; exact h

theorem expandCluster_changes {K : Type} (ops : DoubleOps K) (pts : List (FeaturePoint K))
    (epsilon : K) (minPts : Int) (cid : Int) (budget : Nat)
    (q vis : List Nat) (label : List Int) (j : Nat) :
    (expandCluster ops pts epsilon minPts cid budget q vis label).getD j UNVISITED =
        label.getD j UNVISITED ∨
      (expandCluster ops pts epsilon minPts cid budget q vis label).getD j UNVISITED = cid := by
  induction budget generalizing q vis label j with
  | zero => left; rfl
  | succ b ih =>
    simp only [expandCluster]
    exact expandQueue_changes ops pts epsilon minPts cid _
      (fun q vis label j => ih q vis label j) q vis label j

theorem expandQueue_sound {K : Type} (ops : DoubleOps K) (pts : List (FeaturePoint K))
    (epsilon : K) (minPts : Int) (cid : Int) (hc : 0 ≤ cid) (budget : Nat)
    (next : List Nat → List Nat → List Int → List Int)
    (hnext : expansionSound ops pts epsilon minPts budget next) :
    expansionSound ops pts epsilon minPts (budget + 1)
      (expandQueue ops pts epsilon minPts cid next) := by
  intro q
  induction q with
  | nil =>
    intro vis label _ _ _ _ hlab _ _ _ hcl
    simp only [expandQueue]
    refine ⟨fun j hj => Or.inl hj, fun c hcore hlc x hx => ?_⟩
    rcases hcl c hcore hlc x hx with h | h | h
    · exact h
    · simp at h
    · exact hlab x h
  | cons p0 rest ih =>
    intro vis label hq hnd hvis hbud hlab hlen hvalid hreach hcl
    have hrest : ∀ p ∈ rest, p < pts.length := fun p hp => hq p (List.mem_cons_of_mem _ hp)
    have hreach' : ∀ x ∈ rest, densityReached ops pts epsilon minPts x :=
      fun x hx => hreach x (List.mem_cons_of_mem _ hx)
    simp only [expandQueue]
    split
    · rename_i hin
      apply ih vis label hrest hnd hvis hbud hlab hlen hvalid hreach'
      intro c hcore hlc x hx
      rcases hcl c hcore hlc x hx with h | h | h
      · exact Or.inl h
      · rcases List.mem_cons.mp h with h' | h'
        · right; right; rw [h']; exact hin
        · right; left; exact h'
      · right; right; exact h
    · rename_i hin
      have hp0 : p0 < pts.length := hq p0 (List.mem_cons_self _ _)
      have hk := labelsKept_assign label p0 cid hc
      have hnd' : (p0 :: vis).Nodup := List.nodup_cons.mpr ⟨hin, hnd⟩
      have hvis' : ∀ v ∈ p0 :: vis, v < pts.length := by
        intro v hv
        rcases List.mem_cons.mp hv with h | h
        · rw [h]; exact hp0
        · exact hvis v h
      have hbud' : pts.length ≤ budget + (p0 :: vis).length := by
        simp only [List.length_cons]; omega
      have hlab' : ∀ v ∈ p0 :: vis, 0 ≤ (if label.getD p0 UNVISITED = UNVISITED ∨
          label.getD p0 UNVISITED = NOISE then label.set p0 cid else label).getD v
          UNVISITED := by
        intro v hv
        rcases List.mem_cons.mp hv with h | h
        · rw [h]; exact assign_nonneg label p0 cid hc (hlen ▸ hp0) (hvalid p0)
        · rw [hk.2.1 v (hlab v h)]; exact hlab v h
      have hlen' := hk.1.trans hlen
      have hvalid' := hk.2.2 hvalid
      have hback : ∀ j, 0 ≤ (if label.getD p0 UNVISITED = UNVISITED ∨
          label.getD p0 UNVISITED = NOISE then label.set p0 cid else label).getD j
          UNVISITED → 0 ≤ label.getD j UNVISITED ∨ densityReached ops pts epsilon minPts j := by
        intro j hj
        by_cases hpj : p0 = j
        · right; rw [← hpj]; exact hreach p0 (List.mem_cons_self _ _)
        · left; rw [assign_other label p0 j cid hpj] at hj; exact hj
      have hfinish : ∀ (q' : List Nat), (∀ x ∈ q', x < pts.length) →
          (∀ x ∈ q', densityReached ops pts epsilon minPts x) →
          (∀ c, isCore ops pts epsilon minPts c →
            0 ≤ (if label.getD p0 UNVISITED = UNVISITED ∨
              label.getD p0 UNVISITED = NOISE then label.set p0 cid else label).getD c
              UNVISITED →
            ∀ x ∈ regionQuery ops pts epsilon c,
              0 ≤ (if label.getD p0 UNVISITED = UNVISITED ∨
                label.getD p0 UNVISITED = NOISE then label.set p0 cid else label).getD x
                UNVISITED ∨ x ∈ q' ∨ x ∈ p0 :: vis) →
          (∀ j, 0 ≤ (next q' (p0 :: vis) (if label.getD p0 UNVISITED = UNVISITED ∨
              label.getD p0 UNVISITED = NOISE then label.set p0 cid else label)).getD j
              UNVISITED →
            0 ≤ label.getD j UNVISITED ∨ densityReached ops pts epsilon minPts j) ∧
          (∀ c, isCore ops pts epsilon minPts c →
            0 ≤ (next q' (p0 :: vis) (if label.getD p0 UNVISITED = UNVISITED ∨
              label.getD p0 UNVISITED = NOISE then label.set p0 cid else label)).getD c
              UNVISITED →
            ∀ x ∈ regionQuery ops pts epsilon c,
              0 ≤ (next q' (p0 :: vis) (if label.getD p0 UNVISITED = UNVISITED ∨
                label.getD p0 UNVISITED = NOISE then label.set p0 cid else label)).getD x
                UNVISITED) := by
        intro q' hq' hr' hcl'
        obtain ⟨h1, h2⟩ := hnext q' (p0 :: vis) _ hq' hnd' hvis' hbud' hlab' hlen' hvalid'
          hr' hcl'
        refine ⟨fun j hj => ?_, h2⟩
        rcases h1 j hj with h | h
        · exact hback j h
        · exact Or.inr h
      have hold : ∀ (q' : List Nat), (∀ x ∈ rest, x ∈ q') → ∀ c,
          isCore ops pts epsilon minPts c → 0 ≤ label.getD c UNVISITED →
          ∀ x ∈ regionQuery ops pts epsilon c,
            0 ≤ (if label.getD p0 UNVISITED = UNVISITED ∨
              label.getD p0 UNVISITED = NOISE then label.set p0 cid else label).getD x
              UNVISITED ∨ x ∈ q' ∨ x ∈ p0 :: vis := by
        intro q' hsub c hcore hlc x hx
        rcases hcl c hcore hlc x hx with h | h | h
        · left; rw [hk.2.1 x h]; exact h
        · rcases List.mem_cons.mp h with h' | h'
          · right; right; rw [h']; exact List.mem_cons_self _ _
          · right; left; exact hsub x h'
        · right; right; exact List.mem_cons_of_mem _ h
      split
      · rename_i hcorep
        apply hfinish
        · intro x hx
          rcases List.mem_append.mp hx with h | h
          · exact hrest x h
          · exact regionQuery_lt ops pts epsilon p0 x (List.mem_of_mem_filter h)
        · intro x hx
          rcases List.mem_append.mp hx with h | h
          · exact hreach' x h
          · exact Or.inr ⟨p0, ⟨hp0, hcorep⟩, List.mem_of_mem_filter h⟩
        · intro c hcore hlc x hx
          by_cases hold_c : 0 ≤ label.getD c UNVISITED
          · exact hold _ (fun y hy => List.mem_append_left _ hy) c hcore hold_c x hx
          · have hcp : p0 = c := by
              by_contra hne
              rw [assign_other label p0 c cid hne] at hlc
              exact hold_c hlc
            rw [← hcp] at hx
            by_cases hxv : x ∈ p0 :: vis
            · right; right; exact hxv
            · right; left
              exact List.mem_append_right _ (List.mem_filter.mpr ⟨hx, by simpa using hxv⟩)
      · rename_i hcorep
        apply hfinish rest hrest hreach'
        intro c hcore hlc x hx
        by_cases hold_c : 0 ≤ label.getD c UNVISITED
        · exact hold _ (fun y hy => hy) c hcore hold_c x hx
        · have hcp : p0 = c := by
            by_contra hne
            rw [assign_other label p0 c cid hne] at hlc
            exact hold_c hlc
          rw [← hcp] at hcore
          exact absurd hcore.2 hcorep

theorem expandCluster_sound {K : Type} (ops : DoubleOps K) (pts : List (FeaturePoint K))
    (epsilon : K) (minPts : Int) (cid : Int) (hc : 0 ≤ cid) (budget : Nat) :
    expansionSound ops pts epsilon minPts budget
      (expandCluster ops pts epsilon minPts cid budget) := by
  induction budget with
  | zero =>
    intro q vis label hq hnd hvis hbud hlab _ _ _ hcl
    simp only [expandCluster]
    refine ⟨fun j hj => Or.inl hj, fun c hcore hlc x hx => ?_⟩
    rcases hcl c hcore hlc x hx with h | h | h
    · exact h
    · exact hlab x (mem_of_nodup_of_length_ge vis pts.length hnd hvis (by simpa using hbud) x
        (hq x h))
    · exact hlab x h
  | succ b ih =>
    simp only [expandCluster]
    exact expandQueue_sound ops pts epsilon minPts cid hc b _ ih

theorem getD_replicate_unvisited (n j : Nat) :
    (List.replicate n UNVISITED).getD j UNVISITED = UNVISITED := by
  simp only [List.getD_eq_getElem?_getD, List.getElem?_replicate]
  split <;> rfl

theorem clusterStep_density {K : Type} (ops : DoubleOps K) (pts : List (FeaturePoint K))
    (epsilon : K) (minPts : Int) (st : List Int × Int) (i : Nat) (hi : i < pts.length)
    (h : clusterInvariant pts.length st)
    (hd : densityInvariant ops pts epsilon minPts st.1) :
    densityInvariant ops pts epsilon minPts (clusterStep ops pts epsilon minPts st i).1 := by
  obtain ⟨hlen, hvalid, hc, _⟩ := h
  obtain ⟨hd1, hd2, hd3⟩ := hd
  unfold clusterStep
  split
  · exact ⟨hd1, hd2, hd3⟩
  · rename_i hun
    have hun' : st.1.getD i UNVISITED = UNVISITED := by simpa using hun
    simp only
    split
    · rename_i hnc
      have hback : ∀ j, 0 ≤ (st.1.set i NOISE).getD j UNVISITED →
          0 ≤ st.1.getD j UNVISITED ∧ j ≠ i := by
        intro j hj
        by_cases hij : i = j
        · rw [← hij, getD_set_self st.1 i NOISE (hlen ▸ hi)] at hj
          simp [NOISE] at hj
        · rw [getD_set_other st.1 i j NOISE hij] at hj
          exact ⟨hj, fun e => hij e.symm⟩
      refine ⟨fun j hj => ?_, fun j hj => hd2 j (hback j hj).1, fun c hcore hlc x hx => ?_⟩
      · by_cases hij : i = j
        · rw [← hij]
          exact fun hcore => absurd hnc (not_lt.mpr hcore.2)
        · rw [getD_set_other st.1 i j NOISE hij] at hj
          exact hd1 j hj
      · have hx0 := hd3 c hcore (hback c hlc).1 x hx
        have hxi : i ≠ x := by
          intro e
          rw [← e, hun'] at hx0
          simp [UNVISITED] at hx0
        rw [getD_set_other st.1 i x NOISE hxi]
        exact hx0
    · rename_i hcorei
      have hcore : isCore ops pts epsilon minPts i := ⟨hi, not_lt.mp hcorei⟩
      have hq : ∀ p ∈ regionQuery ops pts epsilon i ++ [i], p < pts.length := by
        intro p hp
        rcases List.mem_append.mp hp with h | h
        · exact regionQuery_lt ops pts epsilon i p h
        · simp only [List.mem_singleton] at h; rw [h]; exact hi
      obtain ⟨h1, h2⟩ := expandCluster_sound ops pts epsilon minPts st.2 hc pts.length
        (regionQuery ops pts epsilon i ++ [i]) [] st.1 hq List.nodup_nil (by simp) (by simp)
        (by simp) hlen hvalid
        (by
          intro x hx
          rcases List.mem_append.mp hx with h | h
          · exact Or.inr ⟨i, hcore, h⟩
          · simp only [List.mem_singleton] at h; rw [h]; exact Or.inl hcore)
        (fun c hcc hlc x hx => Or.inl (hd3 c hcc hlc x hx))
      refine ⟨fun j hj => ?_, fun j hj => ?_, h2⟩
      · rcases expandCluster_changes ops pts epsilon minPts st.2 pts.length
            (regionQuery ops pts epsilon i ++ [i]) [] st.1 j with h | h
        · rw [h] at hj; exact hd1 j hj
        · rw [h] at hj
          rw [hj] at hc
          simp [NOISE] at hc
      · rcases h1 j hj with h | h
        · exact hd2 j h
        · exact h

theorem clusterStep_labelled {K : Type} (ops : DoubleOps K) (pts : List (FeaturePoint K))
    (epsilon : K) (minPts : Int) (st : List Int × Int) (i : Nat) (hi : i < pts.length)
    (h : clusterInvariant pts.length st) (j : Nat)
    (hj : j = i ∨ st.1.getD j UNVISITED ≠ UNVISITED) :
    (clusterStep ops pts epsilon minPts st i).1.getD j UNVISITED ≠ UNVISITED := by
  obtain ⟨hlen, hvalid, hc, _⟩ := h
  unfold clusterStep
  split
  · rename_i hun
    rcases hj with hj | hj
    · rw [hj]; exact hun
    · exact hj
  · simp only
    split
    · rcases getD_set_cases st.1 i j NOISE with h | h
      · rw [h]; decide
      · rcases hj with hj | hj
        · rw [hj, getD_set_self st.1 i NOISE (hlen ▸ hi)]; decide
        · rw [h]; exact hj
    · rcases hj with hj | hj
      · have : 0 ≤ (expandCluster ops pts epsilon minPts st.2 pts.length
            (regionQuery ops pts epsilon i ++ [i]) [] st.1).getD i UNVISITED := by
          apply expandCluster_labels ops pts epsilon minPts st.2 hc pts.length _ _ _ ?_
            List.nodup_nil (by simp) (by simp) (by simp) hlen hvalid i (Or.inl (by simp))
          intro p hp
          rcases List.mem_append.mp hp with h | h
          · exact regionQuery_lt ops pts epsilon i p h
          · simp only [List.mem_singleton] at h; rw [h]; exact hi
        rw [hj]
        intro e
        rw [e] at this
        simp [UNVISITED] at this
      · rcases expandCluster_changes ops pts epsilon minPts st.2 pts.length
            (regionQuery ops pts epsilon i ++ [i]) [] st.1 j with h | h
        · rw [h]; exact hj
        · rw [h]
          intro e
          rw [e] at hc
          simp [UNVISITED] at hc

theorem clusterFold_density {K : Type} (ops : DoubleOps K) (pts : List (FeaturePoint K))
    (epsilon : K) (minPts : Int) (l : List Nat) (st : List Int × Int)
    (hl : ∀ i ∈ l, i < pts.length) (h : clusterInvariant pts.length st)
    (hd : densityInvariant ops pts epsilon minPts st.1) :
    clusterInvariant pts.length (l.foldl (clusterStep ops pts epsilon minPts) st) ∧
    densityInvariant ops pts epsilon minPts
      (l.foldl (clusterStep ops pts epsilon minPts) st).1 ∧
    ∀ j, j ∈ l ∨ st.1.getD j UNVISITED ≠ UNVISITED →
      (l.foldl (clusterStep ops pts epsilon minPts) st).1.getD j UNVISITED ≠ UNVISITED := by
  induction l generalizing st with
  | nil =>
    refine ⟨h, hd, fun j hj => ?_⟩
    rcases hj with hj | hj
    · simp at hj
    · exact hj
  | cons i rest ih =>
    have hi := hl i (List.mem_cons_self _ _)
    obtain ⟨a, b, c⟩ := ih (clusterStep ops pts epsilon minPts st i)
      (fun j hj => hl j (List.mem_cons_of_mem _ hj))
      (clusterStep_invariant ops pts epsilon minPts st i hi h)
      (clusterStep_density ops pts epsilon minPts st i hi h hd)
    refine ⟨a, b, fun j hj => ?_⟩
    apply c j
    rcases hj with hj | hj
    · rcases List.mem_cons.mp hj with h1 | h1
      · right
        exact clusterStep_labelled ops pts epsilon minPts st i hi h j (Or.inl h1)
      · left; exact h1
    · right
      exact clusterStep_labelled ops pts epsilon minPts st i hi h j (Or.inr hj)

theorem clusterLoop_density {K : Type} (ops : DoubleOps K) (pts : List (FeaturePoint K))
    (epsilon : K) (minPts : Int) :
    densityInvariant ops pts epsilon minPts (clusterLoop ops pts epsilon minPts).1 ∧
    ∀ j, j < pts.length →
      (clusterLoop ops pts epsilon minPts).1.getD j UNVISITED = NOISE ∨
        0 ≤ (clusterLoop ops pts epsilon minPts).1.getD j UNVISITED := by
  have hinit : clusterInvariant pts.length (List.replicate pts.length UNVISITED, 0) :=
    ⟨by simp, fun j => Or.inl (getD_replicate_unvisited _ j), le_refl 0,
      fun h => absurd h (lt_irrefl 0)⟩
  have hdinit : densityInvariant ops pts epsilon minPts
      (List.replicate pts.length UNVISITED, (0 : Int)).1 := by
    refine ⟨fun j hj => ?_, fun j hj => ?_, fun c _ hlc => ?_⟩
    · rw [getD_replicate_unvisited] at hj; simp [UNVISITED, NOISE] at hj
    · rw [getD_replicate_unvisited] at hj; simp [UNVISITED] at hj
    · rw [getD_replicate_unvisited] at hlc; simp [UNVISITED] at hlc
  obtain ⟨a, b, c⟩ := clusterFold_density ops pts epsilon minPts (List.range pts.length)
    (List.replicate pts.length UNVISITED, 0) (fun i hi => List.mem_range.mp hi) hinit hdinit
  refine ⟨b, fun j hj => ?_⟩
  have hne := c j (Or.inl (List.mem_range.mpr hj))
  rcases a.2.1 j with h | h | h
  · exact absurd h hne
  · exact Or.inl h
  · exact Or.inr h

theorem mem_cluster_iff (n : Nat) (label : List Int) (j : Nat) (hj : j < n) :
    (∃ x ∈ clusterMembers n label, j ∈ x.2) ↔ 0 ≤ label.getD j UNVISITED := by
  obtain ⟨h1, h2, h3⟩ := clusterMembers_spec n label
  constructor
  · rintro ⟨x, hx, hjx⟩
    have hm := membersOf_of_mem _ x h1 hx
    rw [h3, if_pos (h2 x hx).2] at hm
    rw [← hm, List.mem_filter] at hjx
    have := hjx.2
    simp only [decide_eq_true_eq] at this
    rw [this]
    exact (h2 x hx).2
  · intro hlab
    have hmem : j ∈ membersOf (clusterMembers n label) (label.getD j UNVISITED) := by
      rw [h3, if_pos hlab, List.mem_filter]
      exact ⟨List.mem_range.mpr hj, by simp⟩
    obtain ⟨x, hx, hkey⟩ := exists_key_of_membersOf_ne_nil _ _ (List.ne_nil_of_mem hmem)
    refine ⟨x, hx, ?_⟩
    rw [← membersOf_of_mem _ x h1 hx, hkey]
    exact hmem

/-! ## Facts about expired entries in the purged table and about the candidates -/

theorem specPurgeEntry_fst (b now : Time) (p q : Ipv4Address × RoutingTableEntry)
    (h : specPurgeEntry b now p = some q) : q.1 = p.1 := by
  unfold specPurgeEntry at h
  split at h
  · simp at h
  · split at h
    · simp only [Option.some.injEq] at h; rw [← h]
    · simp only [Option.some.injEq] at h; rw [← h]

theorem purgeLoop_expired_valid (b now : Time) (m : EntryMap) (k : Ipv4Address)
    (e e' : RoutingTableEntry) (hnd : (mapKeys m).Nodup) (hmem : (k, e) ∈ m)
    (hv : e.m_flag = VALID) (hexp : e.m_lifeTime < now) (hmem' : (k, e') ∈ purgeLoop b now m) :
    e'.m_flag = INVALID := by
  rw [purgeLoop_eq_filterMap, List.mem_filterMap] at hmem'
  obtain ⟨p, hp, hspec⟩ := hmem'
  have hk : p.1 = k := (specPurgeEntry_fst b now p (k, e') hspec).symm
  have hpe : p = (k, e) := by
    have hp' : (k, p.2) ∈ m := by rw [← hk]; exact hp
    have := mem_unique_of_nodup m k p.2 e hnd hp' hmem
    rw [← hk, ← this]
  rw [hpe] at hspec
  simp only [specPurgeEntry, hexp, hv, true_and] at hspec
  simp at hspec
  rw [← hspec]

theorem mem_purgeLoop_invalid (b now : Time) (hb : 0 ≤ b) (m : EntryMap) (k : Ipv4Address)
    (e : RoutingTableEntry) (hmem : (k, e) ∈ purgeLoop b now m) (hi : e.m_flag = INVALID) :
    ¬ e.m_lifeTime < now := by
  rw [purgeLoop_eq_filterMap, List.mem_filterMap] at hmem
  obtain ⟨⟨k', e0⟩, _, hspec⟩ := hmem
  simp only [specPurgeEntry] at hspec
  split at hspec
  · simp at hspec
  · rename_i h1
    split at hspec
    · simp only [Option.some.injEq, Prod.mk.injEq] at hspec
      rw [← hspec.2]
      simp only [not_lt]
      exact le_add_of_nonneg_right hb
    · simp only [Option.some.injEq, Prod.mk.injEq] at hspec
      obtain ⟨_, he⟩ := hspec
      subst he
      intro hlt
      exact h1 ⟨hlt, hi⟩

theorem dbscan_mem_candidate {K : Type} (ops : DoubleOps K) (T : RoutingTable) (now : Time)
    (dst : Ipv4Address) (positionX positionY : Nat) (epsilon : K) (minPts : Int)
    (a : Ipv4Address) (ha : a ∈ (T.DBSCAN now ops dst positionX positionY epsilon minPts).1) :
    ∃ e, (a, e) ∈ (T.Purge now).m_ipv4AddressEntry ∧ specEligible a e := by
  have hsub := clusterAndSelect_sublist ops
    (extractPoints ops positionX positionY (T.Purge now).m_ipv4AddressEntry) epsilon minPts
  rw [extractPoints_ip] at hsub
  have hmem := hsub.subset ha
  obtain ⟨p, hp, hpa⟩ := List.mem_map.mp hmem
  obtain ⟨hp1, hp2⟩ := List.mem_filter.mp hp
  refine ⟨p.2, ?_, ?_⟩
  · rw [← hpa]; exact hp1
  · rw [← hpa]; exact (isCandidate_iff p).mp hp2

theorem purge_single_in_search (b now : Time) (k : Ipv4Address) (e : RoutingTableEntry)
    (h : e.m_flag = IN_SEARCH) :
    (RoutingTable.Purge ⟨[(k, e)], b⟩ now).m_ipv4AddressEntry = [(k, e)] := by
  rw [purge_entries]
  simp [purgeLoop, RoutingTableEntry.GetFlag, h]

theorem subnetBroadcast_iff (a : Ipv4Address) :
    IsSubnetDirectedBroadcast a 0xffffff00 = true ↔ a % 256 = 255 := by
  unfold IsSubnetDirectedBroadcast
  simp only [Nat.reduceEqDiff, if_false, Nat.reduceSub, beq_iff_eq]
  constructor
  · intro h
    apply Nat.eq_of_testBit_eq
    intro i
    have hi := congrArg (fun n => n.testBit i) h
    simp only [Nat.testBit_or] at hi
    have h255 : (255 : Nat) = 2 ^ 8 - 1 := by norm_num
    have h256 : (256 : Nat) = 2 ^ 8 := by norm_num
    rw [h256, Nat.testBit_mod_two_pow, h255, Nat.testBit_two_pow_sub_one]
    rw [h255, Nat.testBit_two_pow_sub_one] at hi
    by_cases h8 : i < 8
    · simp [h8] at hi ⊢; exact hi
    · simp [h8]
  · intro h
    apply Nat.eq_of_testBit_eq
    intro i
    have hi := congrArg (fun n => n.testBit i) h
    have h255 : (255 : Nat) = 2 ^ 8 - 1 := by norm_num
    have h256 : (256 : Nat) = 2 ^ 8 := by norm_num
    simp only [Nat.testBit_or]
    rw [h256, h255] at hi
    simp only [Nat.testBit_mod_two_pow, Nat.testBit_two_pow_sub_one] at hi
    rw [h255, Nat.testBit_two_pow_sub_one]
    by_cases h8 : i < 8
    · simp [h8] at hi ⊢; exact hi
    · simp [h8]

theorem mem_purgeLoop_in_search (b now : Time) (m : EntryMap) (k : Ipv4Address)
    (e : RoutingTableEntry) (hmem : (k, e) ∈ m) (h : e.m_flag = IN_SEARCH) :
    (k, e) ∈ purgeLoop b now m := by
  rw [purgeLoop_eq_filterMap, List.mem_filterMap]
  refine ⟨(k, e), hmem, ?_⟩
  simp [specPurgeEntry, h]

/-! ## Facts about rounding to binary64 -/

theorem roundHalfEven_intCast (n : Int) : roundHalfEven (n : ℚ) = n := by
  simp [roundHalfEven]

theorem roundHalfEven_ge_floor (q : ℚ) : ⌊q⌋ ≤ roundHalfEven q := by
  unfold roundHalfEven
  split_ifs <;> omega

theorem roundHalfEven_le_floor (q : ℚ) : roundHalfEven q ≤ ⌊q⌋ + 1 := by
  unfold roundHalfEven
  split_ifs <;> omega

theorem roundHalfEven_mono {x y : ℚ} (h : x ≤ y) : roundHalfEven x ≤ roundHalfEven y := by
  have hf : ⌊x⌋ ≤ ⌊y⌋ := Int.floor_mono h
  rcases lt_or_eq_of_le hf with hlt | heq
  · have h1 := roundHalfEven_le_floor x
    have h2 := roundHalfEven_ge_floor y
    omega
  · unfold roundHalfEven
    rw [heq]
    have hxy : x - (⌊y⌋ : ℚ) ≤ y - (⌊y⌋ : ℚ) := by linarith
    split_ifs <;> first | omega | (exfalso; linarith)

theorem bitLength_spec (fuel n : Nat) (h : n ≤ fuel) :
    bitLength fuel n = if n = 0 then 0 else Nat.log 2 n + 1 := by
  induction fuel generalizing n with
  | zero =>
    have : n = 0 := by omega
    simp [bitLength, this]
  | succ fuel ih =>
    by_cases hn : n = 0
    · simp [bitLength, hn]
    · have hle : n / 2 ≤ fuel := by omega
      simp only [bitLength, hn, if_false, ih (n / 2) hle]
      by_cases h2 : n / 2 = 0
      · have h1 : n = 1 := by omega
        simp [h1]
      · have hge : 2 ≤ n := by omega
        simp only [h2, if_false]
        rw [Nat.log_of_one_lt_of_le (by norm_num) hge]

theorem natLog2_eq (n : Nat) : natLog2 n = Nat.log 2 n := by
  unfold natLog2
  rw [bitLength_spec n n le_rfl]
  by_cases hn : n = 0
  · simp [hn]
  · simp [hn]

theorem floorLog2_spec (q : ℚ) (hq : 0 < q) :
    (2 : ℚ) ^ floorLog2 q ≤ q ∧ q < (2 : ℚ) ^ (floorLog2 q + 1) := by
  have hnum : 0 < q.num := Rat.num_pos.mpr hq
  have hden : 0 < q.den := q.den_pos
  set a := q.num.toNat with ha
  set b := q.den with hb
  have ha0 : a ≠ 0 := by omega
  have hb0 : b ≠ 0 := by omega
  have haq : ((a : ℤ) : ℚ) = (q.num : ℚ) := by
    rw [ha, Int.toNat_of_nonneg hnum.le]
  have hq' : q = (a : ℚ) / (b : ℚ) := by
    have := Rat.num_div_den q
    rw [← this]
    congr 1
    · exact_mod_cast haq.symm
  have hbpos : (0 : ℚ) < b := by exact_mod_cast hden
  have hapos : (0 : ℚ) < a := by exact_mod_cast Nat.pos_of_ne_zero ha0
  have ha1 : ((2 : ℚ) ^ Nat.log 2 a) ≤ a := by exact_mod_cast Nat.pow_log_le_self 2 ha0
  have ha2 : (a : ℚ) < (2 : ℚ) ^ (Nat.log 2 a + 1) := by
    exact_mod_cast Nat.lt_pow_succ_log_self (by norm_num : 1 < 2) a
  have hb1 : ((2 : ℚ) ^ Nat.log 2 b) ≤ b := by exact_mod_cast Nat.pow_log_le_self 2 hb0
  have hb2 : (b : ℚ) < (2 : ℚ) ^ (Nat.log 2 b + 1) := by
    exact_mod_cast Nat.lt_pow_succ_log_self (by norm_num : 1 < 2) b
  have h2 : (2 : ℚ) ≠ 0 := by norm_num
  have hpa : (0 : ℚ) < 2 ^ Nat.log 2 a := by positivity
  have hpb : (0 : ℚ) < 2 ^ Nat.log 2 b := by positivity
  have he : ∀ k : ℤ, (2 : ℚ) ^ ((Nat.log 2 a : ℤ) - (Nat.log 2 b : ℤ) + k) =
      2 ^ Nat.log 2 a / 2 ^ Nat.log 2 b * 2 ^ k := by
    intro k
    rw [zpow_add₀ h2, zpow_sub₀ h2, zpow_natCast, zpow_natCast]
  unfold floorLog2
  rw [natLog2_eq, natLog2_eq]
  split_ifs with hc
  · refine ⟨hc, ?_⟩
    rw [he 1, hq', zpow_one]
    rw [div_mul_eq_mul_div, div_lt_div_iff₀ hbpos hpb]
    have : (a : ℚ) * 2 ^ Nat.log 2 b ≤ a * b := by
      apply mul_le_mul_of_nonneg_left hb1 hapos.le
    have h3 : (a : ℚ) * b < 2 ^ (Nat.log 2 a + 1) * b := by
      apply mul_lt_mul_of_pos_right ha2 hbpos
    rw [pow_succ] at h3
    linarith
  · constructor
    · have := he (-1)
      rw [← sub_eq_add_neg] at this
      rw [this, hq', zpow_neg, zpow_one]
      rw [div_mul_eq_mul_div, div_le_div_iff₀ hpb hbpos]
      have h3 : (2 : ℚ) ^ Nat.log 2 a * b ≤ a * b := by
        apply mul_le_mul_of_nonneg_right ha1 hbpos.le
      have h4 : (a : ℚ) * b ≤ a * 2 ^ (Nat.log 2 b + 1) := by
        apply mul_le_mul_of_nonneg_left hb2.le hapos.le
      rw [pow_succ] at h4
      have : (2 : ℚ) ^ Nat.log 2 a * 2⁻¹ * b = (2 ^ Nat.log 2 a * b) / 2 := by ring
      rw [this]
      linarith
    · rw [sub_add_cancel]
      exact not_le.mp hc

theorem floorLog2_unique (q : ℚ) (e : Int) (h1 : (2 : ℚ) ^ e ≤ q)
    (h2 : q < (2 : ℚ) ^ (e + 1)) :
    floorLog2 q = e := by
  have hq : 0 < q := lt_of_lt_of_le (by positivity) h1
  obtain ⟨s1, s2⟩ := floorLog2_spec q hq
  have a1 : (2 : ℚ) ^ floorLog2 q < (2 : ℚ) ^ (e + 1) := lt_of_le_of_lt s1 h2
  have a2 : (2 : ℚ) ^ e < (2 : ℚ) ^ (floorLog2 q + 1) := lt_of_le_of_lt h1 s2
  have b1 := (zpow_lt_zpow_iff_right₀ (by norm_num : (1 : ℚ) < 2)).mp a1
  have b2 := (zpow_lt_zpow_iff_right₀ (by norm_num : (1 : ℚ) < 2)).mp a2
  omega

theorem floorLog2_mono {x y : ℚ} (hx : 0 < x) (h : x ≤ y) : floorLog2 x ≤ floorLog2 y := by
  obtain ⟨s1, _⟩ := floorLog2_spec x hx
  obtain ⟨_, t2⟩ := floorLog2_spec y (lt_of_lt_of_le hx h)
  have a1 : (2 : ℚ) ^ floorLog2 x < (2 : ℚ) ^ (floorLog2 y + 1) :=
    lt_of_le_of_lt (s1.trans h) t2
  have b1 := (zpow_lt_zpow_iff_right₀ (by norm_num : (1 : ℚ) < 2)).mp a1
  omega

theorem ulpExp_ge (q : ℚ) : -1074 ≤ ulpExp q := by
  unfold ulpExp
  have := le_max_right (floorLog2 q) (-1022)
  omega

theorem ulpExp_zero : ulpExp 0 = -53 := by decide!

theorem ulpExp_mono {x y : ℚ} (hx : 0 < x) (h : x ≤ y) : ulpExp x ≤ ulpExp y := by
  have := floorLog2_mono hx h
  unfold ulpExp
  have := max_le_max this (le_refl (-1022 : Int))
  omega

theorem two_zpow_div (e u : Int) (h : u ≤ e) :
    (2 : ℚ) ^ e / 2 ^ u = (((2 : Int) ^ (e - u).toNat : Int) : ℚ) := by
  rw [← zpow_sub₀ (by norm_num : (2 : ℚ) ≠ 0)]
  have : e - u = ((e - u).toNat : Int) := (Int.toNat_of_nonneg (by omega)).symm
  rw [this, zpow_natCast]
  push_cast
  rw [← this]

theorem roundMag_le_two_zpow (q : ℚ) (e : Int) (hu : ulpExp q ≤ e) (h : q ≤ 2 ^ e) :
    roundMag q ≤ 2 ^ e := by
  have hpos : (0 : ℚ) < 2 ^ ulpExp q := by positivity
  have h1 : q / 2 ^ ulpExp q ≤ (((2 : Int) ^ (e - ulpExp q).toNat : Int) : ℚ) := by
    rw [← two_zpow_div e _ hu]
    exact div_le_div_of_nonneg_right h hpos.le
  have h2 := roundHalfEven_mono h1
  rw [roundHalfEven_intCast] at h2
  have h3 : (roundHalfEven (q / 2 ^ ulpExp q) : ℚ) ≤
      (((2 : Int) ^ (e - ulpExp q).toNat : Int) : ℚ) := by
    exact_mod_cast h2
  unfold roundMag
  calc (roundHalfEven (q / 2 ^ ulpExp q) : ℚ) * 2 ^ ulpExp q
      ≤ (((2 : Int) ^ (e - ulpExp q).toNat : Int) : ℚ) * 2 ^ ulpExp q :=
        mul_le_mul_of_nonneg_right h3 hpos.le
    _ = 2 ^ e := by
        rw [← two_zpow_div e _ hu, div_mul_cancel₀ _ hpos.ne']

theorem two_zpow_le_roundMag (q : ℚ) (e : Int) (hu : ulpExp q ≤ e) (h : 2 ^ e ≤ q) :
    2 ^ e ≤ roundMag q := by
  have hpos : (0 : ℚ) < 2 ^ ulpExp q := by positivity
  have h1 : (((2 : Int) ^ (e - ulpExp q).toNat : Int) : ℚ) ≤ q / 2 ^ ulpExp q := by
    rw [← two_zpow_div e _ hu]
    exact div_le_div_of_nonneg_right h hpos.le
  have h2 := roundHalfEven_mono h1
  rw [roundHalfEven_intCast] at h2
  have h3 : (((2 : Int) ^ (e - ulpExp q).toNat : Int) : ℚ) ≤
      (roundHalfEven (q / 2 ^ ulpExp q) : ℚ) := by
    exact_mod_cast h2
  unfold roundMag
  calc (2 : ℚ) ^ e = (((2 : Int) ^ (e - ulpExp q).toNat : Int) : ℚ) * 2 ^ ulpExp q := by
        rw [← two_zpow_div e _ hu, div_mul_cancel₀ _ hpos.ne']
    _ ≤ (roundHalfEven (q / 2 ^ ulpExp q) : ℚ) * 2 ^ ulpExp q :=
        mul_le_mul_of_nonneg_right h3 hpos.le

theorem roundMag_exact (q : ℚ) (k j : Int) (hj : ulpExp q ≤ j) (h : q = k * 2 ^ j) :
    roundMag q = q := by
  have hpos : (0 : ℚ) < 2 ^ ulpExp q := by positivity
  unfold roundMag
  generalize ulpExp q = u at hj hpos ⊢
  have h1 : q / 2 ^ u = ((k * (2 : Int) ^ (j - u).toNat : Int) : ℚ) := by
    rw [h, mul_div_assoc, two_zpow_div j _ hj]
    push_cast
    rfl
  rw [h1, roundHalfEven_intCast, ← h1, div_mul_cancel₀ _ hpos.ne']

theorem roundMag_zero : roundMag 0 = 0 := by
  simp [roundMag, roundHalfEven]

theorem roundMag_nonneg {q : ℚ} (h : 0 ≤ q) : 0 ≤ roundMag q := by
  have hpos : (0 : ℚ) < 2 ^ ulpExp q := by positivity
  unfold roundMag
  apply mul_nonneg _ hpos.le
  have h1 : (0 : Int) ≤ ⌊q / 2 ^ ulpExp q⌋ := Int.floor_nonneg.mpr (div_nonneg h hpos.le)
  have h2 := roundHalfEven_ge_floor (q / 2 ^ ulpExp q)
  exact_mod_cast h1.trans h2

theorem roundMag_mono_pos {x y : ℚ} (hx : 0 < x) (h : x ≤ y) : roundMag x ≤ roundMag y := by
  have hu := ulpExp_mono hx h
  rcases eq_or_lt_of_le hu with heq | hlt
  · have hpos : (0 : ℚ) < 2 ^ ulpExp y := by positivity
    unfold roundMag
    rw [heq]
    apply mul_le_mul_of_nonneg_right _ hpos.le
    have := roundHalfEven_mono (div_le_div_of_nonneg_right h hpos.le)
    exact_mod_cast this
  · have hy : 0 < y := lt_of_lt_of_le hx h
    have hge1 := ulpExp_ge x
    have hfy : floorLog2 y = ulpExp y + 52 := by
      unfold ulpExp at hlt hge1 ⊢
      rcases max_cases (floorLog2 y) (-1022) with ⟨h1, _⟩ | ⟨h1, _⟩
      · rw [h1] at hlt ⊢; omega
      · rw [h1] at hlt; omega
    have hy2 : (2 : ℚ) ^ (ulpExp y + 52) ≤ y := by
      rw [← hfy]; exact (floorLog2_spec y hy).1
    have hx2 : x ≤ (2 : ℚ) ^ (ulpExp y + 52) := by
      have hfx : floorLog2 x + 1 ≤ ulpExp y + 52 := by
        have := le_max_left (floorLog2 x) (-1022)
        unfold ulpExp at hlt
        omega
      exact ((floorLog2_spec x hx).2.le).trans
        (zpow_le_zpow_right₀ (by norm_num) hfx)
    exact (roundMag_le_two_zpow x _ (by omega) hx2).trans
      (two_zpow_le_roundMag y _ (by omega) hy2)

theorem roundMag_mono {x y : ℚ} (hx : 0 ≤ x) (h : x ≤ y) : roundMag x ≤ roundMag y := by
  rcases eq_or_lt_of_le hx with h0 | h0
  · rw [← h0, roundMag_zero]; exact roundMag_nonneg (hx.trans h)
  · exact roundMag_mono_pos h0 h

theorem roundMag_two_zpow (e : Int) (he : -1074 ≤ e) : roundMag (2 ^ e) = 2 ^ e := by
  apply roundMag_exact _ 1 e _ (by simp)
  have hf : floorLog2 ((2 : ℚ) ^ e) = e :=
    floorLog2_unique _ e le_rfl (zpow_lt_zpow_right₀ (by norm_num) (by omega))
  unfold ulpExp
  rw [hf]
  rcases max_cases e (-1022) with ⟨h1, _⟩ | ⟨h1, _⟩ <;> rw [h1] <;> omega

theorem roundMag_natCast (n : Nat) (h : n < 2 ^ 53) : roundMag (n : ℚ) = n := by
  apply roundMag_exact _ n 0 _ (by simp)
  rcases Nat.eq_zero_or_pos n with h0 | h0
  · rw [h0]; simp [ulpExp_zero]
  · have hq : (0 : ℚ) < n := by exact_mod_cast h0
    have h1 := (floorLog2_spec _ hq).1
    have h2 : (n : ℚ) < (2 : ℚ) ^ (53 : Int) := by
      have h5 : (n : ℚ) < ((2 ^ 53 : Nat) : ℚ) := by exact_mod_cast h
      have h6 : ((2 ^ 53 : Nat) : ℚ) = (2 : ℚ) ^ (53 : Int) := by norm_num
      rwa [h6] at h5
    have h3 := (zpow_lt_zpow_iff_right₀ (by norm_num : (1 : ℚ) < 2)).mp (lt_of_le_of_lt h1 h2)
    unfold ulpExp
    rcases max_cases (floorLog2 (n : ℚ)) (-1022) with ⟨h4, _⟩ | ⟨h4, _⟩ <;> rw [h4] <;>
      omega

theorem roundMag_grid (q : ℚ) : ∃ k : Int, roundMag q = k * 2 ^ (-1074 : Int) := by
  have hu := ulpExp_ge q
  refine ⟨roundHalfEven (q / 2 ^ ulpExp q) * (2 : Int) ^ (ulpExp q - (-1074)).toNat, ?_⟩
  unfold roundMag
  push_cast
  rw [mul_assoc]
  congr 1
  have := two_zpow_div (ulpExp q) (-1074) hu
  push_cast at this
  rw [← this, div_mul_cancel₀]
  positivity

theorem roundMag_pos_of_grid (q : ℚ) (k : Int) (hk : 0 < k) (h : q = k * 2 ^ (-1074 : Int)) :
    0 < roundMag q := by
  have h1 : (2 : ℚ) ^ (-1074 : Int) ≤ q := by
    rw [h]
    have hk1 : (1 : ℚ) ≤ k := by exact_mod_cast hk
    have hp : (0 : ℚ) < 2 ^ (-1074 : Int) := by positivity
    nlinarith
  have h2 := roundMag_mono (by positivity) h1
  rw [roundMag_two_zpow _ (le_refl _)] at h2
  exact lt_of_lt_of_le (by positivity) h2

theorem roundRat_of_nonneg {q : ℚ} (h : 0 ≤ q) : roundRat q = roundMag q := by
  simp [roundRat, not_lt.mpr h]

theorem roundRat_zero : roundRat 0 = 0 := by
  rw [roundRat_of_nonneg le_rfl, roundMag_zero]

theorem roundRat_neg (q : ℚ) : roundRat (-q) = -roundRat q := by
  rcases lt_trichotomy q 0 with h | h | h
  · have h1 : ¬ (-q < 0) := by linarith
    simp [roundRat, h, h1]
  · rw [h]; simp [roundRat_zero]
  · have h1 : ¬ (q < 0) := by linarith
    have h2 : -q < 0 := by linarith
    simp [roundRat, h1, h2]

theorem roundRat_nonneg {q : ℚ} (h : 0 ≤ q) : 0 ≤ roundRat q := by
  rw [roundRat_of_nonneg h]; exact roundMag_nonneg h

theorem roundRat_mono {x y : ℚ} (h : x ≤ y) : roundRat x ≤ roundRat y := by
  by_cases hx : x < 0
  · by_cases hy : y < 0
    · simp only [roundRat, hx, hy, if_true, neg_le_neg_iff]
      exact roundMag_mono (by linarith) (by linarith)
    · have h1 : 0 ≤ roundRat y := roundRat_nonneg (not_lt.mp hy)
      have h2 : roundRat x ≤ 0 := by
        simp only [roundRat, hx, if_true, neg_nonpos]
        exact roundMag_nonneg (by linarith)
      linarith
  · have hx0 := not_lt.mp hx
    rw [roundRat_of_nonneg hx0, roundRat_of_nonneg (hx0.trans h)]
    exact roundMag_mono hx0 h

theorem roundRat_natCast (n : Nat) (h : n < 2 ^ 53) : roundRat (n : ℚ) = n := by
  rw [roundRat_of_nonneg (by positivity), roundMag_natCast n h]

theorem roundRat_two_zpow (e : Int) (he : -1074 ≤ e) : roundRat (2 ^ e) = 2 ^ e := by
  rw [roundRat_of_nonneg (by positivity), roundMag_two_zpow e he]

theorem roundRat_abs_le (q : ℚ) (e : Int) (he : -1074 ≤ e) (h : |q| ≤ 2 ^ e) :
    |roundRat q| ≤ 2 ^ e := by
  rw [abs_le] at h ⊢
  constructor
  · have := roundRat_mono h.1
    rwa [roundRat_neg, roundRat_two_zpow e he] at this
  · have := roundRat_mono h.2
    rwa [roundRat_two_zpow e he] at this

theorem roundRat_eq_zero_of_grid (q : ℚ) (k : Int) (h : q = k * 2 ^ (-1074 : Int))
    (h0 : roundRat q = 0) : q = 0 := by
  have hp : (0 : ℚ) < 2 ^ (-1074 : Int) := by positivity
  rcases lt_trichotomy k 0 with hk | hk | hk
  · have hq : q < 0 := by
      rw [h]
      have : (k : ℚ) < 0 := by exact_mod_cast hk
      nlinarith
    have := roundMag_pos_of_grid (-q) (-k) (by omega) (by rw [h]; push_cast; ring)
    simp only [roundRat, hq, if_true] at h0
    linarith
  · rw [h, hk]; simp
  · have hq : ¬ q < 0 := by
      rw [h]
      have : (0 : ℚ) < k := by exact_mod_cast hk
      have := mul_pos this hp
      linarith
    have := roundMag_pos_of_grid q k hk h
    simp only [roundRat, hq, if_false] at h0
    linarith

/-! ## Facts about the operations on `double` -/

theorem F64.signed_abs (s : Bool) (m : ℚ) (h : 0 ≤ m) : |F64.signed s m| = m := by
  cases s <;> simp [F64.signed, abs_of_nonneg h]

theorem F64.roundRat_signed (s : Bool) (m : ℚ) (h : 0 ≤ m) :
    roundRat (F64.signed s m) = F64.signed s (roundMag m) := by
  cases s
  · simp [F64.signed, roundRat_of_nonneg h]
  · simp only [F64.signed, if_true]
    rw [roundRat_neg, roundRat_of_nonneg h]

theorem F64.ofMag_eq (s : Bool) (q : ℚ) (h0 : 0 ≤ q) (h : q ≤ 2 ^ (1023 : Int)) :
    F64.ofMag s q = F64.fin s (roundMag q) := by
  have h1 : roundMag q ≤ 2 ^ (1023 : Int) := by
    have := roundMag_mono h0 h
    rwa [roundMag_two_zpow _ (by norm_num)] at this
  have h2 : (2 : ℚ) ^ (1023 : Int) < 2 ^ (1024 : Int) :=
    zpow_lt_zpow_right₀ (by norm_num) (by norm_num)
  have h3 : ¬ (2 : ℚ) ^ (1024 : Int) ≤ roundMag q := by linarith
  simp only [F64.ofMag, h3, if_false]

theorem F64.rep_fin_roundMag (s : Bool) (q : ℚ) (h0 : 0 ≤ q) :
    (F64.fin s (roundMag q)).Rep :=
  ⟨s, roundMag q, rfl, roundMag_nonneg h0, roundMag_grid q⟩

theorem F64.rep_zero (s : Bool) : (F64.fin s 0).Rep :=
  ⟨s, 0, rfl, le_rfl, 0, by simp⟩

theorem F64.round_rep (q : ℚ) (z : Bool) (h : |q| ≤ 2 ^ (1023 : Int)) :
    (F64.round q z).Rep ∧ (F64.round q z).toRat = roundRat q := by
  unfold F64.round
  split_ifs with h0
  · refine ⟨F64.rep_zero z, ?_⟩
    rw [h0, roundRat_zero]
    cases z <;> simp [F64.toRat, F64.signed]
  · rw [F64.ofMag_eq _ _ (abs_nonneg q) h]
    refine ⟨F64.rep_fin_roundMag _ _ (abs_nonneg q), ?_⟩
    simp only [F64.toRat]
    by_cases hq : q < 0
    · simp only [hq, decide_True, F64.signed, if_true, roundRat, abs_of_neg hq]
    · simp only [hq, decide_False, F64.signed, roundRat, abs_of_nonneg (not_lt.mp hq)]
      simp

theorem F64.rep_toRat_grid (x : F64) (h : x.Rep) :
    ∃ k : Int, x.toRat = k * 2 ^ (-1074 : Int) := by
  obtain ⟨s, m, rfl, _, k, hk⟩ := h
  cases s
  · exact ⟨k, by simp [F64.toRat, F64.signed, hk]⟩
  · exact ⟨-k, by simp [F64.toRat, F64.signed, hk]⟩

theorem F64.ofNat_rep (n : Nat) (h : n < 2 ^ 53) :
    (F64.ofNat n).Rep ∧ (F64.ofNat n).toRat = n := by
  have hb : |(n : ℚ)| ≤ 2 ^ (1023 : Int) := by
    rw [abs_of_nonneg (by positivity)]
    have h1 : (n : ℚ) ≤ ((2 ^ 53 : Nat) : ℚ) := by exact_mod_cast h.le
    have h2 : ((2 ^ 53 : Nat) : ℚ) = (2 : ℚ) ^ (53 : Int) := by norm_num
    rw [h2] at h1
    exact h1.trans (zpow_le_zpow_right₀ (by norm_num) (by norm_num))
  have := F64.round_rep (n : ℚ) false hb
  rw [roundRat_natCast n h] at this
  exact this

theorem F64.neg_rep (x : F64) (h : x.Rep) : (F64.neg x).Rep ∧ (F64.neg x).toRat = -x.toRat := by
  obtain ⟨s, m, rfl, h0, hk⟩ := h
  refine ⟨⟨!s, m, rfl, h0, hk⟩, ?_⟩
  cases s <;> simp [F64.neg, F64.toRat, F64.signed]

theorem F64.add_rep (a b : F64) (ha : a.Rep) (hb : b.Rep)
    (h : |a.toRat + b.toRat| ≤ 2 ^ (1023 : Int)) :
    (F64.add a b).Rep ∧ (F64.add a b).toRat = roundRat (a.toRat + b.toRat) := by
  obtain ⟨s, x, rfl, _, _⟩ := ha
  obtain ⟨t, y, rfl, _, _⟩ := hb
  exact F64.round_rep _ _ h

theorem F64.sub_rep (a b : F64) (ha : a.Rep) (hb : b.Rep)
    (h : |a.toRat - b.toRat| ≤ 2 ^ (1023 : Int)) :
    (F64.sub a b).Rep ∧ (F64.sub a b).toRat = roundRat (a.toRat - b.toRat) := by
  have hn := F64.neg_rep b hb
  have := F64.add_rep a (F64.neg b) ha hn.1 (by rw [hn.2, ← sub_eq_add_neg]; exact h)
  rw [hn.2, ← sub_eq_add_neg] at this
  exact this

theorem F64.signed_mul (s t : Bool) (x y : ℚ) :
    F64.signed s x * F64.signed t y = F64.signed (xor s t) (x * y) := by
  cases s <;> cases t <;> simp [F64.signed]

theorem F64.signed_div (s t : Bool) (x y : ℚ) :
    F64.signed s x / F64.signed t y = F64.signed (xor s t) (x / y) := by
  cases s <;> cases t <;> simp [F64.signed, neg_div, div_neg]

theorem F64.mul_rep (a b : F64) (ha : a.Rep) (hb : b.Rep)
    (h : |a.toRat * b.toRat| ≤ 2 ^ (1023 : Int)) :
    (F64.mul a b).Rep ∧ (F64.mul a b).toRat = roundRat (a.toRat * b.toRat) := by
  obtain ⟨s, x, rfl, hx, _⟩ := ha
  obtain ⟨t, y, rfl, hy, _⟩ := hb
  simp only [F64.toRat, F64.signed_mul] at h ⊢
  rw [F64.signed_abs _ _ (mul_nonneg hx hy)] at h
  simp only [F64.mul, F64.ofMag_eq _ _ (mul_nonneg hx hy) h]
  exact ⟨F64.rep_fin_roundMag _ _ (mul_nonneg hx hy),
    (F64.roundRat_signed _ _ (mul_nonneg hx hy)).symm⟩

theorem F64.div_rep (a b : F64) (ha : a.Rep) (hb : b.Rep) (hb0 : b.toRat ≠ 0)
    (h : |a.toRat / b.toRat| ≤ 2 ^ (1023 : Int)) :
    (F64.div a b).Rep ∧ (F64.div a b).toRat = roundRat (a.toRat / b.toRat) := by
  obtain ⟨s, x, rfl, hx, _⟩ := ha
  obtain ⟨t, y, rfl, hy, _⟩ := hb
  have hy0 : y ≠ 0 := by
    intro h0
    apply hb0
    cases t <;> simp [F64.toRat, F64.signed, h0]
  simp only [F64.toRat, F64.signed_div] at h ⊢
  rw [F64.signed_abs _ _ (div_nonneg hx hy)] at h
  simp only [F64.div, hy0, if_false, F64.ofMag_eq _ _ (div_nonneg hx hy) h]
  exact ⟨F64.rep_fin_roundMag _ _ (div_nonneg hx hy),
    (F64.roundRat_signed _ _ (div_nonneg hx hy)).symm⟩

theorem F64.lt_rep (a b : F64) (ha : a.Rep) (hb : b.Rep) :
    F64.lt a b = decide (a.toRat < b.toRat) := by
  obtain ⟨s, x, rfl, _, _⟩ := ha
  obtain ⟨t, y, rfl, _, _⟩ := hb
  rfl

theorem F64.le_rep (a b : F64) (ha : a.Rep) (hb : b.Rep) :
    F64.le a b = decide (a.toRat ≤ b.toRat) := by
  obtain ⟨s, x, rfl, _, _⟩ := ha
  obtain ⟨t, y, rfl, _, _⟩ := hb
  rfl

theorem F64.ne_rep (a b : F64) (ha : a.Rep) (hb : b.Rep) :
    F64.ne a b = decide (a.toRat ≠ b.toRat) := by
  obtain ⟨s, x, rfl, _, _⟩ := ha
  obtain ⟨t, y, rfl, _, _⟩ := hb
  rfl

theorem F64.sub_toRat_eq_zero_iff (a b : F64) (ha : a.Rep) (hb : b.Rep)
    (h : |a.toRat - b.toRat| ≤ 2 ^ (1023 : Int)) :
    (F64.sub a b).toRat = 0 ↔ a.toRat = b.toRat := by
  rw [(F64.sub_rep a b ha hb h).2]
  constructor
  · intro h0
    obtain ⟨k, hk⟩ := F64.rep_toRat_grid a ha
    obtain ⟨j, hj⟩ := F64.rep_toRat_grid b hb
    have := roundRat_eq_zero_of_grid (a.toRat - b.toRat) (k - j)
      (by rw [hk, hj]; push_cast; ring) h0
    linarith
  · intro h0
    rw [h0, sub_self, roundRat_zero]

theorem F64.sqrtBits_spec (n b r : Nat) (h1 : r * r ≤ n) (h2 : n < (r + 2 ^ b) * (r + 2 ^ b)) :
    F64.sqrtBits n b r * F64.sqrtBits n b r ≤ n ∧
      n < (F64.sqrtBits n b r + 1) * (F64.sqrtBits n b r + 1) := by
  induction b generalizing r with
  | zero => exact ⟨h1, by simpa using h2⟩
  | succ b ih =>
    simp only [F64.sqrtBits]
    split_ifs with hc
    · apply ih _ hc
      have : r + 2 ^ b + 2 ^ b = r + 2 ^ (b + 1) := by rw [pow_succ]; ring
      rw [this]
      exact h2
    · exact ih _ h1 (not_le.mp hc)

theorem F64.natSqrt_spec (n : Nat) :
    F64.natSqrt n * F64.natSqrt n ≤ n ∧ n < (F64.natSqrt n + 1) * (F64.natSqrt n + 1) := by
  unfold F64.natSqrt
  apply F64.sqrtBits_spec n _ 0 (by simp)
  rw [natLog2_eq, zero_add, ← pow_add]
  have h1 := Nat.lt_pow_succ_log_self (by norm_num : 1 < 2) n
  have h2 : Nat.log 2 n + 1 ≤ Nat.log 2 n / 2 + 1 + (Nat.log 2 n / 2 + 1) := by omega
  exact lt_of_lt_of_le h1 (Nat.pow_le_pow_right (by norm_num) h2)

theorem F64.sqrtFloor_spec (q : ℚ) (hq : 0 ≤ q) :
    (F64.sqrtFloor q : ℚ) * F64.sqrtFloor q ≤ q * (4 ^ F64.sqrtShift q : Nat) ∧
      q * (4 ^ F64.sqrtShift q : Nat) < ((F64.sqrtFloor q : ℚ) + 1) * (F64.sqrtFloor q + 1) := by
  have h2 : (0 : ℚ) ≤ q * ((4 ^ F64.sqrtShift q : Nat) : ℚ) := by positivity
  have h5 : (0 : Int) ≤ ⌊q * ((4 ^ F64.sqrtShift q : Nat) : ℚ)⌋ := Int.floor_nonneg.mpr h2
  have h6 : ((⌊q * ((4 ^ F64.sqrtShift q : Nat) : ℚ)⌋.toNat : Nat) : ℚ) =
      ((⌊q * ((4 ^ F64.sqrtShift q : Nat) : ℚ)⌋ : Int) : ℚ) := by
    have := Int.toNat_of_nonneg h5
    exact_mod_cast congrArg (fun z : Int => (z : ℚ)) this
  obtain ⟨s1, s2⟩ := F64.natSqrt_spec ⌊q * ((4 ^ F64.sqrtShift q : Nat) : ℚ)⌋.toNat
  have t1 : ((F64.sqrtFloor q * F64.sqrtFloor q : Nat) : ℚ) ≤
      ((⌊q * ((4 ^ F64.sqrtShift q : Nat) : ℚ)⌋.toNat : Nat) : ℚ) := by
    exact_mod_cast s1
  have t2 : ((⌊q * ((4 ^ F64.sqrtShift q : Nat) : ℚ)⌋.toNat + 1 : Nat) : ℚ) ≤
      (((F64.sqrtFloor q + 1) * (F64.sqrtFloor q + 1) : Nat) : ℚ) := by
    exact_mod_cast s2
  have t3 := Int.floor_le (q * ((4 ^ F64.sqrtShift q : Nat) : ℚ))
  have t4 := Int.lt_floor_add_one (q * ((4 ^ F64.sqrtShift q : Nat) : ℚ))
  rw [Nat.cast_add, h6] at t2
  rw [h6] at t1
  push_cast at t1 t2 t3 t4 ⊢
  constructor <;> linarith

theorem F64.sqrtMag_bounds (q : ℚ) (hq : 0 ≤ q) :
    0 ≤ F64.sqrtMag q ∧ F64.sqrtMag q ≤ q + 3 / 2 := by
  have hN : (1 : ℚ) ≤ ((2 ^ F64.sqrtShift q : Nat) : ℚ) := by
    exact_mod_cast Nat.one_le_two_pow
  have hNpos : (0 : ℚ) < ((2 ^ F64.sqrtShift q : Nat) : ℚ) := by linarith
  have hs0 : (0 : ℚ) ≤ (F64.sqrtFloor q : ℚ) := by positivity
  have h4 : ((4 ^ F64.sqrtShift q : Nat) : ℚ) =
      ((2 ^ F64.sqrtShift q : Nat) : ℚ) * ((2 ^ F64.sqrtShift q : Nat) : ℚ) := by
    rw [← Nat.cast_mul, ← Nat.mul_pow]
  have hsq : (F64.sqrtFloor q : ℚ) * (F64.sqrtFloor q : ℚ) ≤
      q * (((2 ^ F64.sqrtShift q : Nat) : ℚ) * ((2 ^ F64.sqrtShift q : Nat) : ℚ)) := by
    have h1 := (F64.natSqrt_spec ⌊q * ((4 ^ F64.sqrtShift q : Nat) : ℚ)⌋.toNat).1
    have h2 : (0 : ℚ) ≤ q * ((4 ^ F64.sqrtShift q : Nat) : ℚ) := by positivity
    have h3 : ((⌊q * ((4 ^ F64.sqrtShift q : Nat) : ℚ)⌋.toNat : Nat) : ℚ) ≤
        q * ((4 ^ F64.sqrtShift q : Nat) : ℚ) := by
      have h5 : (0 : Int) ≤ ⌊q * ((4 ^ F64.sqrtShift q : Nat) : ℚ)⌋ :=
        Int.floor_nonneg.mpr h2
      have h6 : ((⌊q * ((4 ^ F64.sqrtShift q : Nat) : ℚ)⌋.toNat : Nat) : ℚ) =
          ((⌊q * ((4 ^ F64.sqrtShift q : Nat) : ℚ)⌋ : Int) : ℚ) := by
        have := Int.toNat_of_nonneg h5
        exact_mod_cast congrArg (fun z : Int => (z : ℚ)) this
      rw [h6]
      exact Int.floor_le _
    rw [← h4]
    have h7 : ((F64.sqrtFloor q * F64.sqrtFloor q : Nat) : ℚ) ≤
        ((⌊q * ((4 ^ F64.sqrtShift q : Nat) : ℚ)⌋.toNat : Nat) : ℚ) := by
      exact_mod_cast h1
    have h11 := h7.trans h3
    push_cast at h11 ⊢
    exact h11
  have hdiv : (F64.sqrtFloor q : ℚ) / ((2 ^ F64.sqrtShift q : Nat) : ℚ) ≤ q + 1 := by
    rw [div_le_iff₀ hNpos]
    by_cases hc : (F64.sqrtFloor q : ℚ) ≤ ((2 ^ F64.sqrtShift q : Nat) : ℚ)
    · nlinarith
    · have hc' := not_le.mp hc
      have h8 : (F64.sqrtFloor q : ℚ) * ((2 ^ F64.sqrtShift q : Nat) : ℚ) ≤
          (F64.sqrtFloor q : ℚ) * (F64.sqrtFloor q : ℚ) :=
        mul_le_mul_of_nonneg_left hc'.le hs0
      have h9 : (F64.sqrtFloor q : ℚ) * ((2 ^ F64.sqrtShift q : Nat) : ℚ) ≤
          q * ((2 ^ F64.sqrtShift q : Nat) : ℚ) * ((2 ^ F64.sqrtShift q : Nat) : ℚ) := by
        rw [mul_assoc]; exact h8.trans hsq
      have h10 := le_of_mul_le_mul_right h9 hNpos
      nlinarith
  have hhalf : (1 / 2 : ℚ) / ((2 ^ F64.sqrtShift q : Nat) : ℚ) ≤ 1 / 2 := by
    rw [div_le_iff₀ hNpos]
    nlinarith
  unfold F64.sqrtMag
  split_ifs
  · exact ⟨by positivity, by linarith⟩
  · constructor
    · positivity
    · rw [add_div]; linarith

theorem F64.sqrt_rep (a : F64) (e : Int) (ha : a.Rep) (h0 : 0 ≤ a.toRat) (he0 : 1 ≤ e)
    (he : e ≤ 1023) (h : a.toRat ≤ 2 ^ e - 2) :
    (F64.sqrt a).Rep ∧ 0 ≤ (F64.sqrt a).toRat ∧ (F64.sqrt a).toRat ≤ 2 ^ e := by
  obtain ⟨s, x, rfl, hx, hk⟩ := ha
  have hpow : (2 : ℚ) ^ e ≤ 2 ^ (1023 : Int) := zpow_le_zpow_right₀ (by norm_num) he
  by_cases hx0 : x = 0
  · simp only [F64.sqrt, hx0, if_true]
    refine ⟨F64.rep_zero s, ?_, ?_⟩
    · cases s <;> simp [F64.toRat, F64.signed]
    · have : (0 : ℚ) ≤ 2 ^ e := by positivity
      cases s <;> simpa [F64.toRat, F64.signed] using this
  · have hxpos : 0 < x := lt_of_le_of_ne hx (Ne.symm hx0)
    have hs : s = false := by
      cases s
      · rfl
      · simp only [F64.toRat, F64.signed, if_true] at h0
        linarith
    subst hs
    simp only [F64.toRat, F64.signed] at h
    simp at h
    obtain ⟨hb0, hb1⟩ := F64.sqrtMag_bounds x hx
    have hb2 : F64.sqrtMag x ≤ 2 ^ e := by linarith
    simp only [F64.sqrt, hx0, if_false]
    simp only [Bool.false_eq_true, if_false]
    rw [F64.ofMag_eq _ _ hb0 (hb2.trans hpow)]
    refine ⟨F64.rep_fin_roundMag _ _ hb0, ?_, ?_⟩
    · simpa [F64.toRat, F64.signed] using roundMag_nonneg hb0
    · have := roundMag_mono hb0 hb2
      rw [roundMag_two_zpow _ (by omega)] at this
      simpa [F64.toRat, F64.signed] using this

theorem F64.ofMag_swap (s t : Bool) (q : ℚ) :
    F64.mul (F64.ofMag s q) (F64.ofMag s q) = F64.mul (F64.ofMag t q) (F64.ofMag t q) := by
  unfold F64.ofMag
  split_ifs <;> cases s <;> cases t <;> simp [F64.mul]

theorem F64.sq_sub_comm (a b : F64) :
    F64.mul (F64.sub a b) (F64.sub a b) = F64.mul (F64.sub b a) (F64.sub b a) := by
  cases a with
  | nan => cases b <;> simp [F64.sub, F64.add, F64.neg, F64.mul]
  | inf s =>
    cases b with
    | nan => simp [F64.sub, F64.add, F64.neg, F64.mul]
    | inf t => cases s <;> cases t <;> simp [F64.sub, F64.add, F64.neg, F64.mul]
    | fin t y => cases s <;> simp [F64.sub, F64.add, F64.neg, F64.mul]
  | fin s x =>
    cases b with
    | nan => simp [F64.sub, F64.add, F64.neg, F64.mul]
    | inf t => cases t <;> simp [F64.sub, F64.add, F64.neg, F64.mul]
    | fin t y =>
      simp only [F64.sub, F64.neg, F64.add]
      have hneg : F64.signed t y + F64.signed (!s) x = -(F64.signed s x + F64.signed (!t) y) := by
        cases s <;> cases t <;> simp [F64.signed]
      by_cases h0 : F64.signed s x + F64.signed (!t) y = 0
      · have h0' : F64.signed t y + F64.signed (!s) x = 0 := by rw [hneg, h0, neg_zero]
        simp only [F64.round, h0, h0', if_true]
        simp [F64.mul]
      · have h0' : ¬ F64.signed t y + F64.signed (!s) x = 0 := by
          rw [hneg]
          intro h1
          exact h0 (neg_eq_zero.mp h1)
        simp only [F64.round, h0, h0', if_false]
        rw [hneg, abs_neg]
        exact F64.ofMag_swap _ _ _

/-! ## Facts about the features in binary64 arithmetic -/

theorem F64.inRange_mono {B C : ℚ} {x : F64} (h : F64.InRange B x) (hBC : B ≤ C) :
    F64.InRange C x :=
  ⟨h.1, h.2.1, h.2.2.trans hBC⟩

theorem F64.inRange_ofNat (n : Nat) (h : n < 2 ^ 53) : F64.InRange n (F64.ofNat n) := by
  obtain ⟨h1, h2⟩ := F64.ofNat_rep n h
  exact ⟨h1, by rw [h2]; positivity, by rw [h2]⟩

theorem F64.inRange_zero (B : ℚ) (hB : 0 ≤ B) : F64.InRange B (F64.ofNat 0) := by
  have := F64.inRange_ofNat 0 (by norm_num)
  exact ⟨this.1, this.2.1, by have := this.2.2; simp at this; linarith⟩

theorem F64.sub_ofNat_bounds (a b : Nat) (ha : a < 2 ^ 32) (hb : b < 2 ^ 32) :
    (F64.sub (F64.ofNat a) (F64.ofNat b)).Rep ∧
      |(F64.sub (F64.ofNat a) (F64.ofNat b)).toRat| ≤ 2 ^ (32 : Int) := by
  have h53 : (2 : Nat) ^ 32 < 2 ^ 53 := by norm_num
  obtain ⟨ra, va⟩ := F64.ofNat_rep a (ha.trans h53)
  obtain ⟨rb, vb⟩ := F64.ofNat_rep b (hb.trans h53)
  have ha' : (a : ℚ) < 2 ^ (32 : Int) := by
    have : (a : ℚ) < ((2 ^ 32 : Nat) : ℚ) := by exact_mod_cast ha
    have h6 : ((2 ^ 32 : Nat) : ℚ) = (2 : ℚ) ^ (32 : Int) := by norm_num
    rwa [h6] at this
  have hb' : (b : ℚ) < 2 ^ (32 : Int) := by
    have : (b : ℚ) < ((2 ^ 32 : Nat) : ℚ) := by exact_mod_cast hb
    have h6 : ((2 ^ 32 : Nat) : ℚ) = (2 : ℚ) ^ (32 : Int) := by norm_num
    rwa [h6] at this
  have hab : |(a : ℚ) - b| ≤ 2 ^ (32 : Int) := by
    rw [abs_le]
    have h0a : (0 : ℚ) ≤ a := by positivity
    have h0b : (0 : ℚ) ≤ b := by positivity
    constructor <;> linarith
  have hbig : |(F64.ofNat a).toRat - (F64.ofNat b).toRat| ≤ 2 ^ (1023 : Int) := by
    rw [va, vb]
    exact hab.trans (zpow_le_zpow_right₀ (by norm_num) (by norm_num))
  obtain ⟨r, v⟩ := F64.sub_rep _ _ ra rb hbig
  refine ⟨r, ?_⟩
  rw [v, va, vb]
  exact roundRat_abs_le _ 32 (by norm_num) hab

theorem F64.mul_self_bounds (x : F64) (e : Int) (hx : x.Rep) (he0 : 0 ≤ e) (he : 2 * e ≤ 1023)
    (h : |x.toRat| ≤ 2 ^ e) : F64.InRange (2 ^ (2 * e)) (F64.mul x x) := by
  have hsq : x.toRat * x.toRat ≤ 2 ^ (2 * e) := by
    have h1 : |x.toRat| * |x.toRat| ≤ 2 ^ e * 2 ^ e :=
      mul_le_mul h h (abs_nonneg _) (by positivity)
    rw [abs_mul_abs_self] at h1
    rw [two_mul, zpow_add₀ (by norm_num : (2 : ℚ) ≠ 0)]
    exact h1
  have h0 : 0 ≤ x.toRat * x.toRat := mul_self_nonneg _
  have hbig : |x.toRat * x.toRat| ≤ 2 ^ (1023 : Int) := by
    rw [abs_of_nonneg h0]
    exact hsq.trans (zpow_le_zpow_right₀ (by norm_num) he)
  obtain ⟨r, v⟩ := F64.mul_rep x x hx hx hbig
  refine ⟨r, ?_, ?_⟩
  · rw [v]; exact roundRat_nonneg h0
  · rw [v]
    have := roundRat_mono hsq
    rwa [roundRat_two_zpow _ (by omega)] at this

theorem F64.add_inRange (x y : F64) (e : Int) (he0 : 0 ≤ e) (he : e + 1 ≤ 1023)
    (hx : F64.InRange (2 ^ e) x) (hy : F64.InRange (2 ^ e) y) :
    F64.InRange (2 ^ (e + 1)) (F64.add x y) := by
  have hsum : x.toRat + y.toRat ≤ 2 ^ (e + 1) := by
    rw [zpow_add₀ (by norm_num : (2 : ℚ) ≠ 0), zpow_one]
    linarith [hx.2.2, hy.2.2]
  have h0 : 0 ≤ x.toRat + y.toRat := add_nonneg hx.2.1 hy.2.1
  have hbig : |x.toRat + y.toRat| ≤ 2 ^ (1023 : Int) := by
    rw [abs_of_nonneg h0]
    exact hsum.trans (zpow_le_zpow_right₀ (by norm_num) he)
  obtain ⟨r, v⟩ := F64.add_rep x y hx.1 hy.1 hbig
  refine ⟨r, ?_, ?_⟩
  · rw [v]; exact roundRat_nonneg h0
  · rw [v]
    have := roundRat_mono hsum
    rwa [roundRat_two_zpow _ (by omega)] at this

theorem featurePoint_inRange (positionX positionY : Nat) (p : Ipv4Address × RoutingTableEntry)
    (hX : positionX < 2 ^ 32) (hY : positionY < 2 ^ 32)
    (hp : p.2.m_positionX < 2 ^ 32 ∧ p.2.m_positionY < 2 ^ 32 ∧
      p.2.m_txerrorCount < 2 ^ 32 ∧ p.2.m_freeSpace < 2 ^ 32) (d : Fin 3) :
    F64.InRange (2 ^ (66 : Int)) ((featurePoint f64Ops positionX positionY p).f d) := by
  have h53 : (2 : Nat) ^ 32 < 2 ^ 53 := by norm_num
  have hnat : ∀ n : Nat, n < 2 ^ 32 → F64.InRange (2 ^ (66 : Int)) (F64.ofNat n) := by
    intro n hn
    apply F64.inRange_mono (F64.inRange_ofNat n (hn.trans h53))
    have : (n : ℚ) < ((2 ^ 32 : Nat) : ℚ) := by exact_mod_cast hn
    have h6 : ((2 ^ 32 : Nat) : ℚ) ≤ (2 : ℚ) ^ (66 : Int) := by norm_num
    linarith
  fin_cases d
  · obtain ⟨rx, bx⟩ := F64.sub_ofNat_bounds positionX p.2.m_positionX hX hp.1
    obtain ⟨ry, bY⟩ := F64.sub_ofNat_bounds positionY p.2.m_positionY hY hp.2.1
    have sx := F64.mul_self_bounds _ 32 rx (by norm_num) (by norm_num) bx
    have sy := F64.mul_self_bounds _ 32 ry (by norm_num) (by norm_num) bY
    have hs := F64.add_inRange _ _ (2 * 32) (by norm_num) (by norm_num) sx sy
    have hq := F64.sqrt_rep _ 66 hs.1 hs.2.1 (by norm_num) (by norm_num)
      (hs.2.2.trans (by norm_num))
    exact ⟨hq.1, hq.2.1, hq.2.2⟩
  · exact hnat _ hp.2.2.1
  · exact hnat _ hp.2.2.2

theorem extractPoints_inRange (positionX positionY : Nat) (m : EntryMap)
    (hX : positionX < 2 ^ 32) (hY : positionY < 2 ^ 32) (hm : uint32Fields m) :
    featuresInRange (2 ^ (66 : Int)) (extractPoints f64Ops positionX positionY m) := by
  induction m with
  | nil => intro p hp; simp [extractPoints] at hp
  | cons q rest ih =>
    have hrest : uint32Fields rest := fun r hr => hm r (List.mem_cons_of_mem _ hr)
    intro p hp d
    unfold extractPoints at hp
    split at hp
    · exact ih hrest p hp d
    · rcases List.mem_cons.mp hp with h | h
      · rw [h]
        exact featurePoint_inRange positionX positionY q hX hY (hm q (List.mem_cons_self _ _)) d
      · exact ih hrest p h d

theorem uint32Fields_purgeLoop (b now : Time) (m : EntryMap) (h : uint32Fields m) :
    uint32Fields (purgeLoop b now m) := by
  intro p hp
  rw [purgeLoop_eq_filterMap, List.mem_filterMap] at hp
  obtain ⟨q, hq, hspec⟩ := hp
  have hq' := h q hq
  unfold specPurgeEntry at hspec
  split at hspec
  · simp at hspec
  · split at hspec
    · simp only [Option.some.injEq] at hspec
      rw [← hspec]
      exact hq'
    · simp only [Option.some.injEq] at hspec
      rw [← hspec]
      exact hq'

theorem stdMin_f64 (a b : F64) (ha : a.Rep) (hb : b.Rep) :
    (stdMin f64Ops a b = a ∨ stdMin f64Ops a b = b) ∧
      (stdMin f64Ops a b).toRat ≤ a.toRat ∧ (stdMin f64Ops a b).toRat ≤ b.toRat := by
  unfold stdMin
  simp only [f64Ops, F64.lt_rep b a hb ha, decide_eq_true_eq]
  split_ifs with h
  · exact ⟨Or.inr rfl, h.le, le_rfl⟩
  · exact ⟨Or.inl rfl, le_rfl, not_lt.mp h⟩

theorem stdMax_f64 (a b : F64) (ha : a.Rep) (hb : b.Rep) :
    (stdMax f64Ops a b = a ∨ stdMax f64Ops a b = b) ∧
      a.toRat ≤ (stdMax f64Ops a b).toRat ∧ b.toRat ≤ (stdMax f64Ops a b).toRat := by
  unfold stdMax
  simp only [f64Ops, F64.lt_rep a b ha hb, decide_eq_true_eq]
  split_ifs with h
  · exact ⟨Or.inr rfl, h.le, le_rfl⟩
  · exact ⟨Or.inl rfl, le_rfl, not_lt.mp h⟩

theorem foldl_stdMin_f64 (col : List F64) (init : F64) (h : ∀ v ∈ init :: col, v.Rep) :
    col.foldl (stdMin f64Ops) init ∈ init :: col ∧
    ∀ v ∈ init :: col, (col.foldl (stdMin f64Ops) init).toRat ≤ v.toRat := by
  induction col generalizing init with
  | nil => simp
  | cons x rest ih =>
    have hi := h init (List.mem_cons_self _ _)
    have hx := h x (List.mem_cons_of_mem _ (List.mem_cons_self _ _))
    obtain ⟨hc, hle1, hle2⟩ := stdMin_f64 init x hi hx
    have hrep : ∀ v ∈ stdMin f64Ops init x :: rest, v.Rep := by
      intro v hv
      rcases List.mem_cons.mp hv with h1 | h1
      · rw [h1]; rcases hc with h2 | h2 <;> rw [h2] <;> assumption
      · exact h v (List.mem_cons_of_mem _ (List.mem_cons_of_mem _ h1))
    obtain ⟨h1, h2⟩ := ih (stdMin f64Ops init x) hrep
    simp only [List.foldl_cons]
    refine ⟨?_, ?_⟩
    · rcases List.mem_cons.mp h1 with h3 | h3
      · rw [h3]
        rcases hc with h4 | h4 <;> rw [h4] <;> simp
      · exact List.mem_cons_of_mem _ (List.mem_cons_of_mem _ h3)
    · intro v hv
      have hmin := h2 (stdMin f64Ops init x) (List.mem_cons_self _ _)
      rcases List.mem_cons.mp hv with h3 | h3
      · rw [h3]; exact hmin.trans hle1
      · rcases List.mem_cons.mp h3 with h4 | h4
        · rw [h4]; exact hmin.trans hle2
        · exact h2 v (List.mem_cons_of_mem _ h4)

theorem foldl_stdMax_f64 (col : List F64) (init : F64) (h : ∀ v ∈ init :: col, v.Rep) :
    col.foldl (stdMax f64Ops) init ∈ init :: col ∧
    ∀ v ∈ init :: col, v.toRat ≤ (col.foldl (stdMax f64Ops) init).toRat := by
  induction col generalizing init with
  | nil => simp
  | cons x rest ih =>
    have hi := h init (List.mem_cons_self _ _)
    have hx := h x (List.mem_cons_of_mem _ (List.mem_cons_self _ _))
    obtain ⟨hc, hle1, hle2⟩ := stdMax_f64 init x hi hx
    have hrep : ∀ v ∈ stdMax f64Ops init x :: rest, v.Rep := by
      intro v hv
      rcases List.mem_cons.mp hv with h1 | h1
      · rw [h1]; rcases hc with h2 | h2 <;> rw [h2] <;> assumption
      · exact h v (List.mem_cons_of_mem _ (List.mem_cons_of_mem _ h1))
    obtain ⟨h1, h2⟩ := ih (stdMax f64Ops init x) hrep
    simp only [List.foldl_cons]
    refine ⟨?_, ?_⟩
    · rcases List.mem_cons.mp h1 with h3 | h3
      · rw [h3]
        rcases hc with h4 | h4 <;> rw [h4] <;> simp
      · exact List.mem_cons_of_mem _ (List.mem_cons_of_mem _ h3)
    · intro v hv
      have hmax := h2 (stdMax f64Ops init x) (List.mem_cons_self _ _)
      rcases List.mem_cons.mp hv with h3 | h3
      · rw [h3]; exact hle1.trans hmax
      · rcases List.mem_cons.mp h3 with h4 | h4
        · rw [h4]; exact hle2.trans hmax
        · exact h2 v (List.mem_cons_of_mem _ h4)

theorem normalizeValue_f64 (B : ℚ) (hB : B ≤ 2 ^ (1023 : Int)) (mn mx v : F64)
    (hmn : F64.InRange B mn) (hmx : F64.InRange B mx) (hv : F64.InRange B v)
    (h1 : mn.toRat ≤ v.toRat) (h2 : v.toRat ≤ mx.toRat) :
    normalizeValue f64Ops mn mx v =
        (if F64.ne mx mn then F64.div (F64.sub v mn) (F64.sub mx mn) else F64.ofNat 0) ∧
      F64.InRange 1 (normalizeValue f64Ops mn mx v) := by
  have hr : |mx.toRat - mn.toRat| ≤ 2 ^ (1023 : Int) := by
    rw [abs_of_nonneg (by linarith)]
    linarith [hmx.2.2, hmn.2.1]
  have hx : |v.toRat - mn.toRat| ≤ 2 ^ (1023 : Int) := by
    rw [abs_of_nonneg (by linarith)]
    linarith [hv.2.2, hmn.2.1]
  obtain ⟨rr, vr⟩ := F64.sub_rep mx mn hmx.1 hmn.1 hr
  obtain ⟨rx, vx⟩ := F64.sub_rep v mn hv.1 hmn.1 hx
  have hz : (F64.ofNat 0).Rep ∧ (F64.ofNat 0).toRat = 0 := by
    have := F64.ofNat_rep 0 (by norm_num)
    simpa using this
  have hne : F64.ne (F64.sub mx mn) (F64.ofNat 0) = F64.ne mx mn := by
    rw [F64.ne_rep _ _ rr hz.1, F64.ne_rep _ _ hmx.1 hmn.1, hz.2]
    have := F64.sub_toRat_eq_zero_iff mx mn hmx.1 hmn.1 hr
    simp only [ne_eq, this]
  have hdef : normalizeValue f64Ops mn mx v =
      (if F64.ne mx mn then F64.div (F64.sub v mn) (F64.sub mx mn) else F64.ofNat 0) := by
    simp only [normalizeValue, f64Ops, hne]
  refine ⟨hdef, ?_⟩
  rw [hdef]
  split_ifs with hc
  · rw [F64.ne_rep _ _ hmx.1 hmn.1] at hc
    simp only [decide_eq_true_eq] at hc
    have hlt : mn.toRat < mx.toRat := lt_of_le_of_ne (h1.trans h2) (fun e => hc e.symm)
    have hr0 : 0 ≤ (F64.sub mx mn).toRat := by
      rw [vr]; exact roundRat_nonneg (by linarith)
    have hrne : (F64.sub mx mn).toRat ≠ 0 := by
      intro h0
      exact hc ((F64.sub_toRat_eq_zero_iff mx mn hmx.1 hmn.1 hr).mp h0)
    have hrpos : 0 < (F64.sub mx mn).toRat := lt_of_le_of_ne hr0 (Ne.symm hrne)
    have hx0 : 0 ≤ (F64.sub v mn).toRat := by
      rw [vx]; exact roundRat_nonneg (by linarith)
    have hxr : (F64.sub v mn).toRat ≤ (F64.sub mx mn).toRat := by
      rw [vx, vr]; exact roundRat_mono (by linarith)
    have hq0 : 0 ≤ (F64.sub v mn).toRat / (F64.sub mx mn).toRat := div_nonneg hx0 hr0
    have hq1 : (F64.sub v mn).toRat / (F64.sub mx mn).toRat ≤ 1 := (div_le_one hrpos).mpr hxr
    have hbig : |(F64.sub v mn).toRat / (F64.sub mx mn).toRat| ≤ 2 ^ (1023 : Int) := by
      rw [abs_of_nonneg hq0]
      exact hq1.trans (one_le_zpow₀ (by norm_num) (by norm_num))
    obtain ⟨rd, vd⟩ := F64.div_rep _ _ rx rr hrne hbig
    refine ⟨rd, ?_, ?_⟩
    · rw [vd]; exact roundRat_nonneg hq0
    · rw [vd]
      have := roundRat_mono hq1
      have h1' : roundRat 1 = 1 := by
        have := roundRat_natCast 1 (by norm_num)
        simpa using this
      rwa [h1'] at this
  · exact ⟨hz.1, by rw [hz.2], by rw [hz.2]; norm_num⟩

theorem normalize_column_ops {K : Type} (ops : DoubleOps K)
    (p0 : FeaturePoint K) (rest : List (FeaturePoint K)) (d : Fin 3) :
    (normalize ops (p0 :: rest)).map (fun p => p.f d) =
      ((p0 :: rest).map (fun p => p.f d)).map
        (normalizeValue ops
          ((rest.map (fun p => p.f d)).foldl (stdMin ops) (p0.f d))
          ((rest.map (fun p => p.f d)).foldl (stdMax ops) (p0.f d))) := by
  fin_cases d <;> simp [normalize, FeaturePoint.f, Function.comp_def]

theorem normalize_inRange (B : ℚ) (hB : B ≤ 2 ^ (1023 : Int)) (pts : List (FeaturePoint F64))
    (h : featuresInRange B pts) : featuresInRange 1 (normalize f64Ops pts) := by
  cases pts with
  | nil => intro p hp; simp [normalize] at hp
  | cons p0 rest =>
    intro p hp d
    have hmem : p.f d ∈ (normalize f64Ops (p0 :: rest)).map (fun p => p.f d) :=
      List.mem_map.mpr ⟨p, hp, rfl⟩
    rw [normalize_column_ops, List.mem_map] at hmem
    obtain ⟨v, hv, hpv⟩ := hmem
    rw [← hpv]
    have hcol : ∀ w ∈ p0.f d :: rest.map (fun p => p.f d), F64.InRange B w := by
      intro w hw
      have : w ∈ (p0 :: rest).map (fun p => p.f d) := by simpa using hw
      obtain ⟨q, hq, hqw⟩ := List.mem_map.mp this
      rw [← hqw]
      exact h q hq d
    have hv' : v ∈ p0.f d :: rest.map (fun p => p.f d) := by simpa using hv
    have hmin := foldl_stdMin_f64 (rest.map (fun p => p.f d)) (p0.f d) (fun w hw => (hcol w hw).1)
    have hmax := foldl_stdMax_f64 (rest.map (fun p => p.f d)) (p0.f d) (fun w hw => (hcol w hw).1)
    exact (normalizeValue_f64 B hB _ _ v (hcol _ hmin.1) (hcol _ hmax.1) (hcol v hv')
      (hmin.2 v hv') (hmax.2 v hv')).2

theorem pointAt_inRange (pts : List (FeaturePoint F64)) (h : featuresInRange 1 pts)
    (idx : Nat) (d : Fin 3) : F64.InRange 1 ((pointAt f64Ops pts idx).f d) := by
  unfold pointAt
  by_cases hi : idx < pts.length
  · rw [List.getD_eq_getElem _ _ hi]
    exact h _ (List.getElem_mem hi) d
  · rw [List.getD_eq_default _ _ (not_lt.mp hi)]
    fin_cases d <;> exact F64.inRange_zero 1 (by norm_num)

theorem F64.add_inRange_nat (a b : F64) (k : Nat) (ha : F64.InRange (k : ℚ) a)
    (hb : F64.InRange 1 b) (hk : k + 1 < 2 ^ 53) :
    F64.InRange ((k + 1 : Nat) : ℚ) (F64.add a b) := by
  have hsum0 : 0 ≤ a.toRat + b.toRat := add_nonneg ha.2.1 hb.2.1
  have hsum : a.toRat + b.toRat ≤ ((k + 1 : Nat) : ℚ) := by
    push_cast
    linarith [ha.2.2, hb.2.2]
  have hbig : |a.toRat + b.toRat| ≤ 2 ^ (1023 : Int) := by
    rw [abs_of_nonneg hsum0]
    have h1 : ((k + 1 : Nat) : ℚ) ≤ ((2 ^ 53 : Nat) : ℚ) := by exact_mod_cast hk.le
    have h2 : ((2 ^ 53 : Nat) : ℚ) ≤ (2 : ℚ) ^ (1023 : Int) := by
      have : ((2 ^ 53 : Nat) : ℚ) = (2 : ℚ) ^ (53 : Int) := by norm_num
      rw [this]
      exact zpow_le_zpow_right₀ (by norm_num) (by norm_num)
    linarith
  obtain ⟨r, v⟩ := F64.add_rep a b ha.1 hb.1 hbig
  refine ⟨r, ?_, ?_⟩
  · rw [v]; exact roundRat_nonneg hsum0
  · rw [v]
    have := roundRat_mono hsum
    rwa [roundRat_natCast _ hk] at this

theorem foldl_add_f64 (g : Nat → F64) (hg : ∀ idx, F64.InRange 1 (g idx)) (members : List Nat)
    (init : F64) (k : Nat) (hinit : F64.InRange k init) (hk : k + members.length < 2 ^ 53) :
    F64.InRange ((k + members.length : Nat) : ℚ)
      (members.foldl (fun c idx => F64.add c (g idx)) init) := by
  induction members generalizing init k with
  | nil => simpa using hinit
  | cons x rest ih =>
    simp only [List.foldl_cons, List.length_cons] at hk ⊢
    have hstep := F64.add_inRange_nat init (g x) k hinit (hg x) (by omega)
    have := ih (F64.add init (g x)) (k + 1) hstep (by omega)
    have he : k + 1 + rest.length = k + (rest.length + 1) := by omega
    rw [he] at this
    exact this

theorem centroid_f64 (g : Nat → F64) (hg : ∀ idx, F64.InRange 1 (g idx)) (members : List Nat)
    (hne : members ≠ []) (hlen : members.length < 2 ^ 53) :
    F64.InRange 1 (F64.div (members.foldl (fun c idx => F64.add c (g idx)) (F64.ofNat 0))
      (F64.ofNat members.length)) := by
  have hz : F64.InRange ((0 : Nat) : ℚ) (F64.ofNat 0) := F64.inRange_ofNat 0 (by norm_num)
  have hs := foldl_add_f64 g hg members (F64.ofNat 0) 0 hz (by omega)
  rw [zero_add] at hs
  obtain ⟨rl, vl⟩ := F64.ofNat_rep members.length hlen
  have hpos : (0 : ℚ) < (members.length : ℚ) := by
    have : 0 < members.length := List.length_pos.mpr hne
    exact_mod_cast this
  have hl0 : (F64.ofNat members.length).toRat ≠ 0 := by rw [vl]; exact hpos.ne'
  generalize members.foldl (fun c idx => F64.add c (g idx)) (F64.ofNat 0) = s at hs
  have hq0 : 0 ≤ s.toRat / (F64.ofNat members.length).toRat := by
    rw [vl]; exact div_nonneg hs.2.1 hpos.le
  have hq1 : s.toRat / (F64.ofNat members.length).toRat ≤ 1 := by
    rw [vl]; exact (div_le_one hpos).mpr hs.2.2
  have hbig : |s.toRat / (F64.ofNat members.length).toRat| ≤ 2 ^ (1023 : Int) := by
    rw [abs_of_nonneg hq0]
    exact hq1.trans (one_le_zpow₀ (by norm_num) (by norm_num))
  obtain ⟨rd, vd⟩ := F64.div_rep _ _ hs.1 rl hl0 hbig
  refine ⟨rd, ?_, ?_⟩
  · rw [vd]; exact roundRat_nonneg hq0
  · rw [vd]
    have := roundRat_mono hq1
    have h1' : roundRat 1 = 1 := by
      have := roundRat_natCast 1 (by norm_num)
      simpa using this
    rwa [h1'] at this

theorem F64.sub_ofNat_small (c : F64) (n : Nat) (hn : n ≤ 1) (hc : F64.InRange 1 c) :
    (F64.sub c (F64.ofNat n)).Rep ∧ |(F64.sub c (F64.ofNat n)).toRat| ≤ 2 ^ (0 : Int) := by
  obtain ⟨rn, vn⟩ := F64.ofNat_rep n (by omega)
  have hn0 : (0 : ℚ) ≤ n := by positivity
  have hn1 : (n : ℚ) ≤ 1 := by exact_mod_cast hn
  have hab : |c.toRat - n| ≤ 2 ^ (0 : Int) := by
    rw [abs_le, zpow_zero]
    constructor <;> linarith [hc.2.1, hc.2.2]
  have hbig : |c.toRat - (F64.ofNat n).toRat| ≤ 2 ^ (1023 : Int) := by
    rw [vn]
    exact hab.trans (zpow_le_zpow_right₀ (by norm_num) (by norm_num))
  obtain ⟨r, v⟩ := F64.sub_rep c _ hc.1 rn hbig
  refine ⟨r, ?_⟩
  rw [v, vn]
  exact roundRat_abs_le _ 0 (by norm_num) hab

theorem clusterScore_f64 (pts : List (FeaturePoint F64)) (h : featuresInRange 1 pts)
    (members : List Nat) (hne : members ≠ []) (hlen : members.length < 2 ^ 53) :
    F64.InRange 3 (clusterScore f64Ops pts members) := by
  have c0 := centroid_f64 (fun idx => (pointAt f64Ops pts idx).f0)
    (fun idx => pointAt_inRange pts h idx 0) members hne hlen
  have c1 := centroid_f64 (fun idx => (pointAt f64Ops pts idx).f1)
    (fun idx => pointAt_inRange pts h idx 1) members hne hlen
  have c2 := centroid_f64 (fun idx => (pointAt f64Ops pts idx).f2)
    (fun idx => pointAt_inRange pts h idx 2) members hne hlen
  obtain ⟨r0, b0⟩ := F64.sub_ofNat_small _ 0 (by norm_num) c0
  obtain ⟨r1, b1⟩ := F64.sub_ofNat_small _ 0 (by norm_num) c1
  obtain ⟨r2, b2⟩ := F64.sub_ofNat_small _ 1 (by norm_num) c2
  have s0 := F64.mul_self_bounds _ 0 r0 (by norm_num) (by norm_num) b0
  have s1 := F64.mul_self_bounds _ 0 r1 (by norm_num) (by norm_num) b1
  have s2 := F64.mul_self_bounds _ 0 r2 (by norm_num) (by norm_num) b2
  have hone : (2 : ℚ) ^ (2 * 0 : Int) = 1 := by norm_num
  rw [hone] at s0 s1 s2
  have t0 : F64.InRange ((0 : Nat) : ℚ) (F64.ofNat 0) := F64.inRange_ofNat 0 (by norm_num)
  have a0 := F64.add_inRange_nat _ _ 0 t0 s0 (by norm_num)
  have a1 := F64.add_inRange_nat _ _ 1 a0 s1 (by norm_num)
  have a2 := F64.add_inRange_nat _ _ 2 a1 s2 (by norm_num)
  have h3 : ((2 + 1 : Nat) : ℚ) = 3 := by norm_num
  rw [h3] at a2
  exact a2

theorem F64.big_rep : (F64.ofNat (10 ^ 18)).Rep ∧ 9 ≤ (F64.ofNat (10 ^ 18)).toRat := by
  have hb : |((10 ^ 18 : Nat) : ℚ)| ≤ 2 ^ (1023 : Int) := by
    rw [abs_of_nonneg (by positivity)]
    have h1 : ((10 ^ 18 : Nat) : ℚ) ≤ (2 : ℚ) ^ (60 : Int) := by norm_num
    exact h1.trans (zpow_le_zpow_right₀ (by norm_num) (by norm_num))
  obtain ⟨r, v⟩ := F64.round_rep ((10 ^ 18 : Nat) : ℚ) false hb
  refine ⟨r, ?_⟩
  have h9 : ((9 : Nat) : ℚ) ≤ ((10 ^ 18 : Nat) : ℚ) := by norm_num
  have := roundRat_mono h9
  rw [roundRat_natCast 9 (by norm_num)] at this
  have hv : (F64.ofNat (10 ^ 18)).toRat = roundRat ((10 ^ 18 : Nat) : ℚ) := v
  rw [hv]
  exact_mod_cast this

theorem clusterScore_lt_big_f64 (pts : List (FeaturePoint F64)) (h : featuresInRange 1 pts)
    (members : List Nat) (hne : members ≠ []) (hlen : members.length < 2 ^ 53) :
    F64.lt (clusterScore f64Ops pts members) (F64.ofNat (10 ^ 18)) = true := by
  have hs := clusterScore_f64 pts h members hne hlen
  rw [F64.lt_rep _ _ hs.1 F64.big_rep.1, decide_eq_true_eq]
  linarith [hs.2.2, F64.big_rep.2]

theorem bestFold_f64 (pts : List (FeaturePoint F64)) (l : List (Int × List Nat))
    (acc : Int × F64) (hacc : acc.2.Rep)
    (hl : ∀ y ∈ l, (clusterScore f64Ops pts y.2).Rep) :
    (l.foldl (bestStep f64Ops pts) acc = acc ∧
      ∀ y ∈ l, acc.2.toRat ≤ (clusterScore f64Ops pts y.2).toRat) ∨
    (∃ pre x post, l = pre ++ x :: post ∧
      l.foldl (bestStep f64Ops pts) acc = (x.1, clusterScore f64Ops pts x.2) ∧
      (clusterScore f64Ops pts x.2).toRat < acc.2.toRat ∧
      (∀ y ∈ pre, (clusterScore f64Ops pts x.2).toRat < (clusterScore f64Ops pts y.2).toRat) ∧
      ∀ y ∈ post,
        (clusterScore f64Ops pts x.2).toRat ≤ (clusterScore f64Ops pts y.2).toRat) := by
  induction l generalizing acc with
  | nil => left; simp
  | cons y rest ih =>
    have hy := hl y (List.mem_cons_self _ _)
    have hrest : ∀ z ∈ rest, (clusterScore f64Ops pts z.2).Rep :=
      fun z hz => hl z (List.mem_cons_of_mem _ hz)
    have hlt_eq : f64Ops.lt (clusterScore f64Ops pts y.2) acc.2 =
        decide ((clusterScore f64Ops pts y.2).toRat < acc.2.toRat) := F64.lt_rep _ _ hy hacc
    simp only [List.foldl_cons]
    by_cases hlt : (clusterScore f64Ops pts y.2).toRat < acc.2.toRat
    · have hstep : bestStep f64Ops pts acc y = (y.1, clusterScore f64Ops pts y.2) := by
        simp only [bestStep, hlt_eq, hlt, decide_True, if_true]
      rw [hstep]
      rcases ih (y.1, clusterScore f64Ops pts y.2) hy hrest with ⟨h1, h2⟩ | h
      · right
        exact ⟨[], y, rest, rfl, h1, hlt, by simp, h2⟩
      · obtain ⟨pre, x, post, hl', hr, hx, hpre, hpost⟩ := h
        right
        refine ⟨y :: pre, x, post, by rw [hl']; rfl, hr, lt_trans hx hlt, ?_, hpost⟩
        intro z hz
        rcases List.mem_cons.mp hz with h | h
        · rw [h]; exact hx
        · exact hpre z h
    · have hstep : bestStep f64Ops pts acc y = acc := by
        simp only [bestStep, hlt_eq, hlt, decide_False, Bool.false_eq_true, if_false]
      rw [hstep]
      rcases ih acc hacc hrest with ⟨h1, h2⟩ | h
      · left
        refine ⟨h1, ?_⟩
        intro z hz
        rcases List.mem_cons.mp hz with h | h
        · rw [h]; exact not_lt.mp hlt
        · exact h2 z h
      · obtain ⟨pre, x, post, hl', hr, hx, hpre, hpost⟩ := h
        right
        refine ⟨y :: pre, x, post, by rw [hl']; rfl, hr, hx, ?_, hpost⟩
        intro z hz
        rcases List.mem_cons.mp hz with h | h
        · rw [h]; exact lt_of_lt_of_le hx (not_lt.mp hlt)
        · exact hpre z h

theorem dbscanPoints_inRange (T : RoutingTable) (now : Time) (positionX positionY : Nat)
    (hX : positionX < 2 ^ 32) (hY : positionY < 2 ^ 32)
    (hT : uint32Fields T.m_ipv4AddressEntry) :
    featuresInRange 1 (dbscanPoints f64Ops T now positionX positionY) := by
  unfold dbscanPoints
  apply normalize_inRange (2 ^ (66 : Int)) (zpow_le_zpow_right₀ (by norm_num) (by norm_num))
  apply extractPoints_inRange positionX positionY _ hX hY
  rw [purge_entries]
  exact uint32Fields_purgeLoop _ now _ hT

theorem members_length_le (n : Nat) (label : List Int) (x : Int × List Nat)
    (hx : x ∈ clusterMembers n label) : x.2 ≠ [] ∧ x.2.length ≤ n := by
  obtain ⟨hasc, hmem, hspec⟩ := clusterMembers_spec n label
  refine ⟨(hmem x hx).1, ?_⟩
  have hmo : membersOf (clusterMembers n label) x.1 = x.2 := membersOf_of_mem _ x hasc hx
  rw [← hmo, hspec, if_pos (hmem x hx).2]
  have := List.length_filter_le (fun i => decide (label.getD i UNVISITED = x.1)) (List.range n)
  simpa using this

theorem best_cluster_spec_f64 (pts : List (FeaturePoint F64)) (hpts : featuresInRange 1 pts)
    (hlen : pts.length < 2 ^ 53) (label : List Int)
    (h : clusterMembers pts.length label ≠ []) :
    ∃ x ∈ clusterMembers pts.length label,
      x.2 ≠ [] ∧
      x.2 = (List.range pts.length).filter (fun i => label.getD i UNVISITED = x.1) ∧
      selectOutput f64Ops pts (clusterMembers pts.length label)
        (bestCluster f64Ops pts (clusterMembers pts.length label)).1 =
        x.2.map (fun idx => (pointAt f64Ops pts idx).ip) ∧
      (∀ y ∈ clusterMembers pts.length label,
        F64.le (clusterScore f64Ops pts x.2) (clusterScore f64Ops pts y.2) = true) ∧
      (∀ y ∈ clusterMembers pts.length label,
        F64.ne (clusterScore f64Ops pts y.2) (clusterScore f64Ops pts x.2) = false →
        x.1 ≤ y.1) := by
  obtain ⟨hasc, hmem, hspec⟩ := clusterMembers_spec pts.length label
  have hsc : ∀ y ∈ clusterMembers pts.length label,
      F64.InRange 3 (clusterScore f64Ops pts y.2) := by
    intro y hy
    obtain ⟨h1, h2⟩ := members_length_le pts.length label y hy
    exact clusterScore_f64 pts hpts y.2 h1 (lt_of_le_of_lt h2 hlen)
  generalize hcm : clusterMembers pts.length label = cm at h hasc hmem hspec hsc ⊢
  have hbigr : ((-1 : Int), f64Ops.ofNat (10 ^ 18)).2.Rep := F64.big_rep.1
  rcases bestFold_f64 pts cm (-1, f64Ops.ofNat (10 ^ 18)) hbigr
      (fun y hy => (hsc y hy).1) with ⟨_, hall⟩ | hbest
  · exfalso
    obtain ⟨y, hy⟩ := List.exists_mem_of_ne_nil cm h
    have h1 := hall y hy
    have h2 := (hsc y hy).2.2
    have h3 := F64.big_rep.2
    have h4 : (f64Ops.ofNat (10 ^ 18)).toRat = (F64.ofNat (10 ^ 18)).toRat := rfl
    simp only [h4] at h1
    linarith
  · obtain ⟨pre, x, post, hl, hr, _, hpre, hpost⟩ := hbest
    have hx : x ∈ cm := by rw [hl]; simp
    have hmo : membersOf cm x.1 = x.2 := membersOf_of_mem cm x hasc hx
    refine ⟨x, hx, (hmem x hx).1, ?_, ?_, ?_, ?_⟩
    · rw [← hmo, hspec, if_pos (hmem x hx).2]
    · have hb : (bestCluster f64Ops pts cm).1 = x.1 := by
        unfold bestCluster
        rw [hr]
      rw [hb]
      unfold selectOutput
      simp only [ge_iff_le, (hmem x hx).2, if_true, hmo]
      rw [if_neg]
      simpa using (hmem x hx).1
    · intro y hy
      rw [F64.le_rep _ _ (hsc x hx).1 (hsc y hy).1, decide_eq_true_eq]
      rw [hl] at hy
      rcases List.mem_append.mp hy with h1 | h1
      · exact le_of_lt (hpre y h1)
      · rcases List.mem_cons.mp h1 with h2 | h2
        · rw [h2]
        · exact hpost y h2
    · intro y hy heq
      rw [F64.ne_rep _ _ (hsc y hy).1 (hsc x hx).1] at heq
      simp only [ne_eq, decide_not, Bool.not_eq_false', decide_eq_true_eq] at heq
      rw [hl] at hy hasc
      rcases List.mem_append.mp hy with h1 | h1
      · exact absurd heq (ne_of_gt (hpre y h1))
      · rcases List.mem_cons.mp h1 with h2 | h2
        · rw [h2]
        · rw [List.map_append, List.map_cons, List.pairwise_append] at hasc
          have := (List.pairwise_cons.mp hasc.2.1).1 y.1 (List.mem_map.mpr ⟨y, h2, rfl⟩)
          exact le_of_lt this

theorem two_pairs_select_f64 (pts : List (FeaturePoint F64)) (hpts : featuresInRange 1 pts)
    (hlen : pts.length = 4) :
    selectOutput f64Ops pts [(0, [0, 1]), (1, [2, 3])]
      (bestCluster f64Ops pts [(0, [0, 1]), (1, [2, 3])]).1 =
      if F64.lt (clusterScore f64Ops pts [2, 3]) (clusterScore f64Ops pts [0, 1]) then
        (pts.map FeaturePoint.ip).drop 2
      else (pts.map FeaturePoint.ip).take 2 := by
  have hbig := clusterScore_lt_big_f64 pts hpts [0, 1] (by simp) (by norm_num)
  obtain ⟨a, b, c, d, rfl⟩ : ∃ a b c d, pts = [a, b, c, d] := by
    match pts, hlen with
    | [a, b, c, d], _ => exact ⟨a, b, c, d, rfl⟩
  have hlt : f64Ops.lt (clusterScore f64Ops [a, b, c, d] [0, 1]) (f64Ops.ofNat (10 ^ 18)) =
      true := hbig
  have hop : ∀ u v : F64, f64Ops.lt u v = F64.lt u v := fun _ _ => rfl
  simp only [bestCluster, List.foldl_cons, List.foldl_nil, bestStep, hlt, if_true]
  rw [hop]
  cases hs : F64.lt (clusterScore f64Ops [a, b, c, d] [2, 3])
      (clusterScore f64Ops [a, b, c, d] [0, 1])
  · simp [selectOutput, membersOf, pointAt]
  · simp [selectOutput, membersOf, pointAt]

theorem dist_symm_f64 (pts : List (FeaturePoint F64)) (a b : Nat) :
    dist f64Ops pts a b = dist f64Ops pts b a := by
  simp only [dist, f64Ops]
  rw [F64.sq_sub_comm (pointAt _ pts a).f0, F64.sq_sub_comm (pointAt _ pts a).f1,
    F64.sq_sub_comm (pointAt _ pts a).f2]

theorem regionQuery_symm_f64 (pts : List (FeaturePoint F64)) (epsilon : F64) (a b : Nat)
    (hb : b < pts.length) (h : a ∈ regionQuery f64Ops pts epsilon b) :
    b ∈ regionQuery f64Ops pts epsilon a := by
  unfold regionQuery at h ⊢
  rw [List.mem_filter] at h ⊢
  refine ⟨List.mem_range.mpr hb, ?_⟩
  have h2 := h.2
  simp only [Bool.and_eq_true, decide_eq_true_eq] at h2 ⊢
  exact ⟨fun e => h2.1 e.symm, by rw [dist_symm_f64]; exact h2.2⟩

theorem purge_length_le (T : RoutingTable) (now : Time) :
    (T.Purge now).m_ipv4AddressEntry.length ≤ T.m_ipv4AddressEntry.length := by
  rw [purge_entries, purgeLoop_eq_filterMap]
  exact List.length_filterMap_le _ _

theorem dbscanPoints_length_le {K : Type} (ops : DoubleOps K) (T : RoutingTable) (now : Time)
    (x y : Nat) : (dbscanPoints ops T now x y).length ≤ T.m_ipv4AddressEntry.length := by
  rw [dbscanPoints_length]
  exact (List.length_filter_le _ _).trans (purge_length_le T now)

theorem F64.inRange_le (B : Nat) (hB : B < 2 ^ 53) (x : F64) (h : F64.InRange B x) :
    F64.le (F64.ofNat 0) x = true ∧ F64.le x (F64.ofNat B) = true := by
  obtain ⟨r0, v0⟩ := F64.ofNat_rep 0 (by norm_num)
  obtain ⟨rB, vB⟩ := F64.ofNat_rep B hB
  rw [F64.le_rep _ _ r0 h.1, F64.le_rep _ _ h.1 rB, v0, vB]
  simp only [decide_eq_true_eq, Nat.cast_zero]
  exact ⟨h.2.1, h.2.2⟩

theorem F64.sq_zero : F64.mul (F64.sub (F64.ofNat 0) (F64.ofNat 0))
    (F64.sub (F64.ofNat 0) (F64.ofNat 0)) = F64.ofNat 0 := by decide!

/-! ## Known values of binary64 arithmetic -/

theorem F64.one_tenth : F64.ofRat (1 / 10) = F64.fin false (3602879701896397 / 2 ^ 55) := by
  decide!

theorem F64.tenth_plus_fifth :
    F64.add (F64.ofRat (1 / 10)) (F64.ofRat (2 / 10)) =
        F64.fin false (1351079888211149 / 2 ^ 52) ∧
      F64.ne (F64.add (F64.ofRat (1 / 10)) (F64.ofRat (2 / 10))) (F64.ofRat (3 / 10)) =
        true := by
  decide!

theorem F64.one_third :
    F64.div (F64.ofNat 1) (F64.ofNat 3) = F64.fin false (6004799503160661 / 2 ^ 54) := by
  decide!

theorem F64.sqrt_two : F64.sqrt (F64.ofNat 2) = F64.fin false (6369051672525773 / 2 ^ 52) := by
  decide!

theorem F64.sqrt_exact : F64.sqrt (F64.ofNat 25) = F64.ofNat 5 := by decide!

theorem F64.ties_to_even :
    F64.ofNat (2 ^ 53 + 1) = F64.ofNat (2 ^ 53) ∧
      F64.ofNat (2 ^ 53 + 3) = F64.ofNat (2 ^ 53 + 4) := by
  decide!

theorem F64.big_exact : F64.ofNat (10 ^ 18) = F64.fin false (10 ^ 18) := by decide!

theorem F64.overflow :
    F64.mul (F64.ofRat (2 ^ 1023)) (F64.ofNat 2) = F64.inf false ∧
      F64.sub (F64.inf false) (F64.inf false) = F64.nan := by
  decide!

theorem F64.underflow :
    F64.div (F64.ofRat (1 / 2 ^ 1074)) (F64.ofNat 2) = F64.fin false 0 ∧
      F64.div (F64.ofRat (3 / 2 ^ 1074)) (F64.ofNat 2) = F64.fin false (2 / 2 ^ 1074) := by
  decide!

theorem F64.zeros :
    F64.ne (F64.fin true 0) (F64.fin false 0) = false ∧
      F64.div (F64.ofNat 1) (F64.fin true 0) = F64.inf true ∧
      F64.div (F64.ofNat 0) (F64.ofNat 0) = F64.nan := by
  decide!

/-! ## C1: what `Purge` leaves -/

/-- C1: for every table, bad-link lifetime and time, `Purge` keeps the bad-link lifetime and
leaves exactly the pairs the specification describes, in the same order: an entry whose
deadline is strictly before now is removed when `INVALID` and is kept under its key with flag
`INVALID`, request counter 0 and deadline now plus the bad-link lifetime when `VALID`; an
`IN_SEARCH` entry and an entry whose deadline has not passed are kept unchanged. The key of
every entry that was `VALID` before is still a key after. -/
theorem C1_purge_exact (T : RoutingTable) (now : Time) :
    (T.Purge now).m_badLinkLifetime = T.m_badLinkLifetime ∧
    (T.Purge now).m_ipv4AddressEntry =
      T.m_ipv4AddressEntry.filterMap (specPurgeEntry T.m_badLinkLifetime now) ∧
    (∀ k e, (k, e) ∈ T.m_ipv4AddressEntry → e.m_flag = VALID →
      k ∈ mapKeys (T.Purge now).m_ipv4AddressEntry) := by
  refine ⟨purge_badLink T now, ?_, ?_⟩
  · rw [purge_entries, purgeLoop_eq_filterMap]
  · intro k e hmem hv
    rw [purge_entries]
    exact purgeLoop_keeps_valid _ now _ k e hmem hv

/-- C1 at `exampleTable` and time 10: the expired `INVALID` entry 2 is gone, the expired
`VALID` entry 1 is `INVALID` with counter 0 and deadline 17, entries 3 and 4 are as before. -/
theorem C1_purge_exact_witness :
    (exampleTable.Purge 10).m_ipv4AddressEntry =
      [(1, exampleEntry 1 INVALID 17 0), (3, exampleEntry 3 IN_SEARCH 5 3),
       (4, exampleEntry 4 VALID 50 2)] ∧
    1 ∈ mapKeys (exampleTable.Purge 10).m_ipv4AddressEntry :=
  ⟨(C1_purge_exact exampleTable 10).2.1.trans (by decide),
   (C1_purge_exact exampleTable 10).2.2 1 (exampleEntry 1 VALID 5 3) (by decide) (by decide)⟩

/-! ## C2: one entry per destination -/

/-- C2: in every table reached from the empty table by a sequence of AddRoute, Update,
DeleteRoute, SetEntryState, InvalidateRoutesWithDst, DeleteAllRoutesFromInterface,
MarkLinkAsUnidirectional and Purge calls (any arguments, any times), at most one entry exists
per destination address, every stored entry is stored under the key equal to its own
destination address, and the keys are strictly ascending. -/
theorem C2_one_entry_per_destination (badLinkLifetime : Time) (ops : List (Time × TableOp)) :
    (∀ d, (runOps (RoutingTable.new badLinkLifetime) ops).m_ipv4AddressEntry.countP
      (fun p => p.2.GetDestination = d) ≤ 1) ∧
    (∀ p ∈ (runOps (RoutingTable.new badLinkLifetime) ops).m_ipv4AddressEntry,
      p.1 = p.2.GetDestination) ∧
    (mapKeys (runOps (RoutingTable.new badLinkLifetime) ops).m_ipv4AddressEntry).Pairwise
      (· < ·) := by
  have h0 : tableInvariant (RoutingTable.new badLinkLifetime) := by
    simp [tableInvariant, RoutingTable.new, keysAscending, keyedByDestination, mapKeys]
  have h := runOps_invariant ops _ h0
  exact ⟨countP_dst_le_one _ h.1 h.2, h.2, h.1⟩

/-- C2 on a concrete run: two `AddRoute` calls for destination 1 (the second fails), one for
destination 3 and an `Update` of destination 1 leave one entry for destination 1. -/
theorem C2_one_entry_per_destination_witness :
    (runOps (RoutingTable.new 7)
      [(0, .addRoute (exampleEntry 1 VALID 5 3)), (1, .addRoute (exampleEntry 1 VALID 9 0)),
       (2, .addRoute (exampleEntry 3 IN_SEARCH 9 2)),
       (3, .update (exampleEntry 1 INVALID 9 4))]).m_ipv4AddressEntry.countP
      (fun p => p.2.GetDestination = 1) ≤ 1 ∧
    (runOps (RoutingTable.new 7)
      [(0, .addRoute (exampleEntry 1 VALID 5 3)), (1, .addRoute (exampleEntry 1 VALID 9 0)),
       (2, .addRoute (exampleEntry 3 IN_SEARCH 9 2)),
       (3, .update (exampleEntry 1 INVALID 9 4))]).m_ipv4AddressEntry =
      [(1, exampleEntry 1 INVALID 9 0), (3, exampleEntry 3 IN_SEARCH 9 2)] :=
  ⟨(C2_one_entry_per_destination 7
      [(0, .addRoute (exampleEntry 1 VALID 5 3)), (1, .addRoute (exampleEntry 1 VALID 9 0)),
       (2, .addRoute (exampleEntry 3 IN_SEARCH 9 2)),
       (3, .update (exampleEntry 1 INVALID 9 4))]).1 1, by decide⟩

/-! ## C3: AddRoute -/

/-- C3: `AddRoute` reports success exactly when the purged table has no entry for the entry's
destination. The entry is passed by reference and its request counter is reset in place
(unless its flag is `IN_SEARCH`) before it is copied into the table. On success the table is
the purged table plus that entry, as the call leaves it, under its destination: the pairs
are those of the purged table and the new pair, the purged pairs keep their order, the new
key finds the entry and every other key finds what it found in the purged table. On failure
the table equals the purged table. -/
theorem C3_addRoute (T : RoutingTable) (now : Time) (rt : RoutingTableEntry) :
    ((T.AddRoute now rt).1 = true ↔
      mapFind rt.GetDestination (T.Purge now).m_ipv4AddressEntry = none) ∧
    (T.AddRoute now rt).2.1 =
      (if rt.m_flag = IN_SEARCH then rt else { rt with m_reqCount := 0 }) ∧
    ((T.AddRoute now rt).1 = true →
      (T.AddRoute now rt).2.2.m_badLinkLifetime = T.m_badLinkLifetime ∧
      (T.AddRoute now rt).2.2.m_ipv4AddressEntry.Perm
        ((rt.GetDestination, (T.AddRoute now rt).2.1) :: (T.Purge now).m_ipv4AddressEntry) ∧
      (T.Purge now).m_ipv4AddressEntry.Sublist (T.AddRoute now rt).2.2.m_ipv4AddressEntry ∧
      mapFind rt.GetDestination (T.AddRoute now rt).2.2.m_ipv4AddressEntry =
        some (T.AddRoute now rt).2.1 ∧
      (∀ k, k ≠ rt.GetDestination →
        mapFind k (T.AddRoute now rt).2.2.m_ipv4AddressEntry =
          mapFind k (T.Purge now).m_ipv4AddressEntry)) ∧
    ((T.AddRoute now rt).1 = false → (T.AddRoute now rt).2.2 = T.Purge now) := by
  have hd := addRoute_entry_dst T now rt
  refine ⟨?_, addRoute_entry T now rt, ?_, ?_⟩
  · simp only [RoutingTable.AddRoute] at hd
    simp only [RoutingTable.AddRoute, mapInsert, hd]
    split <;> simp_all
  · intro hs
    simp only [RoutingTable.AddRoute] at hd hs
    simp only [RoutingTable.AddRoute]
    simp only [mapInsert, hd] at hs ⊢
    split at hs
    · simp at hs
    · rename_i hnone
      simp only [hnone]
      exact ⟨purge_badLink T now, mapKeys_mapPlace_perm _ _ _, mapPlace_sublist _ _ _,
        mapFind_mapPlace_same _ _ _ hnone, fun k hk => mapFind_mapPlace_other _ _ _ _ hk⟩
  · intro hs
    simp only [RoutingTable.AddRoute] at hd hs
    simp only [RoutingTable.AddRoute]
    simp only [mapInsert, hd] at hs ⊢
    split at hs
    · rename_i v hsome
      simp only [hsome]
    · simp at hs

/-- C3 at `exampleTable` and time 10: adding an entry for the absent destination 2 (purged
at that time) succeeds and stores it with its counter reset; adding one for the present
destination 1 fails and leaves the purged table. -/
theorem C3_addRoute_witness :
    mapFind 2 (exampleTable.AddRoute 10 (exampleEntry 2 VALID 100 9)).2.2.m_ipv4AddressEntry =
      some (exampleEntry 2 VALID 100 0) ∧
    (exampleTable.AddRoute 10 (exampleEntry 1 VALID 100 9)).2.2 = exampleTable.Purge 10 :=
  ⟨((C3_addRoute exampleTable 10 (exampleEntry 2 VALID 100 9)).2.2.1 (by decide)).2.2.2.1.trans
      (by decide),
   (C3_addRoute exampleTable 10 (exampleEntry 1 VALID 100 9)).2.2.2 (by decide)⟩

/-! ## C4: Update -/

/-- C4 fails as stated: in `exampleTable`, `Update` with a `VALID` entry for destination 1 whose
request counter is 9 succeeds, and the entry then stored at key 1 is not the supplied one (its
request counter is 0). -/
theorem C4_update_counterexample :
    (exampleTable.Update (exampleEntry 1 VALID 100 9)).1 = true ∧
    mapFind 1 (exampleTable.Update (exampleEntry 1 VALID 100 9)).2.m_ipv4AddressEntry ≠
      some (exampleEntry 1 VALID 100 9) ∧
    mapFind 1 (exampleTable.Update (exampleEntry 1 VALID 100 9)).2.m_ipv4AddressEntry =
      some (exampleEntry 1 VALID 100 0) := by
  decide

/-- C4 (amended): `Update` reports success exactly when the table, as stored and not purged,
has an entry for the entry's destination. On success the entry stored at that key is replaced
by the supplied one with its request counter set to 0 unless the supplied flag is `IN_SEARCH`
(then by the supplied one itself); the keys and their order, the bad-link lifetime and every
pair at any other key are unchanged. On failure the table is unchanged. -/
theorem C4_update_amended (T : RoutingTable) (rt : RoutingTableEntry) :
    ((T.Update rt).1 = true ↔ (mapFind rt.GetDestination T.m_ipv4AddressEntry).isSome = true) ∧
    ((T.Update rt).1 = true →
      mapFind rt.GetDestination (T.Update rt).2.m_ipv4AddressEntry =
        some (if rt.m_flag = IN_SEARCH then rt else { rt with m_reqCount := 0 }) ∧
      mapKeys (T.Update rt).2.m_ipv4AddressEntry = mapKeys T.m_ipv4AddressEntry ∧
      (T.Update rt).2.m_badLinkLifetime = T.m_badLinkLifetime ∧
      (∀ k, k ≠ rt.GetDestination →
        mapFind k (T.Update rt).2.m_ipv4AddressEntry = mapFind k T.m_ipv4AddressEntry) ∧
      (∀ p : Ipv4Address × RoutingTableEntry, p.1 ≠ rt.GetDestination →
        (p ∈ (T.Update rt).2.m_ipv4AddressEntry ↔ p ∈ T.m_ipv4AddressEntry))) ∧
    ((T.Update rt).1 = false → (T.Update rt).2 = T) := by
  refine ⟨?_, fun hs => ⟨update_stored T rt hs, ?_⟩, ?_⟩
  · unfold RoutingTable.Update
    split <;> simp_all
  · unfold RoutingTable.Update
    split
    · exact ⟨rfl, rfl, fun _ _ => rfl, fun _ _ => Iff.rfl⟩
    · exact ⟨mapKeys_mapModify _ _ _, rfl, fun k hk => mapFind_mapModify_other _ _ _ _ hk,
        fun p hp => mem_mapModify_of_ne _ _ _ p hp⟩
  · unfold RoutingTable.Update
    split <;> simp

/-- C4 (amended) at `exampleTable`: updating destination 3 with an `IN_SEARCH` entry stores the
supplied entry itself, and updating the absent destination 9 leaves the table as it is. -/
theorem C4_update_amended_witness :
    mapFind 3 (exampleTable.Update (exampleEntry 3 IN_SEARCH 100 9)).2.m_ipv4AddressEntry =
      some (exampleEntry 3 IN_SEARCH 100 9) ∧
    (exampleTable.Update (exampleEntry 9 VALID 100 9)).2 = exampleTable :=
  ⟨((C4_update_amended exampleTable (exampleEntry 3 IN_SEARCH 100 9)).2.1 (by decide)).1.trans
      (by decide),
   (C4_update_amended exampleTable (exampleEntry 9 VALID 100 9)).2.2 (by decide)⟩

/-! ## C5: resets of the request counter -/

/-- C5: after a successful `SetEntryState (id, state)`, for every flag value, the entry stored
for `id` has that flag and request counter 0; after a successful `AddRoute` or `Update` the
entry stored for the supplied entry's destination has request counter 0 when the supplied flag
is not `IN_SEARCH`, and the supplied entry's counter when it is `IN_SEARCH`. -/
theorem C5_request_counter (T : RoutingTable) (now : Time) (id : Ipv4Address)
    (state : RouteFlags) (rt : RoutingTableEntry) :
    ((T.SetEntryState id state).1 = true →
      ∃ e, mapFind id (T.SetEntryState id state).2.m_ipv4AddressEntry = some e ∧
        e.GetFlag = state ∧ e.GetRreqCnt = 0) ∧
    ((T.AddRoute now rt).1 = true →
      ∃ e, mapFind rt.GetDestination (T.AddRoute now rt).2.2.m_ipv4AddressEntry = some e ∧
        (rt.GetFlag ≠ IN_SEARCH → e.GetRreqCnt = 0) ∧
        (rt.GetFlag = IN_SEARCH → e.GetRreqCnt = rt.GetRreqCnt)) ∧
    ((T.Update rt).1 = true →
      ∃ e, mapFind rt.GetDestination (T.Update rt).2.m_ipv4AddressEntry = some e ∧
        (rt.GetFlag ≠ IN_SEARCH → e.GetRreqCnt = 0) ∧
        (rt.GetFlag = IN_SEARCH → e.GetRreqCnt = rt.GetRreqCnt)) := by
  have hcnt : ∀ e : RoutingTableEntry,
      e = (if rt.m_flag = IN_SEARCH then rt else { rt with m_reqCount := 0 }) →
      (rt.GetFlag ≠ IN_SEARCH → e.GetRreqCnt = 0) ∧
      (rt.GetFlag = IN_SEARCH → e.GetRreqCnt = rt.GetRreqCnt) := by
    intro e he
    subst he
    by_cases h : rt.m_flag = IN_SEARCH <;>
      simp [h, RoutingTableEntry.GetFlag, RoutingTableEntry.GetRreqCnt]
  refine ⟨?_, ?_, ?_⟩
  · unfold RoutingTable.SetEntryState
    split
    · simp
    · rename_i v hsome
      intro _
      refine ⟨(v.SetFlag state).SetRreqCnt 0, ?_, rfl, rfl⟩
      simp [mapFind_mapModify_same, hsome]
  · intro hs
    exact ⟨_, addRoute_stored T now rt hs, hcnt _ (addRoute_entry T now rt)⟩
  · intro hs
    exact ⟨_, update_stored T rt hs, hcnt _ rfl⟩

/-- C5 at `exampleTable` and time 10: setting entry 3 to `IN_SEARCH` stores that flag with
counter 0; adding an `IN_SEARCH` entry for destination 2 and updating destination 1 with a
`VALID` entry store the counters the claim names. -/
theorem C5_request_counter_witness :
    (∃ e, mapFind 3 (exampleTable.SetEntryState 3 IN_SEARCH).2.m_ipv4AddressEntry = some e ∧
      e.GetFlag = IN_SEARCH ∧ e.GetRreqCnt = 0) ∧
    (∃ e, mapFind 2 (exampleTable.AddRoute 10
        (exampleEntry 2 IN_SEARCH 100 9)).2.2.m_ipv4AddressEntry = some e ∧
      (IN_SEARCH ≠ IN_SEARCH → e.GetRreqCnt = 0) ∧ (IN_SEARCH = IN_SEARCH → e.GetRreqCnt = 9)) :=
  ⟨(C5_request_counter exampleTable 10 3 IN_SEARCH (exampleEntry 2 IN_SEARCH 100 9)).1
      (by decide),
   (C5_request_counter exampleTable 10 3 IN_SEARCH (exampleEntry 2 IN_SEARCH 100 9)).2.1
      (by decide)⟩

/-! ## C6: LookupValidRoute -/

/-- C6: `LookupValidRoute` leaves the purged table and reports success exactly when the table
purged at the current time holds an entry for the destination whose flag is `VALID`; on success
the entry copied out is that stored entry, it is an entry of the table before the call and its
deadline is not before now. Hence, in a table without duplicate keys, when the entry stored for
the destination before the call has a deadline strictly before now, the call fails whatever
the flag of that entry was. -/
theorem C6_lookupValidRoute (T : RoutingTable) (now : Time) (id : Ipv4Address)
    (rt : RoutingTableEntry) :
    ((T.LookupValidRoute now id rt).1 = true ↔
      ∃ e, mapFind id (T.Purge now).m_ipv4AddressEntry = some e ∧ e.GetFlag = VALID) ∧
    (T.LookupValidRoute now id rt).2.2 = T.Purge now ∧
    ((T.LookupValidRoute now id rt).1 = true →
      mapFind id (T.Purge now).m_ipv4AddressEntry = some (T.LookupValidRoute now id rt).2.1 ∧
      (id, (T.LookupValidRoute now id rt).2.1) ∈ T.m_ipv4AddressEntry ∧
      ¬ (T.LookupValidRoute now id rt).2.1.m_lifeTime < now) ∧
    ((mapKeys T.m_ipv4AddressEntry).Nodup →
      ∀ e, mapFind id T.m_ipv4AddressEntry = some e → e.m_lifeTime < now →
        (T.LookupValidRoute now id rt).1 = false) := by
  have hsucc : (T.LookupValidRoute now id rt).1 = true →
      mapFind id (T.Purge now).m_ipv4AddressEntry = some (T.LookupValidRoute now id rt).2.1 ∧
      (id, (T.LookupValidRoute now id rt).2.1) ∈ T.m_ipv4AddressEntry ∧
      ¬ (T.LookupValidRoute now id rt).2.1.m_lifeTime < now := by
    rw [lookupValidRoute_eq]
    cases hf : mapFind id (T.Purge now).m_ipv4AddressEntry with
    | none => simp
    | some e =>
      intro hs
      have hv : e.m_flag = VALID := by simpa [RoutingTableEntry.GetFlag] using hs
      have hmem := mapFind_mem id e _ hf
      rw [purge_entries] at hmem
      exact ⟨rfl, mem_purgeLoop_valid _ now _ id e hmem hv⟩
  refine ⟨?_, ?_, hsucc, ?_⟩
  · rw [lookupValidRoute_eq]
    cases mapFind id (T.Purge now).m_ipv4AddressEntry <;> simp
  · rw [lookupValidRoute_eq]
    cases mapFind id (T.Purge now).m_ipv4AddressEntry <;> rfl
  · intro hnd e hfind hexp
    by_contra hne
    have hs : (T.LookupValidRoute now id rt).1 = true := by simpa using hne
    obtain ⟨_, hmem, hle⟩ := hsucc hs
    have := mem_unique_of_nodup _ id _ _ hnd (mapFind_mem id e _ hfind) hmem
    exact hle (this ▸ hexp)

/-- C6 at `exampleTable`: at time 10 the entry for destination 1 is flagged `VALID` but its
deadline 5 has passed, and the lookup fails. -/
theorem C6_lookupValidRoute_witness :
    (exampleTable.LookupValidRoute 10 1 (exampleEntry 9 VALID 0 0)).1 = false :=
  (C6_lookupValidRoute exampleTable 10 1 (exampleEntry 9 VALID 0 0)).2.2.2 (by decide)
    (exampleEntry 1 VALID 5 3) (by decide) (by decide)

/-! ## C7: the output entry of a failed lookup -/

/-- C7 fails as stated: in `exampleTable` at time 0 the entry for destination 2 is found but is
`INVALID`; `LookupValidRoute` reports failure and the caller's entry has been overwritten with
the stored one. -/
theorem C7_lookup_failure_counterexample :
    (exampleTable.LookupValidRoute 0 2 (exampleEntry 9 VALID 0 0)).1 = false ∧
    (exampleTable.LookupValidRoute 0 2 (exampleEntry 9 VALID 0 0)).2.1 ≠
      exampleEntry 9 VALID 0 0 ∧
    (exampleTable.LookupValidRoute 0 2 (exampleEntry 9 VALID 0 0)).2.1 =
      exampleEntry 2 INVALID 5 3 := by
  decide

/-- C7 (amended): whenever `LookupRoute` reports failure, and whenever `LookupValidRoute`
reports failure because the purged table has no entry for the destination, the caller's output
entry equals the value it had before the call; when `LookupValidRoute` reports failure because
the entry found is not `VALID`, the output entry is a copy of that stored entry. -/
theorem C7_lookup_failure_amended (T : RoutingTable) (now : Time) (id : Ipv4Address)
    (rt : RoutingTableEntry) :
    ((T.LookupRoute now id rt).1 = false → (T.LookupRoute now id rt).2.1 = rt) ∧
    ((T.LookupValidRoute now id rt).1 = false →
      mapFind id (T.Purge now).m_ipv4AddressEntry = none →
      (T.LookupValidRoute now id rt).2.1 = rt) ∧
    (∀ e, (T.LookupValidRoute now id rt).1 = false →
      mapFind id (T.Purge now).m_ipv4AddressEntry = some e →
      (T.LookupValidRoute now id rt).2.1 = e ∧ e.GetFlag ≠ VALID) := by
  rw [lookupValidRoute_eq, lookupRoute_eq]
  cases mapFind id (T.Purge now).m_ipv4AddressEntry with
  | none => simp
  | some e =>
    refine ⟨by simp, by simp, ?_⟩
    intro e' hs he
    simp only [Option.some.injEq] at he
    subst he
    exact ⟨rfl, by simpa using hs⟩

/-- C7 (amended) at `exampleTable` and time 10: destination 2 has been purged, both lookups
fail and leave the caller's entry as it was. -/
theorem C7_lookup_failure_amended_witness :
    (exampleTable.LookupRoute 10 2 (exampleEntry 9 VALID 0 0)).2.1 = exampleEntry 9 VALID 0 0 ∧
    (exampleTable.LookupValidRoute 10 2 (exampleEntry 9 VALID 0 0)).2.1 =
      exampleEntry 9 VALID 0 0 :=
  ⟨(C7_lookup_failure_amended exampleTable 10 2 (exampleEntry 9 VALID 0 0)).1 (by decide),
   (C7_lookup_failure_amended exampleTable 10 2 (exampleEntry 9 VALID 0 0)).2.1 (by decide)
     (by decide)⟩

/-! ## C8: which operations purge first -/

/-- C8 fails as stated: at time 10 the entry of `exampleTable` for destination 2 is `INVALID`
and expired. `Update`, `SetEntryState` and `MarkLinkAsUnidirectional` on that destination and
`DeleteAllRoutesFromInterface` on another interface give other results on the table as stored
than on the purged table, so they do not purge first. With the negative bad-link lifetime -7,
`LookupRoute` on an expired `VALID` entry succeeds, and fails when `Purge` is run before it. -/
theorem C8_purge_first_counterexample :
    exampleTable.Update (exampleEntry 2 VALID 100 0) ≠
      (exampleTable.Purge 10).Update (exampleEntry 2 VALID 100 0) ∧
    (exampleTable.Update (exampleEntry 2 VALID 100 0)).1 = true ∧
    ((exampleTable.Purge 10).Update (exampleEntry 2 VALID 100 0)).1 = false ∧
    exampleTable.SetEntryState 2 VALID ≠ (exampleTable.Purge 10).SetEntryState 2 VALID ∧
    exampleTable.MarkLinkAsUnidirectional 2 50 ≠
      (exampleTable.Purge 10).MarkLinkAsUnidirectional 2 50 ∧
    exampleTable.DeleteAllRoutesFromInterface ⟨11, 24, 255⟩ ≠
      (exampleTable.Purge 10).DeleteAllRoutesFromInterface ⟨11, 24, 255⟩ ∧
    (RoutingTable.mk [(1, exampleEntry 1 VALID 5 3)] (-7)).LookupRoute 10 1
        (exampleEntry 9 VALID 0 0) ≠
      ((RoutingTable.mk [(1, exampleEntry 1 VALID 5 3)] (-7)).Purge 10).LookupRoute 10 1
        (exampleEntry 9 VALID 0 0) := by
  decide

/-- C8 (amended): `LookupRoute`, `LookupValidRoute`, `AddRoute`, `DeleteRoute`,
`GetListOfDestinationWithNextHop` and `InvalidateRoutesWithDst` first invoke `Purge`: for every
table with a non-negative bad-link lifetime and every time, their results and resulting tables
equal those obtained by running `Purge` and then the operation on the purged table. `Update`,
`SetEntryState`, `MarkLinkAsUnidirectional` and `DeleteAllRoutesFromInterface` do not invoke
`Purge`: the first three succeed exactly when the table as stored has the key and leave the
keys as they are, the last leaves exactly the stored pairs not bound to the interface. -/
theorem C8_purge_first_amended (T : RoutingTable) (now : Time) :
    (0 ≤ T.m_badLinkLifetime →
      (∀ id rt, T.LookupRoute now id rt = (T.Purge now).LookupRoute now id rt) ∧
      (∀ id rt, T.LookupValidRoute now id rt = (T.Purge now).LookupValidRoute now id rt) ∧
      (∀ rt, T.AddRoute now rt = (T.Purge now).AddRoute now rt) ∧
      (∀ dst, T.DeleteRoute now dst = (T.Purge now).DeleteRoute now dst) ∧
      (∀ nextHop, T.GetListOfDestinationWithNextHop now nextHop =
        (T.Purge now).GetListOfDestinationWithNextHop now nextHop) ∧
      (∀ unreachable, T.InvalidateRoutesWithDst now unreachable =
        (T.Purge now).InvalidateRoutesWithDst now unreachable)) ∧
    (∀ rt, ((T.Update rt).1 = (mapFind rt.GetDestination T.m_ipv4AddressEntry).isSome) ∧
      mapKeys (T.Update rt).2.m_ipv4AddressEntry = mapKeys T.m_ipv4AddressEntry) ∧
    (∀ id state, ((T.SetEntryState id state).1 = (mapFind id T.m_ipv4AddressEntry).isSome) ∧
      mapKeys (T.SetEntryState id state).2.m_ipv4AddressEntry = mapKeys T.m_ipv4AddressEntry) ∧
    (∀ neighbor t, ((T.MarkLinkAsUnidirectional neighbor t).1 =
        (mapFind neighbor T.m_ipv4AddressEntry).isSome) ∧
      mapKeys (T.MarkLinkAsUnidirectional neighbor t).2.m_ipv4AddressEntry =
        mapKeys T.m_ipv4AddressEntry) ∧
    (∀ iface, (T.DeleteAllRoutesFromInterface iface).m_ipv4AddressEntry =
      T.m_ipv4AddressEntry.filter (fun p => p.2.GetInterface ≠ iface)) := by
  refine ⟨fun hb => ?_, ?_, ?_, ?_, deleteAllRoutes_entries T⟩
  · have hp := purge_idem T now hb
    refine ⟨?_, ?_, ?_, ?_, ?_, ?_⟩
    · intro id rt
      simp only [RoutingTable.LookupRoute, hp]
    · intro id rt
      simp only [RoutingTable.LookupValidRoute, RoutingTable.LookupRoute, hp]
    · intro rt
      simp only [RoutingTable.AddRoute, hp]
    · intro dst
      simp only [RoutingTable.DeleteRoute, hp]
    · intro nextHop
      simp only [RoutingTable.GetListOfDestinationWithNextHop, hp]
    · intro unreachable
      simp only [RoutingTable.InvalidateRoutesWithDst, hp]
  · intro rt
    unfold RoutingTable.Update
    split
    · rename_i h; simp [h]
    · rename_i v h; exact ⟨by simp [h], mapKeys_mapModify _ _ _⟩
  · intro id state
    unfold RoutingTable.SetEntryState
    split
    · rename_i h; simp [h]
    · rename_i v h; exact ⟨by simp [h], mapKeys_mapModify _ _ _⟩
  · intro neighbor t
    unfold RoutingTable.MarkLinkAsUnidirectional
    split
    · rename_i h; simp [h]
    · rename_i v h; exact ⟨by simp [h], mapKeys_mapModify _ _ _⟩

/-- C8 (amended) at `exampleTable` (bad-link lifetime 7) and time 10: looking up destination 1
gives the same result and table as purging first. -/
theorem C8_purge_first_amended_witness :
    exampleTable.LookupRoute 10 1 (exampleEntry 9 VALID 0 0) =
      (exampleTable.Purge 10).LookupRoute 10 1 (exampleEntry 9 VALID 0 0) :=
  ((C8_purge_first_amended exampleTable 10).1 (by decide)).1 1 (exampleEntry 9 VALID 0 0)

/-! ## C9: InvalidateRoutesWithDst -/

/-- C9: `InvalidateRoutesWithDst` leaves the purged table in which every `VALID` entry stored
under a key of the set has flag `INVALID`, request counter 0 and deadline now plus the bad-link
lifetime, and every other pair is unchanged; the keys, their order and the bad-link lifetime
are those of the purged table; two sets with the same keys give the same table, whatever
sequence numbers they carry. In a table whose entries are stored under their own destination
the entries changed are those whose destination is a key of the set. -/
theorem C9_invalidateRoutesWithDst (T : RoutingTable) (now : Time)
    (unreachable : List (Ipv4Address × Nat)) :
    (T.InvalidateRoutesWithDst now unreachable).m_ipv4AddressEntry =
      (T.Purge now).m_ipv4AddressEntry.map
        (invalidateByKey T.m_badLinkLifetime now (mapKeys unreachable)) ∧
    (keyedByDestination T.m_ipv4AddressEntry →
      (T.InvalidateRoutesWithDst now unreachable).m_ipv4AddressEntry =
        (T.Purge now).m_ipv4AddressEntry.map
          (specInvalidateEntry T.m_badLinkLifetime now (mapKeys unreachable))) ∧
    mapKeys (T.InvalidateRoutesWithDst now unreachable).m_ipv4AddressEntry =
      mapKeys (T.Purge now).m_ipv4AddressEntry ∧
    (T.InvalidateRoutesWithDst now unreachable).m_badLinkLifetime = T.m_badLinkLifetime ∧
    (∀ other : List (Ipv4Address × Nat), mapKeys other = mapKeys unreachable →
      T.InvalidateRoutesWithDst now other = T.InvalidateRoutesWithDst now unreachable) := by
  refine ⟨invalidateRoutes_entries T now unreachable, ?_, ?_, purge_badLink T now, ?_⟩
  · intro hk
    rw [invalidateRoutes_entries]
    apply List.map_congr_left
    intro p hp
    have hkp : keyedByDestination (T.Purge now).m_ipv4AddressEntry := by
      rw [purge_entries]
      exact purgeLoop_keyed _ now _ hk
    exact invalidateByKey_eq_spec _ now _ p (hkp p hp)
  · simp only [RoutingTable.InvalidateRoutesWithDst]
    exact invalidateLoop_keys _ now unreachable _
  · intro other hkeys
    simp only [RoutingTable.InvalidateRoutesWithDst, invalidateLoop_eq_map, hkeys]

/-- C9 at `exampleTable` and time 0 (nothing has expired): with the set of destinations 4, 2
and 3, entry 4 (`VALID`) is invalidated to deadline 7 with counter 0, entries 2 (`INVALID`) and
3 (`IN_SEARCH`) and entry 1 (not in the set) are unchanged; the sequence numbers play no part. -/
theorem C9_invalidateRoutesWithDst_witness :
    (exampleTable.InvalidateRoutesWithDst 0 [(2, 8), (3, 8), (4, 8)]).m_ipv4AddressEntry =
      [(1, exampleEntry 1 VALID 5 3), (2, exampleEntry 2 INVALID 5 3),
       (3, exampleEntry 3 IN_SEARCH 5 3), (4, exampleEntry 4 INVALID 7 0)] ∧
    exampleTable.InvalidateRoutesWithDst 0 [(2, 1), (3, 2), (4, 3)] =
      exampleTable.InvalidateRoutesWithDst 0 [(2, 8), (3, 8), (4, 8)] :=
  ⟨((C9_invalidateRoutesWithDst exampleTable 0 [(2, 8), (3, 8), (4, 8)]).2.1
      (by decide)).trans (by decide),
   (C9_invalidateRoutesWithDst exampleTable 0 [(2, 8), (3, 8), (4, 8)]).2.2.2.2
      [(2, 1), (3, 2), (4, 3)] (by decide)⟩

/-! ## C10: Invalidate is idempotent -/

/-- C10: `Invalidate` changes nothing on an entry that is already `INVALID` (neither deadline
nor request counter); on any other entry it sets the flag to `INVALID`, the request counter to
0 and the deadline to now plus the bad-link lifetime and changes no other field. Hence, for
every entry, lifetimes `b1`, `b2` and times, `Invalidate b1` followed by `Invalidate b2` at
any time equals `Invalidate b1` alone. -/
theorem C10_invalidate_idempotent (e : RoutingTableEntry) (b1 b2 now1 now2 : Time) :
    (e.m_flag = INVALID → e.Invalidate b1 now1 = e) ∧
    (e.m_flag ≠ INVALID → e.Invalidate b1 now1 =
      { e with m_flag := INVALID, m_reqCount := 0, m_lifeTime := now1 + b1 }) ∧
    (e.Invalidate b1 now1).Invalidate b2 now2 = e.Invalidate b1 now1 :=
  ⟨invalidate_of_invalid e b1 now1, invalidate_of_not_invalid e b1 now1,
    invalidate_of_invalid _ b2 now2 (invalidate_flag e b1 now1)⟩

/-- C10 at concrete entries: a `VALID` entry invalidated with lifetime 7 at time 10 gets
deadline 17 and counter 0, an `INVALID` entry is left as it was, and a second `Invalidate`
with lifetime 9 at time 20 changes nothing. -/
theorem C10_invalidate_idempotent_witness :
    (exampleEntry 1 VALID 5 3).Invalidate 7 10 = exampleEntry 1 INVALID 17 0 ∧
    (exampleEntry 2 INVALID 5 3).Invalidate 7 10 = exampleEntry 2 INVALID 5 3 ∧
    ((exampleEntry 1 VALID 5 3).Invalidate 7 10).Invalidate 9 20 =
      (exampleEntry 1 VALID 5 3).Invalidate 7 10 :=
  ⟨((C10_invalidate_idempotent (exampleEntry 1 VALID 5 3) 7 9 10 20).2.1 (by decide)).trans
      (by decide),
   (C10_invalidate_idempotent (exampleEntry 2 INVALID 5 3) 7 9 10 20).1 (by decide),
   (C10_invalidate_idempotent (exampleEntry 1 VALID 5 3) 7 9 10 20).2.2⟩

/-! ## C11: the precursor list has no duplicates -/

/-- C11: for every entry whose precursor list starts empty and every sequence of
`InsertPrecursor`, `DeletePrecursor` and `DeleteAllPrecursors` calls, the precursor list never
contains the same address twice. `InsertPrecursor` returns true exactly when the address was
absent, and then appends it at the end and changes nothing else; when the address was present
it returns false and leaves the entry unchanged. -/
theorem C11_precursors_nodup (e : RoutingTableEntry) (ops : List PrecursorOp)
    (id : Ipv4Address) :
    (e.m_precursorList = [] → (runPrecursorOps e ops).m_precursorList.Nodup) ∧
    ((e.InsertPrecursor id).1 = true ↔ id ∉ e.m_precursorList) ∧
    (id ∉ e.m_precursorList →
      (e.InsertPrecursor id).2 = { e with m_precursorList := e.m_precursorList ++ [id] }) ∧
    (id ∈ e.m_precursorList →
      (e.InsertPrecursor id).1 = false ∧ (e.InsertPrecursor id).2 = e) := by
  refine ⟨fun h => runPrecursorOps_nodup ops e (h ▸ List.nodup_nil), ?_, ?_, ?_⟩
  · unfold RoutingTableEntry.InsertPrecursor RoutingTableEntry.LookupPrecursor
    by_cases h : id ∈ e.m_precursorList
    · simp [h, (lookupPrecursorLoop_iff id _).mpr h]
    · have : lookupPrecursorLoop id e.m_precursorList = false := by
        rw [← Bool.not_eq_true, lookupPrecursorLoop_iff]; exact h
      simp [h, this]
  · intro h
    have : lookupPrecursorLoop id e.m_precursorList = false := by
      rw [← Bool.not_eq_true, lookupPrecursorLoop_iff]; exact h
    simp [RoutingTableEntry.InsertPrecursor, RoutingTableEntry.LookupPrecursor, this]
  · intro h
    simp [RoutingTableEntry.InsertPrecursor, RoutingTableEntry.LookupPrecursor,
      (lookupPrecursorLoop_iff id _).mpr h]

/-- C11 on a concrete run from `exampleEntry` (empty precursor list): inserting 7, 8, 7 again,
deleting 9 and inserting 8 again leaves the list 7, 8; inserting 7 a second time returns
false. -/
theorem C11_precursors_nodup_witness :
    (runPrecursorOps (exampleEntry 1 VALID 5 3)
      [.insertPrecursor 7, .insertPrecursor 8, .insertPrecursor 7, .deletePrecursor 9,
       .insertPrecursor 8]).m_precursorList.Nodup ∧
    (runPrecursorOps (exampleEntry 1 VALID 5 3)
      [.insertPrecursor 7, .insertPrecursor 8, .insertPrecursor 7, .deletePrecursor 9,
       .insertPrecursor 8]).m_precursorList = [7, 8] ∧
    (((exampleEntry 1 VALID 5 3).InsertPrecursor 7).2.InsertPrecursor 7).1 = false :=
  ⟨(C11_precursors_nodup (exampleEntry 1 VALID 5 3)
      [.insertPrecursor 7, .insertPrecursor 8, .insertPrecursor 7, .deletePrecursor 9,
       .insertPrecursor 8] 7).1 (by decide), by decide,
   ((C11_precursors_nodup ((exampleEntry 1 VALID 5 3).InsertPrecursor 7).2 [] 7).2.2.2
      (by decide)).1⟩

/-! ## C12: DeletePrecursor -/

/-- C12: `DeletePrecursor` returns true exactly when the address was in the precursor list
before the call. Afterwards `LookupPrecursor` of the address is false, every other address is
found exactly when it was found before, and the list is the list before without the
occurrences of the address, the other addresses keeping their relative order; no other field
changes. When it returns false the entry is unchanged. -/
theorem C12_deletePrecursor (e : RoutingTableEntry) (id : Ipv4Address) :
    ((e.DeletePrecursor id).1 = true ↔ id ∈ e.m_precursorList) ∧
    (e.DeletePrecursor id).2.LookupPrecursor id = false ∧
    (∀ a, a ≠ id → (e.DeletePrecursor id).2.LookupPrecursor a = e.LookupPrecursor a) ∧
    (e.DeletePrecursor id).2 =
      { e with m_precursorList := e.m_precursorList.filter (fun x => x ≠ id) } ∧
    (e.DeletePrecursor id).2.m_precursorList.Sublist e.m_precursorList ∧
    ((e.DeletePrecursor id).1 = false → (e.DeletePrecursor id).2 = e) := by
  have hlist := deletePrecursor_list e id
  have hres : (e.DeletePrecursor id).1 = true ↔ id ∈ e.m_precursorList := by
    simp only [RoutingTableEntry.DeletePrecursor]
    split
    · rename_i h
      simpa using (stdRemove_length_eq_iff id _).mp h
    · rename_i h
      have : ¬ id ∉ e.m_precursorList := fun hn => h ((stdRemove_length_eq_iff id _).mpr hn)
      simpa using this
  have hstruct : (e.DeletePrecursor id).2 =
      { e with m_precursorList := e.m_precursorList.filter (fun x => x ≠ id) } := by
    simp only [RoutingTableEntry.DeletePrecursor]
    split
    · rename_i h
      have := stdRemove_eq_self id _ ((stdRemove_length_eq_iff id _).mp h)
      unfold stdRemove at this
      rw [this]
    · rfl
  refine ⟨hres, ?_, ?_, hstruct, ?_, ?_⟩
  · rw [← Bool.not_eq_true]
    unfold RoutingTableEntry.LookupPrecursor
    rw [lookupPrecursorLoop_iff, hlist]
    simp
  · intro a ha
    unfold RoutingTableEntry.LookupPrecursor
    rw [Bool.eq_iff_iff, lookupPrecursorLoop_iff, lookupPrecursorLoop_iff, hlist]
    simp [ha]
  · rw [hlist]
    exact List.filter_sublist _
  · intro h
    simp only [RoutingTableEntry.DeletePrecursor] at h ⊢
    split at h
    · rename_i hl
      simp [hl]
    · simp at h

/-- C12 on a concrete entry with precursors 7, 8, 9: deleting 8 returns true and leaves 7, 9;
deleting the absent 5 returns false and leaves the entry as it was. -/
theorem C12_deletePrecursor_witness :
    ((runPrecursorOps (exampleEntry 1 VALID 5 3)
      [.insertPrecursor 7, .insertPrecursor 8, .insertPrecursor 9]).DeletePrecursor
        8).2.m_precursorList = [7, 9] ∧
    ((runPrecursorOps (exampleEntry 1 VALID 5 3)
      [.insertPrecursor 7, .insertPrecursor 8, .insertPrecursor 9]).DeletePrecursor 5).2 =
      runPrecursorOps (exampleEntry 1 VALID 5 3)
        [.insertPrecursor 7, .insertPrecursor 8, .insertPrecursor 9] :=
  ⟨by decide,
   (C12_deletePrecursor (runPrecursorOps (exampleEntry 1 VALID 5 3)
      [.insertPrecursor 7, .insertPrecursor 8, .insertPrecursor 9]) 5).2.2.2.2.2 (by decide)⟩

/-! ## C13: an empty result means no candidate -/

/-- C13: for every table, time, target position, epsilon, minPts and every interpretation of
the floating-point operations, the neighbour selection returns the empty sequence exactly when
no entry of the purged table is an eligible candidate (address it is stored under not
broadcast, loopback, multicast or subnet-directed broadcast, flag not `INVALID`, hop count at
most 2); whenever at least one candidate exists the result is non-empty. In a table whose
entries are stored under their own destination the address tested is the destination. -/
theorem C13_empty_iff_no_candidate {K : Type} (ops : DoubleOps K) (T : RoutingTable)
    (now : Time) (dst : Ipv4Address) (positionX positionY : Nat) (epsilon : K)
    (minPts : Int) :
    ((T.DBSCAN now ops dst positionX positionY epsilon minPts).1 = [] ↔
      ∀ p ∈ (T.Purge now).m_ipv4AddressEntry, ¬ specEligible p.1 p.2) ∧
    ((∃ p ∈ (T.Purge now).m_ipv4AddressEntry, specEligible p.1 p.2) →
      (T.DBSCAN now ops dst positionX positionY epsilon minPts).1 ≠ []) ∧
    (keyedByDestination T.m_ipv4AddressEntry →
      ((T.DBSCAN now ops dst positionX positionY epsilon minPts).1 = [] ↔
        ∀ p ∈ (T.Purge now).m_ipv4AddressEntry, ¬ specEligible p.2.GetDestination p.2)) := by
  have hiff : (T.DBSCAN now ops dst positionX positionY epsilon minPts).1 = [] ↔
      ∀ p ∈ (T.Purge now).m_ipv4AddressEntry, ¬ specEligible p.1 p.2 := by
    simp only [RoutingTable.DBSCAN, clusterAndSelect_eq_nil_iff]
    rw [← List.length_eq_zero, extractPoints_length, List.length_eq_zero,
      List.filter_eq_nil_iff]
    constructor
    · intro h p hp hs
      exact h p hp ((isCandidate_iff p).mpr hs)
    · intro h p hp hc
      exact h p hp ((isCandidate_iff p).mp hc)
  refine ⟨hiff, ?_, ?_⟩
  · rintro ⟨p, hp, hs⟩ hnil
    exact hiff.mp hnil p hp hs
  · intro hk
    have hkp : keyedByDestination (T.Purge now).m_ipv4AddressEntry := by
      rw [purge_entries]
      exact purgeLoop_keyed _ now _ hk
    rw [hiff]
    constructor
    · intro h p hp
      rw [← hkp p hp]
      exact h p hp
    · intro h p hp
      rw [hkp p hp]
      exact h p hp

/-- C13 at `pairsTable` and at the table with only an `INVALID` entry: the first has eligible
candidates and the result is not empty, the second has none and the result is empty. -/
theorem C13_empty_iff_no_candidate_witness :
    (pairsTable.DBSCAN 0 f64Ops 0 0 0 (F64.ofRat (1 / 2)) 2).1 ≠ [] ∧
    ((RoutingTable.mk [(2, exampleEntry 2 INVALID 50 0)] 7).DBSCAN 0 f64Ops 0 0 0
      (F64.ofRat (1 / 2)) 2).1 = [] :=
  ⟨(C13_empty_iff_no_candidate f64Ops pairsTable 0 0 0 0 (F64.ofRat (1 / 2)) 2).2.1
      ⟨(1, exampleNeighbor 1 3 4 0 100), by decide, by decide⟩,
   (C13_empty_iff_no_candidate f64Ops (RoutingTable.mk [(2, exampleEntry 2 INVALID 50 0)] 7)
      0 0 0 0 (F64.ofRat (1 / 2)) 2).1.mpr (by decide)⟩

/-! ## C14: the fallback to all candidates -/

/-- C14: for every table, time, target position, epsilon and every interpretation of the
floating-point operations, whenever no candidate has at least minPts other candidates within
epsilon, in particular whenever minPts is greater than the number of eligible candidates, the
neighbour selection returns the addresses of all candidates of step 1, in table iteration
order; in a table without duplicate keys each address occurs exactly once. -/
theorem C14_fallback {K : Type} (ops : DoubleOps K) (T : RoutingTable) (now : Time)
    (dst : Ipv4Address) (positionX positionY : Nat) (epsilon : K) (minPts : Int) :
    ((∀ i, i < ((T.Purge now).m_ipv4AddressEntry.filter isCandidate).length →
        ((regionQuery ops
          (normalize ops (extractPoints ops positionX positionY (T.Purge now).m_ipv4AddressEntry))
          epsilon i).length : Int) < minPts) →
      (T.DBSCAN now ops dst positionX positionY epsilon minPts).1 =
        ((T.Purge now).m_ipv4AddressEntry.filter isCandidate).map Prod.fst) ∧
    ((((T.Purge now).m_ipv4AddressEntry.filter isCandidate).length : Int) < minPts →
      (T.DBSCAN now ops dst positionX positionY epsilon minPts).1 =
        ((T.Purge now).m_ipv4AddressEntry.filter isCandidate).map Prod.fst) ∧
    ((mapKeys T.m_ipv4AddressEntry).Nodup →
      (((T.Purge now).m_ipv4AddressEntry.filter isCandidate).map Prod.fst).Nodup) := by
  have hgen : (∀ i, i < ((T.Purge now).m_ipv4AddressEntry.filter isCandidate).length →
        ((regionQuery ops
          (normalize ops (extractPoints ops positionX positionY (T.Purge now).m_ipv4AddressEntry))
          epsilon i).length : Int) < minPts) →
      (T.DBSCAN now ops dst positionX positionY epsilon minPts).1 =
        ((T.Purge now).m_ipv4AddressEntry.filter isCandidate).map Prod.fst := by
    intro h
    simp only [RoutingTable.DBSCAN]
    rw [clusterAndSelect_all_noise, extractPoints_ip]
    intro i hi
    rw [extractPoints_length] at hi
    exact h i hi
  refine ⟨hgen, ?_, ?_⟩
  · intro hlt
    apply hgen
    intro i hi
    have hi' : i < (normalize ops
        (extractPoints ops positionX positionY (T.Purge now).m_ipv4AddressEntry)).length := by
      rw [normalize_length, extractPoints_length]; exact hi
    have h1 := regionQuery_length_lt ops _ epsilon i hi'
    rw [normalize_length, extractPoints_length] at h1
    have h2 : ((regionQuery ops (normalize ops
        (extractPoints ops positionX positionY (T.Purge now).m_ipv4AddressEntry))
        epsilon i).length : Int) <
        (((T.Purge now).m_ipv4AddressEntry.filter isCandidate).length : Int) := by
      exact_mod_cast h1
    exact lt_trans h2 hlt
  · intro hnd
    have hsub : (((T.Purge now).m_ipv4AddressEntry.filter isCandidate).map Prod.fst).Sublist
        (mapKeys T.m_ipv4AddressEntry) := by
      refine List.Sublist.trans ((List.filter_sublist _).map Prod.fst) ?_
      rw [purge_entries]
      exact purgeLoop_keys_sublist _ now _
    exact hnd.sublist hsub

/-- C14 at `pairsTable`: with minPts 5, more than the four candidates, and with minPts 2 and
epsilon one half, where every candidate has a single neighbour, all four addresses are
returned in table order. -/
theorem C14_fallback_witness :
    (pairsTable.DBSCAN 0 f64Ops 0 0 0 (F64.ofNat 2) 5).1 = [1, 2, 3, 4] ∧
    (pairsTable.DBSCAN 0 f64Ops 0 0 0 (F64.ofRat (1 / 2)) 2).1 = [1, 2, 3, 4] :=
  ⟨((C14_fallback f64Ops pairsTable 0 0 0 0 (F64.ofNat 2) 5).2.1 (by decide)).trans
      (by decide),
   ((C14_fallback f64Ops pairsTable 0 0 0 0 (F64.ofRat (1 / 2)) 2).1 (by decide!)).trans
      (by decide)⟩

/-! ## C15: the best cluster -/

/-- C15, in binary64 arithmetic, for a table with fewer than 2 ^ 53 entries whose entries hold
32 bit values and a target with 32 bit coordinates: whenever the clustering step forms at
least one cluster, some point carries a cluster id, and then the routine returns exactly the
addresses of the members of one cluster, in index order; the score of that cluster, as the
routine computes it from the mean of the normalized features of its members and (0, 0, 1), is
minimal over all clusters (`<=` holds against every score), and every cluster with an equal
score (`!=` does not hold) has a cluster id at least as large. The members are not empty, so
the fallback to all candidates is not taken. Every score is a number from 0 to 3, so the
comparisons are not those of a NaN and the first score is below 1e18. -/
theorem C15_best_cluster (T : RoutingTable) (now : Time) (dst : Ipv4Address)
    (positionX positionY : Nat) (epsilon : F64) (minPts : Int)
    (hT : uint32Fields T.m_ipv4AddressEntry) (hn : T.m_ipv4AddressEntry.length < 2 ^ 53)
    (hX : positionX < 2 ^ 32) (hY : positionY < 2 ^ 32) :
    (0 < (clusterLoop f64Ops (dbscanPoints f64Ops T now positionX positionY) epsilon
        minPts).2 →
      dbscanClusters f64Ops T now positionX positionY epsilon minPts ≠ []) ∧
    (dbscanClusters f64Ops T now positionX positionY epsilon minPts ≠ [] →
      ∃ x ∈ dbscanClusters f64Ops T now positionX positionY epsilon minPts,
        x.2 ≠ [] ∧
        x.2 = (List.range (dbscanPoints f64Ops T now positionX positionY).length).filter
          (fun i => (dbscanLabels f64Ops T now positionX positionY epsilon
            minPts).getD i UNVISITED = x.1) ∧
        (T.DBSCAN now f64Ops dst positionX positionY epsilon minPts).1 =
          x.2.map (fun idx =>
            (pointAt f64Ops (dbscanPoints f64Ops T now positionX positionY) idx).ip) ∧
        (∀ y ∈ dbscanClusters f64Ops T now positionX positionY epsilon minPts,
          F64.le (clusterScore f64Ops (dbscanPoints f64Ops T now positionX positionY) x.2)
            (clusterScore f64Ops (dbscanPoints f64Ops T now positionX positionY) y.2) =
            true) ∧
        (∀ y ∈ dbscanClusters f64Ops T now positionX positionY epsilon minPts,
          F64.ne (clusterScore f64Ops (dbscanPoints f64Ops T now positionX positionY) y.2)
            (clusterScore f64Ops (dbscanPoints f64Ops T now positionX positionY) x.2) =
            false →
          x.1 ≤ y.1)) ∧
    (∀ y ∈ dbscanClusters f64Ops T now positionX positionY epsilon minPts,
      F64.le (F64.ofNat 0)
          (clusterScore f64Ops (dbscanPoints f64Ops T now positionX positionY) y.2) = true ∧
        F64.le (clusterScore f64Ops (dbscanPoints f64Ops T now positionX positionY) y.2)
          (F64.ofNat 3) = true) := by
  have hpts := dbscanPoints_inRange T now positionX positionY hX hY hT
  have hlen : (dbscanPoints f64Ops T now positionX positionY).length < 2 ^ 53 :=
    lt_of_le_of_lt (dbscanPoints_length_le f64Ops T now positionX positionY) hn
  refine ⟨?_, ?_, ?_⟩
  · intro h
    exact clusterMembers_ne_nil_of_clusters _ _ _ _ h
  · intro h
    rw [dbscan_eq_selectOutput _ _ _ _ _ _ _ _ h]
    exact best_cluster_spec_f64 _ hpts hlen _ h
  · intro y hy
    obtain ⟨h1, h2⟩ := members_length_le _ _ y hy
    exact F64.inRange_le 3 (by norm_num) _
      (clusterScore_f64 _ hpts y.2 h1 (lt_of_le_of_lt h2 hlen))

/-- C15 at `pairsTable` seen from the origin with epsilon one half and minPts 1: two clusters
form, 1 and 2 with score 0 and 3 and 4 with score 3, and the result is the addresses 1 and 2.
At `thirdsTable` with epsilon 0 and minPts 0 every point is a cluster; the scores of the
first and the second are both four ninths before rounding, in binary64 the second is the
smaller one, and the result is the address 2. -/
theorem C15_best_cluster_witness :
    dbscanClusters f64Ops pairsTable 0 0 0 (F64.ofRat (1 / 2)) 1 =
      [(0, [0, 1]), (1, [2, 3])] ∧
    clusterScore f64Ops (dbscanPoints f64Ops pairsTable 0 0 0) [0, 1] = F64.ofNat 0 ∧
    clusterScore f64Ops (dbscanPoints f64Ops pairsTable 0 0 0) [2, 3] = F64.ofNat 3 ∧
    (pairsTable.DBSCAN 0 f64Ops 0 0 0 (F64.ofRat (1 / 2)) 1).1 = [1, 2] ∧
    (∃ x ∈ dbscanClusters f64Ops pairsTable 0 0 0 (F64.ofRat (1 / 2)) 1,
      (pairsTable.DBSCAN 0 f64Ops 0 0 0 (F64.ofRat (1 / 2)) 1).1 =
        x.2.map (fun idx =>
          (pointAt f64Ops (dbscanPoints f64Ops pairsTable 0 0 0) idx).ip)) ∧
    dbscanClusters f64Ops thirdsTable 0 0 0 (F64.ofNat 0) 0 = [(0, [0]), (1, [1]), (2, [2])] ∧
    F64.lt (clusterScore f64Ops (dbscanPoints f64Ops thirdsTable 0 0 0) [1])
      (clusterScore f64Ops (dbscanPoints f64Ops thirdsTable 0 0 0) [0]) = true ∧
    (thirdsTable.DBSCAN 0 f64Ops 0 0 0 (F64.ofNat 0) 0).1 = [2] :=
  ⟨by decide!, by decide!, by decide!, by decide!,
   ((C15_best_cluster pairsTable 0 0 0 0 (F64.ofRat (1 / 2)) 1 (by decide) (by decide)
      (by decide) (by decide)).2.1 (by decide!)).elim (fun x h => ⟨x, h.1, h.2.2.2.1⟩),
   by decide!, by decide!, by decide!⟩

/-! ## C16: the normalization -/

/-- C16, in binary64 arithmetic, for the points extracted from a table whose entries hold
32 bit values, seen from a target with 32 bit coordinates, when there is at least one, and
for each of the 3 dimensions: with `mn` and `mx` the least and the greatest value of the
points on that dimension, normalization gives every point the value (v - mn) / (mx - mn),
each operation rounded, when `mx` differs from `mn`, and 0 otherwise; every normalized value
lies between 0 and 1; if all points have an equal value on the dimension, every normalized
value on it is 0 and the dimension adds 0 to the squared distance between any two points. -/
theorem C16_normalization (positionX positionY : Nat) (m : EntryMap) (p0 : FeaturePoint F64)
    (rest : List (FeaturePoint F64)) (d : Fin 3) (hm : uint32Fields m)
    (hX : positionX < 2 ^ 32) (hY : positionY < 2 ^ 32)
    (hpts : extractPoints f64Ops positionX positionY m = p0 :: rest) :
    ∃ mn mx : F64,
      (∃ p ∈ p0 :: rest, p.f d = mn) ∧ (∃ p ∈ p0 :: rest, p.f d = mx) ∧
      (∀ p ∈ p0 :: rest, F64.le mn (p.f d) = true ∧ F64.le (p.f d) mx = true) ∧
      (normalize f64Ops (p0 :: rest)).map (fun p => p.f d) =
        (p0 :: rest).map (fun p =>
          if F64.ne mx mn = true then F64.div (F64.sub (p.f d) mn) (F64.sub mx mn)
          else F64.ofNat 0) ∧
      (∀ p ∈ normalize f64Ops (p0 :: rest),
        F64.le (F64.ofNat 0) (p.f d) = true ∧ F64.le (p.f d) (F64.ofNat 1) = true) ∧
      ((∀ p ∈ p0 :: rest, F64.ne (p.f d) (p0.f d) = false) →
        ∀ p ∈ normalize f64Ops (p0 :: rest), p.f d = F64.ofNat 0 ∧
          ∀ q ∈ normalize f64Ops (p0 :: rest),
            F64.mul (F64.sub (p.f d) (q.f d)) (F64.sub (p.f d) (q.f d)) = F64.ofNat 0) := by
  have hin : featuresInRange (2 ^ (66 : Int)) (p0 :: rest) := by
    rw [← hpts]
    exact extractPoints_inRange positionX positionY m hX hY hm
  have hB : (2 : ℚ) ^ (66 : Int) ≤ 2 ^ (1023 : Int) :=
    zpow_le_zpow_right₀ (by norm_num) (by norm_num)
  have hcolmem : ∀ v, v ∈ p0.f d :: rest.map (fun p => p.f d) ↔
      ∃ p ∈ p0 :: rest, p.f d = v := by
    intro v
    have : p0.f d :: rest.map (fun p => p.f d) = (p0 :: rest).map (fun p => p.f d) := rfl
    rw [this, List.mem_map]
  have hcol : ∀ w ∈ p0.f d :: rest.map (fun p => p.f d), F64.InRange (2 ^ (66 : Int)) w := by
    intro w hw
    obtain ⟨q, hq, hqw⟩ := (hcolmem w).mp hw
    rw [← hqw]
    exact hin q hq d
  have hmin := foldl_stdMin_f64 (rest.map (fun p => p.f d)) (p0.f d)
    (fun w hw => (hcol w hw).1)
  have hmax := foldl_stdMax_f64 (rest.map (fun p => p.f d)) (p0.f d)
    (fun w hw => (hcol w hw).1)
  have hnv : ∀ p ∈ p0 :: rest, _ := fun p hp =>
    normalizeValue_f64 (2 ^ (66 : Int)) hB _ _ (p.f d) (hcol _ hmin.1) (hcol _ hmax.1)
      (hin p hp d) (hmin.2 _ ((hcolmem _).mpr ⟨p, hp, rfl⟩))
      (hmax.2 _ ((hcolmem _).mpr ⟨p, hp, rfl⟩))
  have hnorm := normalize_column_ops f64Ops p0 rest d
  have hone := normalize_inRange (2 ^ (66 : Int)) hB (p0 :: rest) hin
  have hzero : (∀ p ∈ p0 :: rest, F64.ne (p.f d) (p0.f d) = false) →
      ∀ p ∈ normalize f64Ops (p0 :: rest), p.f d = F64.ofNat 0 := by
    intro hall p hp
    have hmem : p.f d ∈ (normalize f64Ops (p0 :: rest)).map (fun p => p.f d) :=
      List.mem_map.mpr ⟨p, hp, rfl⟩
    rw [hnorm, List.mem_map] at hmem
    obtain ⟨v, hv, hpv⟩ := hmem
    obtain ⟨q, hq, hqv⟩ := List.mem_map.mp hv
    obtain ⟨a, ha, hamin⟩ := (hcolmem _).mp hmin.1
    obtain ⟨b, hb, hbmax⟩ := (hcolmem _).mp hmax.1
    have h0 := hin p0 (List.mem_cons_self _ _) d
    have ea := hall a ha
    have eb := hall b hb
    rw [F64.ne_rep _ _ (hin a ha d).1 h0.1] at ea
    rw [F64.ne_rep _ _ (hin b hb d).1 h0.1] at eb
    simp only [ne_eq, decide_not, Bool.not_eq_false', decide_eq_true_eq] at ea eb
    have hne : F64.ne (b.f d) (a.f d) = false := by
      rw [F64.ne_rep _ _ (hin b hb d).1 (hin a ha d).1, eb, ea]
      simp
    rw [← hpv, ← hqv, (hnv q hq).1, ← hamin, ← hbmax, hne]
    simp
  refine ⟨_, _, (hcolmem _).mp hmin.1, (hcolmem _).mp hmax.1, ?_, ?_, ?_, ?_⟩
  · intro p hp
    have hv := (hcolmem (p.f d)).mpr ⟨p, hp, rfl⟩
    rw [F64.le_rep _ _ (hcol _ hmin.1).1 (hin p hp d).1,
      F64.le_rep _ _ (hin p hp d).1 (hcol _ hmax.1).1]
    simp only [decide_eq_true_eq]
    exact ⟨hmin.2 _ hv, hmax.2 _ hv⟩
  · rw [hnorm, List.map_map]
    apply List.map_congr_left
    intro p hp
    simp only [Function.comp_apply]
    exact (hnv p hp).1
  · intro p hp
    have := F64.inRange_le 1 (by norm_num) _ (by simpa using hone p hp d)
    exact this
  · intro hall p hp
    refine ⟨hzero hall p hp, fun q hq => ?_⟩
    rw [hzero hall p hp, hzero hall q hq]
    exact F64.sq_zero

/-- C16 on the points of `pairsTable` seen from the origin, where the distances 5, 5, 500,
500 are normalized to 0, 0, 1, 1, and on the points of `thirdsTable`, where the
transmission-error counts 0, 2, 3 are normalized to 0, the `double` nearest to two thirds,
and 1; the normalized values of `thirdsTable` in the second dimension lie between 0 and 1. -/
theorem C16_normalization_witness :
    (normalize f64Ops (extractPoints f64Ops 0 0 pairsTable.m_ipv4AddressEntry)).map
      (fun p => p.f 0) = [F64.ofNat 0, F64.ofNat 0, F64.ofNat 1, F64.ofNat 1] ∧
    (normalize f64Ops (extractPoints f64Ops 0 0 thirdsTable.m_ipv4AddressEntry)).map
      (fun p => p.f 1) =
      [F64.ofNat 0, F64.fin false (6004799503160661 / 9007199254740992), F64.ofNat 1] ∧
    ∀ p ∈ normalize f64Ops
        (featurePoint f64Ops 0 0 (1, exampleNeighbor 1 0 0 0 1) ::
          [featurePoint f64Ops 0 0 (2, exampleNeighbor 2 0 0 2 3),
            featurePoint f64Ops 0 0 (3, exampleNeighbor 3 0 0 3 0)]),
      F64.le (F64.ofNat 0) (p.f 1) = true ∧ F64.le (p.f 1) (F64.ofNat 1) = true :=
  ⟨by decide!, by decide!,
   (C16_normalization 0 0 thirdsTable.m_ipv4AddressEntry
      (featurePoint f64Ops 0 0 (1, exampleNeighbor 1 0 0 0 1))
      [featurePoint f64Ops 0 0 (2, exampleNeighbor 2 0 0 2 3),
        featurePoint f64Ops 0 0 (3, exampleNeighbor 3 0 0 3 0)] 1 (by decide) (by decide)
      (by decide) rfl).elim
      (fun _ h => h.elim (fun _ h => h.2.2.2.2.1))⟩

/-! ## C17: two pairs of candidates -/

/-- C17 fails as stated. In `pairsTable` seen from the origin the four candidates form two
pairs, and with epsilon one half each candidate has exactly its partner within epsilon; with
minPts 2 the neighbourhood, which does not count the point itself, is too small for every
candidate: all four are labelled noise, no cluster forms and the output is all four
addresses, not the pair 1, 2. With minPts 1 two clusters form, but the winner need not be
the pair with fewer transmission errors and more free capacity: in `farPairsTable` that pair
(1, 2) is farther from the target and the output is the other pair (3, 4). All values are
those of binary64 arithmetic. -/
theorem C17_two_pairs_counterexample :
    (List.range 4).map
      (regionQuery f64Ops (dbscanPoints f64Ops pairsTable 0 0 0) (F64.ofRat (1 / 2))) =
      [[1], [0], [3], [2]] ∧
    clusterLoop f64Ops (dbscanPoints f64Ops pairsTable 0 0 0) (F64.ofRat (1 / 2)) 2 =
      ([NOISE, NOISE, NOISE, NOISE], 0) ∧
    (pairsTable.DBSCAN 0 f64Ops 0 0 0 (F64.ofRat (1 / 2)) 2).1 = [1, 2, 3, 4] ∧
    (pairsTable.DBSCAN 0 f64Ops 0 0 0 (F64.ofRat (1 / 2)) 2).1 ≠ [1, 2] ∧
    (List.range 4).map
      (regionQuery f64Ops (dbscanPoints f64Ops farPairsTable 0 0 0) (F64.ofRat (19 / 20))) =
      [[1], [0], [3], [2]] ∧
    dbscanClusters f64Ops farPairsTable 0 0 0 (F64.ofRat (19 / 20)) 1 =
      [(0, [0, 1]), (1, [2, 3])] ∧
    (farPairsTable.DBSCAN 0 f64Ops 0 0 0 (F64.ofRat (19 / 20)) 1).1 = [3, 4] := by
  decide!

/-- C17 (amended), in binary64 arithmetic, for a table whose entries hold 32 bit values and a
target with 32 bit coordinates: when the table has 4 eligible entries, the first two and the
last two in table order forming two pairs, and epsilon is such that each candidate has
exactly its partner within epsilon, then with minPts 2 all four candidates are labelled noise
and the output is all four addresses; with minPts 1 the clustering forms two clusters of size
2 each, the pair with the smaller score wins (the first pair when the score of the second is
not smaller), and the output is exactly that pair's two addresses. -/
theorem C17_two_pairs_amended (T : RoutingTable) (now : Time) (dst : Ipv4Address)
    (positionX positionY : Nat) (epsilon : F64)
    (hT : uint32Fields T.m_ipv4AddressEntry)
    (hX : positionX < 2 ^ 32) (hY : positionY < 2 ^ 32)
    (hlen : ((T.Purge now).m_ipv4AddressEntry.filter isCandidate).length = 4)
    (h0 : regionQuery f64Ops (dbscanPoints f64Ops T now positionX positionY) epsilon 0 = [1])
    (h1 : regionQuery f64Ops (dbscanPoints f64Ops T now positionX positionY) epsilon 1 = [0])
    (h2 : regionQuery f64Ops (dbscanPoints f64Ops T now positionX positionY) epsilon 2 = [3])
    (h3 : regionQuery f64Ops (dbscanPoints f64Ops T now positionX positionY) epsilon 3 =
      [2]) :
    dbscanLabels f64Ops T now positionX positionY epsilon 2 = [NOISE, NOISE, NOISE, NOISE] ∧
    (T.DBSCAN now f64Ops dst positionX positionY epsilon 2).1 =
      ((T.Purge now).m_ipv4AddressEntry.filter isCandidate).map Prod.fst ∧
    dbscanClusters f64Ops T now positionX positionY epsilon 1 = [(0, [0, 1]), (1, [2, 3])] ∧
    (T.DBSCAN now f64Ops dst positionX positionY epsilon 1).1 =
      if F64.lt (clusterScore f64Ops (dbscanPoints f64Ops T now positionX positionY) [2, 3])
          (clusterScore f64Ops (dbscanPoints f64Ops T now positionX positionY) [0, 1]) =
          true then
        (((T.Purge now).m_ipv4AddressEntry.filter isCandidate).map Prod.fst).drop 2
      else (((T.Purge now).m_ipv4AddressEntry.filter isCandidate).map Prod.fst).take 2 := by
  have hlen' : (dbscanPoints f64Ops T now positionX positionY).length = 4 := by
    rw [dbscanPoints_length]; exact hlen
  have hpts := dbscanPoints_inRange T now positionX positionY hX hY hT
  have hnoise := two_pairs_noise _ _ epsilon hlen' h0 h1 h2 h3
  have hcl := two_pairs_clusters _ _ epsilon hlen' h0 h1 h2 h3
  have hcm : dbscanClusters f64Ops T now positionX positionY epsilon 1 =
      [(0, [0, 1]), (1, [2, 3])] := by
    simp only [dbscanClusters, dbscanLabels, hcl, hlen']
    decide
  refine ⟨by simp only [dbscanLabels, hnoise], ?_, hcm, ?_⟩
  · simp only [RoutingTable.DBSCAN]
    rw [clusterAndSelect_all_noise, extractPoints_ip]
    intro i hi
    rw [extractPoints_length, hlen] at hi
    have hq : ∀ j, j < 4 → ((regionQuery f64Ops
        (dbscanPoints f64Ops T now positionX positionY) epsilon j).length : Int) < 2 := by
      intro j hj
      interval_cases j <;> simp [h0, h1, h2, h3]
    exact hq i hi
  · rw [dbscan_eq_selectOutput _ _ _ _ _ _ _ _ (by rw [hcm]; simp), hcm,
      ← dbscanPoints_ip f64Ops T now positionX positionY]
    exact two_pairs_select_f64 _ hpts hlen'

/-- C17 (amended) at `pairsTable` seen from the origin with epsilon one half: both pairs are
equally tight, the pair 1, 2 has fewer transmission errors and more free capacity and is
nearer to the target; with minPts 1 the output is that pair, with minPts 2 it is all four
addresses. -/
theorem C17_two_pairs_amended_witness :
    (pairsTable.DBSCAN 0 f64Ops 0 0 0 (F64.ofRat (1 / 2)) 2).1 = [1, 2, 3, 4] ∧
    (pairsTable.DBSCAN 0 f64Ops 0 0 0 (F64.ofRat (1 / 2)) 1).1 = [1, 2] :=
  ⟨((C17_two_pairs_amended pairsTable 0 0 0 0 (F64.ofRat (1 / 2)) (by decide) (by decide)
      (by decide) (by decide) (by decide!) (by decide!) (by decide!) (by decide!)).2.1).trans
      (by decide),
   ((C17_two_pairs_amended pairsTable 0 0 0 0 (F64.ofRat (1 / 2)) (by decide) (by decide)
      (by decide) (by decide) (by decide!) (by decide!) (by decide!) (by decide!)).2.2.2).trans
      (by decide!)⟩

/-! ## C18: a single entry -/

/-- C18: for a table holding a single entry that is not expired and eligible (flag not
`INVALID`, so in particular a `VALID` entry, hop count at most 2, address not broadcast,
loopback, multicast or subnet-directed broadcast), for every target position, epsilon, minPts
and interpretation of the floating-point operations, the neighbour selection returns exactly
the one-element sequence with the address of that entry. -/
theorem C18_single_entry {K : Type} (ops : DoubleOps K) (badLinkLifetime now : Time)
    (k : Ipv4Address) (e : RoutingTableEntry) (dst : Ipv4Address) (positionX positionY : Nat)
    (epsilon : K) (minPts : Int) (hlife : ¬ e.m_lifeTime < now) (helig : specEligible k e) :
    ((RoutingTable.mk [(k, e)] badLinkLifetime).DBSCAN now ops dst positionX positionY epsilon
      minPts).1 = [k] := by
  have hc : isCandidate (k, e) = true := (isCandidate_iff (k, e)).mpr helig
  simp only [RoutingTable.DBSCAN, purge_single_valid badLinkLifetime now k e hlife]
  have hsub := clusterAndSelect_sublist ops
    (extractPoints ops positionX positionY [(k, e)]) epsilon minPts
  have hne : clusterAndSelect ops (extractPoints ops positionX positionY [(k, e)])
      epsilon minPts ≠ [] := by
    rw [Ne, clusterAndSelect_eq_nil_iff, ← List.length_eq_zero, extractPoints_length]
    simp [hc]
  rw [extractPoints_ip] at hsub
  simp only [List.filter_cons, hc, if_true, List.filter_nil, List.map_cons, List.map_nil]
    at hsub
  rcases List.sublist_singleton.mp hsub with h | h
  · exact absurd h hne
  · exact h

/-- C18 at the table with the single entry for destination 1 of `pairsTable`: the result is
that address, with minPts 2 (noise fallback) as with minPts 0 (a cluster of one). -/
theorem C18_single_entry_witness :
    ((RoutingTable.mk [(1, exampleNeighbor 1 3 4 0 100)] 7).DBSCAN 0 f64Ops 0 0 0
      (F64.ofRat (1 / 2)) 2).1 = [1] ∧
    ((RoutingTable.mk [(1, exampleNeighbor 1 3 4 0 100)] 7).DBSCAN 0 f64Ops 0 0 0
      (F64.ofRat (1 / 2)) 0).1 = [1] :=
  ⟨C18_single_entry f64Ops 7 0 1 (exampleNeighbor 1 3 4 0 100) 0 0 0 (F64.ofRat (1 / 2)) 2
      (by decide) (by decide),
   C18_single_entry f64Ops 7 0 1 (exampleNeighbor 1 3 4 0 100) 0 0 0 (F64.ofRat (1 / 2)) 0
      (by decide) (by decide)⟩

/-! ## C19: the neighbour selection changes the table by a purge only -/

/-- C19: for every table, time and arguments, the table after the neighbour selection equals
the table after `Purge` alone, and a second call at the same instant with the same arguments
returns the same sequence as the first. -/
theorem C19_only_purges {K : Type} (ops : DoubleOps K) (T : RoutingTable) (now : Time)
    (dst : Ipv4Address) (positionX positionY : Nat) (epsilon : K) (minPts : Int) :
    (T.DBSCAN now ops dst positionX positionY epsilon minPts).2 = T.Purge now ∧
    ((T.DBSCAN now ops dst positionX positionY epsilon minPts).2.DBSCAN now ops dst positionX
      positionY epsilon minPts).1 =
      (T.DBSCAN now ops dst positionX positionY epsilon minPts).1 := by
  refine ⟨rfl, ?_⟩
  simp only [RoutingTable.DBSCAN, extractPoints_purge_purge]

/-- C19 at `exampleTable` with the negative bad-link lifetime -7 and time 10, where a second
`Purge` removes the entry the first one invalidated: the second call still returns the
addresses of the first. -/
theorem C19_only_purges_witness :
    (((RoutingTable.mk exampleTable.m_ipv4AddressEntry (-7)).DBSCAN 10 f64Ops 0 0 0
      (F64.ofRat (1 / 2)) 2).2.DBSCAN 10 f64Ops 0 0 0 (F64.ofRat (1 / 2)) 2).1 = [3, 4] ∧
    ((RoutingTable.mk exampleTable.m_ipv4AddressEntry (-7)).DBSCAN 10 f64Ops 0 0 0
      (F64.ofRat (1 / 2)) 2).1 = [3, 4] :=
  ⟨((C19_only_purges f64Ops (RoutingTable.mk exampleTable.m_ipv4AddressEntry (-7)) 10 0 0 0
      (F64.ofRat (1 / 2)) 2).2).trans (by decide!), by decide!⟩

/-! ## C20: the non-mutating purge -/

/-- C20: for every table, bad-link lifetime and time, the non-mutating `Purge` applied to a
copy of the table's map yields exactly the map the mutating `Purge` leaves in the table; it
returns only that map, so the table itself is unchanged. `Print` writes one line per entry of
the purged table, in order, and leaves the table as it is, expired entries included. -/
theorem C20_purge_copy (T : RoutingTable) (now : Time) :
    T.PurgeTable now T.m_ipv4AddressEntry = (T.Purge now).m_ipv4AddressEntry ∧
    (∀ table, T.PurgeTable now table =
      (RoutingTable.Purge ⟨table, T.m_badLinkLifetime⟩ now).m_ipv4AddressEntry) ∧
    (T.Print now).1 = (T.Purge now).m_ipv4AddressEntry.map (fun p => p.2.Print now) ∧
    (T.Print now).2 = T := by
  refine ⟨?_, ?_, ?_, rfl⟩
  · rw [purgeTable_eq, purge_entries]
  · intro table
    rw [purgeTable_eq, purge_entries]
  · simp only [RoutingTable.Print, purgeTable_eq, purge_entries]

/-- C20 at `exampleTable` and time 10: the dump has the three lines of the purged table
(entry 1 shown as down with 7 ticks left) and the table still has its four entries. -/
theorem C20_purge_copy_witness :
    (exampleTable.Print 10).1 =
      [⟨1, 2, 10, "DOWN", 7, 1⟩, ⟨3, 2, 10, "IN_SEARCH", -5, 1⟩, ⟨4, 2, 10, "UP", 40, 1⟩] ∧
    (exampleTable.Print 10).2.m_ipv4AddressEntry.length = 4 :=
  ⟨(C20_purge_copy exampleTable 10).2.2.1.trans (by decide),
   by rw [(C20_purge_copy exampleTable 10).2.2.2]; decide⟩

/-! ## C21: which points are left as noise -/

/-- C21: after the clustering step, for every list of points, epsilon, minPts and every
interpretation of the floating-point operations, each point is labelled noise or carries a
cluster id, and it belongs to a cluster exactly when it carries a cluster id. A point is left
as noise if and only if it is not a core point (it has fewer than minPts other points within
epsilon) and lies in the neighbourhood of no core point; every core point, and every point in
the neighbourhood of a core point, ends in some cluster. When being within epsilon is
symmetric, as it is for a distance, a point is noise if and only if it has fewer than minPts
other points within epsilon and so has every point within epsilon of it. -/
theorem C21_noise_iff {K : Type} (ops : DoubleOps K) (pts : List (FeaturePoint K))
    (epsilon : K) (minPts : Int) (j : Nat) (hj : j < pts.length) :
    ((clusterLoop ops pts epsilon minPts).1.getD j UNVISITED = NOISE ∨
      0 ≤ (clusterLoop ops pts epsilon minPts).1.getD j UNVISITED) ∧
    ((∃ x ∈ clusterMembers pts.length (clusterLoop ops pts epsilon minPts).1, j ∈ x.2) ↔
      0 ≤ (clusterLoop ops pts epsilon minPts).1.getD j UNVISITED) ∧
    ((clusterLoop ops pts epsilon minPts).1.getD j UNVISITED = NOISE ↔
      ¬ isCore ops pts epsilon minPts j ∧
        ∀ c, isCore ops pts epsilon minPts c → j ∉ regionQuery ops pts epsilon c) ∧
    (isCore ops pts epsilon minPts j →
      0 ≤ (clusterLoop ops pts epsilon minPts).1.getD j UNVISITED) ∧
    (∀ c, isCore ops pts epsilon minPts c → j ∈ regionQuery ops pts epsilon c →
      0 ≤ (clusterLoop ops pts epsilon minPts).1.getD j UNVISITED) ∧
    ((∀ a b, b < pts.length → a ∈ regionQuery ops pts epsilon b →
        b ∈ regionQuery ops pts epsilon a) →
      ((clusterLoop ops pts epsilon minPts).1.getD j UNVISITED = NOISE ↔
        ((regionQuery ops pts epsilon j).length : Int) < minPts ∧
          ∀ c ∈ regionQuery ops pts epsilon j,
            ((regionQuery ops pts epsilon c).length : Int) < minPts)) := by
  obtain ⟨⟨hd1, hd2, hd3⟩, hfin⟩ := clusterLoop_density ops pts epsilon minPts
  have hcore : isCore ops pts epsilon minPts j →
      0 ≤ (clusterLoop ops pts epsilon minPts).1.getD j UNVISITED := by
    intro hc
    rcases hfin j hj with h | h
    · exact absurd hc (hd1 j h)
    · exact h
  have hnb : ∀ c, isCore ops pts epsilon minPts c → j ∈ regionQuery ops pts epsilon c →
      0 ≤ (clusterLoop ops pts epsilon minPts).1.getD j UNVISITED := by
    intro c hc hjc
    have hlc : 0 ≤ (clusterLoop ops pts epsilon minPts).1.getD c UNVISITED := by
      rcases hfin c hc.1 with h | h
      · exact absurd hc (hd1 c h)
      · exact h
    exact hd3 c hc hlc j hjc
  have hiff : (clusterLoop ops pts epsilon minPts).1.getD j UNVISITED = NOISE ↔
      ¬ isCore ops pts epsilon minPts j ∧
        ∀ c, isCore ops pts epsilon minPts c → j ∉ regionQuery ops pts epsilon c := by
    constructor
    · intro h
      have hneg : ¬ 0 ≤ (clusterLoop ops pts epsilon minPts).1.getD j UNVISITED := by
        rw [h]; decide
      exact ⟨fun hc => hneg (hcore hc), fun c hc hjc => hneg (hnb c hc hjc)⟩
    · rintro ⟨h1, h2⟩
      rcases hfin j hj with h | h
      · exact h
      · rcases hd2 j h with hc | ⟨c, hc, hjc⟩
        · exact absurd hc h1
        · exact absurd hjc (h2 c hc)
  refine ⟨hfin j hj, mem_cluster_iff _ _ j hj, hiff, hcore, hnb, ?_⟩
  intro hsym
  rw [hiff]
  constructor
  · rintro ⟨h1, h2⟩
    refine ⟨not_le.mp (fun h => h1 ⟨hj, h⟩), fun c hc => ?_⟩
    have hcn := regionQuery_lt ops pts epsilon j c hc
    by_contra hge
    exact h2 c ⟨hcn, not_lt.mp hge⟩ (hsym c j hj hc)
  · rintro ⟨h1, h2⟩
    refine ⟨fun hc => absurd h1 (not_lt.mpr hc.2), fun c hc hjc => ?_⟩
    exact absurd (h2 c (hsym j c hc.1 hjc)) (not_lt.mpr hc.2)

/-- C21 on `linePoints` with epsilon 1 and minPts 2 in binary64 arithmetic: the point at 1
has two neighbours and forms a cluster with them, the points at 10, 11 and 20 have fewer and
no core neighbour and are left as noise. -/
theorem C21_noise_iff_witness :
    (clusterLoop f64Ops linePoints (F64.ofNat 1) 2).1 = [0, 0, 0, NOISE, NOISE, NOISE] ∧
    ((clusterLoop f64Ops linePoints (F64.ofNat 1) 2).1.getD 3 UNVISITED = NOISE ↔
      ((regionQuery f64Ops linePoints (F64.ofNat 1) 3).length : Int) < 2 ∧
        ∀ c ∈ regionQuery f64Ops linePoints (F64.ofNat 1) 3,
          ((regionQuery f64Ops linePoints (F64.ofNat 1) c).length : Int) < 2) :=
  ⟨by decide!,
   (C21_noise_iff f64Ops linePoints (F64.ofNat 1) 2 3 (by decide)).2.2.2.2.2
      (fun a b hb h => regionQuery_symm_f64 _ (F64.ofNat 1) a b hb h)⟩

/-! ## C22: the addresses the neighbour selection returns -/

/-- C22: for every table, time, arguments and interpretation of the floating-point operations,
every address the neighbour selection returns is the key of an entry of the purged table that
is eligible (flag not `INVALID`, hop count at most 2, address not broadcast, loopback,
multicast or subnet-directed broadcast of a /24 network, so its last octet is not 255), and in
a table keyed by destination it is the destination of that entry; an eligible `IN_SEARCH`
entry of the table is a candidate point whatever its deadline, and alone in a table it is
returned; with distinct keys, the key of an entry that is `VALID` with a deadline before the
call time is not returned. -/
theorem C22_returned_eligible {K : Type} (ops : DoubleOps K) (T : RoutingTable) (now : Time)
    (dst : Ipv4Address) (positionX positionY : Nat) (epsilon : K) (minPts : Int) :
    (∀ a ∈ (T.DBSCAN now ops dst positionX positionY epsilon minPts).1,
      ∃ e, (a, e) ∈ (T.Purge now).m_ipv4AddressEntry ∧ specEligible a e ∧ a % 256 ≠ 255 ∧
        (keyedByDestination T.m_ipv4AddressEntry → e.GetDestination = a)) ∧
    (∀ k e, (k, e) ∈ T.m_ipv4AddressEntry → e.m_flag = IN_SEARCH → specEligible k e →
      k ∈ (extractPoints ops positionX positionY (T.Purge now).m_ipv4AddressEntry).map
        FeaturePoint.ip) ∧
    (∀ k e b, e.m_flag = IN_SEARCH → specEligible k e →
      ((RoutingTable.mk [(k, e)] b).DBSCAN now ops dst positionX positionY epsilon
        minPts).1 = [k]) ∧
    ((mapKeys T.m_ipv4AddressEntry).Nodup → ∀ k e, (k, e) ∈ T.m_ipv4AddressEntry →
      e.m_flag = VALID → e.m_lifeTime < now →
      k ∉ (T.DBSCAN now ops dst positionX positionY epsilon minPts).1) := by
  refine ⟨?_, ?_, ?_, ?_⟩
  · intro a ha
    obtain ⟨e, hmem, helig⟩ :=
      dbscan_mem_candidate ops T now dst positionX positionY epsilon minPts a ha
    refine ⟨e, hmem, helig, ?_, ?_⟩
    · intro h255
      exact helig.1 (Or.inr (Or.inr (Or.inr ((subnetBroadcast_iff a).mpr h255))))
    · intro hk
      rw [purge_entries] at hmem
      exact (purgeLoop_keyed T.m_badLinkLifetime now _ hk (a, e) hmem).symm
  · intro k e hmem hflag helig
    rw [extractPoints_ip, purge_entries]
    exact List.mem_map.mpr ⟨(k, e), List.mem_filter.mpr
      ⟨mem_purgeLoop_in_search _ now _ k e hmem hflag, (isCandidate_iff (k, e)).mpr helig⟩, rfl⟩
  · intro k e b hflag helig
    have hc : isCandidate (k, e) = true := (isCandidate_iff (k, e)).mpr helig
    simp only [RoutingTable.DBSCAN, purge_single_in_search b now k e hflag]
    have hsub := clusterAndSelect_sublist ops
      (extractPoints ops positionX positionY [(k, e)]) epsilon minPts
    have hne : clusterAndSelect ops (extractPoints ops positionX positionY [(k, e)])
        epsilon minPts ≠ [] := by
      rw [Ne, clusterAndSelect_eq_nil_iff, ← List.length_eq_zero, extractPoints_length]
      simp [hc]
    rw [extractPoints_ip] at hsub
    simp only [List.filter_cons, hc, if_true, List.filter_nil, List.map_cons, List.map_nil]
      at hsub
    rcases List.sublist_singleton.mp hsub with h | h
    · exact absurd h hne
    · exact h
  · intro hnd k e hmem hv hexp hout
    obtain ⟨e', hmem', helig⟩ :=
      dbscan_mem_candidate ops T now dst positionX positionY epsilon minPts k hout
    rw [purge_entries] at hmem'
    exact helig.2.1
      (purgeLoop_expired_valid T.m_badLinkLifetime now _ k e e' hnd hmem hv hexp hmem')

/-- C22 at `exampleTable` (entry 1 `VALID` and expired, entry 2 `INVALID`, entry 3 `IN_SEARCH`
and expired, entry 4 `VALID` and live) at time 10: the selection returns 3 and 4, and the
theorem gives an eligible entry of the purged table for address 3 and excludes address 1. -/
theorem C22_returned_eligible_witness :
    (exampleTable.DBSCAN 10 f64Ops 0 0 0 (F64.ofRat (1 / 2)) 2).1 = [3, 4] ∧
    (∃ e, (3, e) ∈ (exampleTable.Purge 10).m_ipv4AddressEntry ∧ specEligible 3 e ∧
      3 % 256 ≠ 255 ∧
      (keyedByDestination exampleTable.m_ipv4AddressEntry → e.GetDestination = 3)) ∧
    1 ∉ (exampleTable.DBSCAN 10 f64Ops 0 0 0 (F64.ofRat (1 / 2)) 2).1 :=
  ⟨by decide!,
   (C22_returned_eligible f64Ops exampleTable 10 0 0 0 (F64.ofRat (1 / 2)) 2).1 3 (by decide!),
   (C22_returned_eligible f64Ops exampleTable 10 0 0 0 (F64.ofRat (1 / 2)) 2).2.2.2 (by decide) 1
     (exampleEntry 1 VALID 5 3) (by decide) (by decide) (by decide)⟩

/-! ## C23: purging twice at one instant -/

/-- C23: for every table with a non-negative bad-link lifetime and every time, purging twice
at that time gives the same table as purging once, and no entry of the purged table with a
deadline strictly before that time is `VALID` or `INVALID`; for every negative bad-link
lifetime both fail on a table with one expired `VALID` entry: the purge gives it flag
`INVALID` and a deadline before that time, and the second purge removes it. -/
theorem C23_purge_idempotent (T : RoutingTable) (now : Time)
    (hb : 0 ≤ T.m_badLinkLifetime) :
    (T.Purge now).Purge now = T.Purge now ∧
    (∀ p ∈ (T.Purge now).m_ipv4AddressEntry, p.2.m_lifeTime < now →
      p.2.m_flag ≠ VALID ∧ p.2.m_flag ≠ INVALID) ∧
    (∀ (b : Time) (k : Ipv4Address) (e : RoutingTableEntry), b < 0 → e.m_flag = VALID →
      e.m_lifeTime < now →
      (RoutingTable.mk [(k, e)] b).Purge now = ⟨[(k, e.Invalidate b now)], b⟩ ∧
      (e.Invalidate b now).m_flag = INVALID ∧ (e.Invalidate b now).m_lifeTime < now ∧
      ((RoutingTable.mk [(k, e)] b).Purge now).Purge now = ⟨[], b⟩) := by
  refine ⟨purge_idem T now hb, ?_, ?_⟩
  · intro p hp hlt
    rw [purge_entries] at hp
    constructor
    · intro hv
      exact (mem_purgeLoop_valid T.m_badLinkLifetime now _ p.1 p.2 hp hv).2 hlt
    · intro hi
      exact mem_purgeLoop_invalid T.m_badLinkLifetime now hb _ p.1 p.2 hp hi hlt
  · intro b k e hb' hv hexp
    have hni : e.m_flag ≠ INVALID := by rw [hv]; decide
    have hlife : (e.Invalidate b now).m_lifeTime < now := by
      rw [invalidate_of_not_invalid e b now hni]
      show now + b < now
      linarith
    have h1 : (RoutingTable.mk [(k, e)] b).Purge now = ⟨[(k, e.Invalidate b now)], b⟩ := by
      simp [RoutingTable.Purge, purgeLoop, RoutingTableEntry.GetLifeTime,
        RoutingTableEntry.GetFlag, hv, hexp]
    refine ⟨h1, invalidate_flag e b now, hlife, ?_⟩
    rw [h1]
    simp [RoutingTable.Purge, purgeLoop, RoutingTableEntry.GetLifeTime,
      RoutingTableEntry.GetFlag, invalidate_flag, hlife]

/-- C23 at `exampleTable` (bad-link lifetime 7) at time 10: the purged table holds entry 1
invalidated with deadline 17, the expired `IN_SEARCH` entry 3 and the live entry 4, and a second
purge leaves it as it is. -/
theorem C23_purge_idempotent_witness :
    0 ≤ exampleTable.m_badLinkLifetime ∧
    (exampleTable.Purge 10).m_ipv4AddressEntry.map
      (fun p => (p.1, p.2.m_flag, p.2.m_lifeTime)) =
      [(1, INVALID, 17), (3, IN_SEARCH, 5), (4, VALID, 50)] ∧
    (exampleTable.Purge 10).Purge 10 = exampleTable.Purge 10 :=
  ⟨by decide, by decide, (C23_purge_idempotent exampleTable 10 (by decide)).1⟩

end AodvDbscan
